import Mathlib

/-!
# SumatraPDF `StrUtil.cpp`: the `str::Parse` mini-scanner and string helpers

A shallow embedding of `ParseV`, `ParseLimitedNumber`, `ExtractUntil`, `BufSet`
and the two `Parse` functions from `src/utils/StrUtil.cpp`, with the C library
and `StrUtil.h` helpers they call, and of `EqIS`, `MemToHex`, `HexToMem`,
`CmpNatural`, `NormalizeWS`, `Utf8Encode` and the `seqstrings` functions
`StrEqWeird`, `GetStrIdx` and `GetByIdx` from the same file.

Conventions of the embedding.

* A C string is a `List Char`; the terminating NUL is implicit after the last
  element.  Every function that scans a string stops at the first NUL it meets,
  whether that is an element of the list or the implicit terminator.
* A pointer into the subject is a `Ptr`: `some l` points at the characters `l`
  (followed by the terminator), `none` is the address one past the terminator,
  which can be held and returned but not read.
* `int`, `long`, `unsigned` and `UINT` are 32 bits wide (Windows); unsigned values
  are `Nat` reduced modulo `2 ^ 32`, signed values are `Int`.  Lengths are plain
  `Nat`; where a statement needs a string to be shorter than `UINT_MAX`
  characters, as every string in a 32-bit address space is, it says so.
* `strtoul`, `strtol` and `strtod` are the C library functions, modelled after
  ISO C; the value `%f` stores is kept as the text `strtod` converted.
* The wide-character functions `iswalnum` and `towlower` that `CmpNatural` calls
  depend on the C runtime and its locale outside ASCII; `CmpNatural` takes them
  as the parameter `WideChars`, and its theorems hold for every such pair of
  functions that is as ISO C has it on the ASCII characters (`WideChars.Ascii`).
* The variadic argument list is the list of `Slot`s taken from it so far, in
  order; a slot that was taken but never written is `none`.
* Code that writes through a pointer (`NormalizeWS`, `Utf8Encode`) works on the
  buffer as a list with the pointers as indices into it.  The memory of a
  `seqstrings` table is the list of its characters with the terminators as
  elements; a read after its last element is a fault.
-/

namespace str

/-- The NUL character that terminates a C string. -/
def NUL : Char := Char.ofNat 0

/-- The character a `const char *` points at: the head of the list, and the
terminator when the list is exhausted (`*p`). -/
def cur (p : List Char) : Char := p.headD NUL

/-- Modelled from the spec: `IsWs` of `StrUtil.h` (not among the sources), the
whitespace test "as the standard library equivalent" `isspace`: space, `\t`,
`\n`, `\v`, `\f`, `\r`. -/
def IsWs (c : Char) : Bool := c.toNat == 32 || (9 ≤ c.toNat && c.toNat ≤ 13)

/-- Modelled from the spec: `IsDigit` of `StrUtil.h` (not among the sources), the
digit test "as the standard library equivalent" `isdigit`: `'0'` to `'9'`. -/
def IsDigit (c : Char) : Bool := 48 ≤ c.toNat && c.toNat ≤ 57

/-- Modelled from the spec: `Len` of `StrUtil.h` (not among the sources), the
string length "as the standard library equivalent" `strlen`: the number of
characters before the first NUL. -/
def Len (s : List Char) : Nat := (s.takeWhile (fun c => c != NUL)).length

/-- Modelled from the spec: `FindChar` of `StrUtil.h` (not among the sources), the
character search "as the standard library equivalent" `strchr`: the offset of
the first occurrence of `c` in the string, the terminator counting as part of
the string (so searching for NUL finds the end), or `none` for a NULL result. -/
def FindChar : List Char → Char → Option Nat
  | [], c => if c = NUL then some 0 else none
  | x :: xs, c =>
    if x = c then some 0
    else if x = NUL then none
    else (FindChar xs c).map (fun k => k + 1)

/-! ## C library number conversions -/

/-- Value of a character as a digit (`0-9`, `a-z`, `A-Z`), 36 when it is none. -/
def digitVal (c : Char) : Nat :=
  if 48 ≤ c.toNat ∧ c.toNat ≤ 57 then c.toNat - 48
  else if 97 ≤ c.toNat ∧ c.toNat ≤ 122 then c.toNat - 97 + 10
  else if 65 ≤ c.toNat ∧ c.toNat ≤ 90 then c.toNat - 65 + 10
  else 36

/-- Whether `c` is a digit of the given base. -/
def isDigitIn (base : Nat) (c : Char) : Bool := decide (digitVal c < base)

/-- The number denoted by a run of digits, most significant first. -/
def digitsVal (base : Nat) (ds : List Char) : Nat :=
  ds.foldl (fun acc c => acc * base + digitVal c) 0

/-- What the `strto*` family recognises at the start of a string. -/
structure Scan where
  /-- a minus sign was read -/
  neg : Bool
  /-- magnitude of the digits read -/
  mag : Nat
  /-- number of characters consumed (`endptr - nptr`); 0 when there is no number -/
  len : Nat
deriving DecidableEq

/-- The subject sequence of `strtol`/`strtoul` (ISO C): optional whitespace, an
optional sign, for base 16 an optional `0x`/`0X` that is followed by a
hexadecimal digit, then the longest run of digits of the base.  Without a digit
nothing is consumed. -/
def scanInt (base : Nat) (s : List Char) : Scan :=
  let ws := (s.takeWhile IsWs).length
  let s1 := s.drop ws
  let neg := cur s1 == '-'
  let sg := if cur s1 == '-' || cur s1 == '+' then 1 else 0
  let s2 := s1.drop sg
  let px := if base == 16 && cur s2 == '0' && (cur (s2.drop 1) == 'x' || cur (s2.drop 1) == 'X')
                && isDigitIn 16 (cur (s2.drop 2)) then 2 else 0
  let ds := (s2.drop px).takeWhile (isDigitIn base)
  if ds.isEmpty then ⟨false, 0, 0⟩ else ⟨neg, digitsVal base ds, ws + sg + px + ds.length⟩

/-- Result of the C library `strtoul(s, &end, base)` with a 32-bit `unsigned long`:
the value and `end - s`.  Out of range gives `ULONG_MAX`; a minus sign negates
in the unsigned type. -/
def strtoul (s : List Char) (base : Nat) : Nat × Nat :=
  let r := scanInt base s
  (if r.mag > 2 ^ 32 - 1 then 2 ^ 32 - 1
   else if r.neg then (2 ^ 32 - r.mag) % 2 ^ 32 else r.mag, r.len)

/-- Result of the C library `strtol(s, &end, base)` with a 32-bit `long`: the value
and `end - s`.  Out of range gives `LONG_MAX` or `LONG_MIN`. -/
def strtol (s : List Char) (base : Nat) : Int × Nat :=
  let r := scanInt base s
  (if r.neg then (if r.mag > 2 ^ 31 then -(2 ^ 31 : Int) else -(r.mag : Int))
   else (if r.mag > 2 ^ 31 - 1 then (2 ^ 31 - 1 : Int) else (r.mag : Int)), r.len)

/-- Number of characters the C library `strtod(s, &end)` consumes (`end - s`), for
the decimal form: optional whitespace, optional sign, digits with an optional
point (at least one digit), and an optional exponent `e`/`E` with optional sign
and at least one digit. -/
def strtodLen (s : List Char) : Nat :=
  let ws := (s.takeWhile IsWs).length
  let s1 := s.drop ws
  let sg := if cur s1 == '-' || cur s1 == '+' then 1 else 0
  let s2 := s1.drop sg
  let ip := (s2.takeWhile IsDigit).length
  let s3 := s2.drop ip
  let fp := if cur s3 == '.' then ((s3.drop 1).takeWhile IsDigit).length else 0
  let pt := if cur s3 == '.' then 1 else 0
  let s4 := s3.drop (pt + fp)
  let es := if cur (s4.drop 1) == '-' || cur (s4.drop 1) == '+' then 1 else 0
  let ed := ((s4.drop (1 + es)).takeWhile IsDigit).length
  let ex := if (cur s4 == 'e' || cur s4 == 'E') && ed != 0 then 1 + es + ed else 0
  if ip + fp == 0 then 0 else ws + sg + ip + pt + fp + ex

/-! ## Pointers, output slots, results -/

/-- A pointer into a NUL-terminated string: `some l` points at the characters `l`
followed by the terminator, `none` is one past the terminator. -/
abbrev Ptr := Option (List Char)

/-- Pointer arithmetic `p + k`. -/
def Ptr.add : Ptr → Nat → Ptr
  | none, _ => none
  | some l, k => if k ≤ l.length then some (l.drop k) else none

/-- A value stored through an output pointer of the argument list. -/
inductive Value
  /-- `unsigned int` written by `%u` or `%x` -/
  | uint (n : Nat)
  /-- `int` written by `%d` -/
  | int (i : Int)
  /-- `float` written by `%f`: `(float)strtod` of the given text, kept symbolic -/
  | float (text : List Char)
  /-- `char` written by `%c` -/
  | chr (c : Char)
  /-- `char *` written by `%s`: a fresh copy, or NULL (`none`) -/
  | str (s : Option (List Char))
  /-- contents given to a `ScopedMem<char>` by `%S` -/
  | scoped (s : Option (List Char))
deriving DecidableEq

/-- One pointer taken from the argument list with `va_arg`, holding what was
stored through it (`none` if nothing was stored). -/
abbrev Slot := Option Value

/-- What a parse returns. -/
inductive PResult
  /-- the NULL pointer: no match -/
  | null
  /-- a pointer `off` characters after the start of the subject -/
  | ptr (off : Nat)
  /-- undefined behaviour or a crash: a read through a pointer past the
  terminator, or `CrashAlwaysIf` firing -/
  | fault
  /-- the recursion budget of the embedding ran out (never for `Parse`, see
  `Parse_no_timeout`) -/
  | timeout
deriving DecidableEq

/-- `str::DupN(s, lenCch)`: a fresh copy of the first `lenCch` characters
(allocation is assumed to succeed). -/
def DupN (s : List Char) (lenCch : Nat) : List Char := s.take lenCch

/-- `ExtractUntil(pos, c, &endOut)`: the returned copy (`none` for NULL) and the
offset of `*endOut` from `pos` (`none` for NULL). -/
def ExtractUntil (pos : List Char) (c : Char) : Option (List Char) × Option Nat :=
  match FindChar pos c with
  | none => (none, none)
  | some k => (some (DupN pos k), some k)

/-- `str::BufSet(dst, dstCchSize, src)`: `none` when `CrashAlwaysIf(0 == dstCchSize)`
fires, otherwise the string left in `dst` and the returned count `toCopy`. -/
def BufSet (dstCchSize : Nat) (src : List Char) : Option (List Char × Nat) :=
  if dstCchSize = 0 then none
  else some (src.take (min (dstCchSize - 1) (Len src)), min (dstCchSize - 1) (Len src))

/-- What `ParseLimitedNumber` leaves behind. -/
structure Limited where
  /-- the returned pointer `endF`, as an offset into `format`; `fault` and
  `timeout` are passed on from the calls made -/
  endF : PResult
  /-- the offset of `*endOut` from `str` if it was assigned, `none` if left NULL -/
  endOut : Option Nat
  /-- what was stored through `valueOut` -/
  valueOut : Slot
deriving DecidableEq

/-- `ParseLimitedNumber(str, format, &endOut, valueOut)`.  `Parse` is the two-string
`Parse` the source calls back into. -/
def ParseLimitedNumber (Parse : List Char → List Char → PResult × List Slot)
    (str : Ptr) (format : List Char) : Limited :=
  let r := Parse format ['%', 'u', '%', 'c']
  let width : Nat := match r.2 with
    | some (Value.uint w) :: _ => w
    | _ => 0
  let f21 : Char := match r.2 with
    | _ :: some (Value.chr c) :: _ => c
    | _ => ' '
  match r.1 with
  | .ptr _ =>
    if (FindChar ['u', 'd', 'x'] f21).isSome then
      match str with
      | none => ⟨.fault, none, none⟩
      | some s =>
        if width ≤ Len s then
          match BufSet (min ((width + 1) % 2 ^ 32) 16) s with
          | none => ⟨.fault, none, none⟩
          | some (limited, _) =>
            let r2 := Parse limited ['%', f21]
            match r2.1 with
            | .ptr e =>
              match Ptr.add (some limited) e with
              | none => ⟨.fault, none, r2.2.headD none⟩
              | some rest =>
                if cur rest = NUL then ⟨r.1, some width, r2.2.headD none⟩
                else ⟨r.1, none, r2.2.headD none⟩
            | .null => ⟨r.1, none, r2.2.headD none⟩
            | .fault => ⟨.fault, none, r2.2.headD none⟩
            | .timeout => ⟨.timeout, none, r2.2.headD none⟩
        else ⟨r.1, none, none⟩
    else ⟨r.1, none, none⟩
  | _ => ⟨r.1, none, none⟩

/-- How one pass through the `if`/`else if` chain of `ParseV` ends. -/
inductive Step
  /-- undefined behaviour or a crash -/
  | fault (args : List Slot)
  /-- the recursion budget ran out in a nested call -/
  | timeout (args : List Slot)
  /-- a `continue` statement, with the format pointer `f` as it then is -/
  | cont (f : List Char) (args : List Slot)
  /-- the chain was left towards `if (!end || end == str)`, with the format
  pointer `f` and `end` as an offset from `str` (`none` for NULL) -/
  | go (f : List Char) (e : Option Nat) (args : List Slot)
deriving DecidableEq

/-- The `if`/`else if` chain of the loop body of `ParseV`, entered with `f` on the
character after `'%'`.  When `str` is one past the terminator (`none`), every
branch that evaluates `*str` or hands `str` to a scanning function is undefined. -/
def directive (Parse : List Char → List Char → PResult × List Slot)
    (str : Ptr) (f : List Char) (args : List Slot) : Step :=
  match str with
  | some s =>
    if cur f = 'u' then
      .go f (some (strtoul s 10).2) (args ++ [some (.uint (strtoul s 10).1)])
    else if cur f = 'd' then
      .go f (some (strtol s 10).2) (args ++ [some (.int (strtol s 10).1)])
    else if cur f = 'x' then
      .go f (some (strtoul s 16).2) (args ++ [some (.uint (strtoul s 16).1)])
    else if cur f = 'f' then
      .go f (some (strtodLen s)) (args ++ [some (.float (s.take (strtodLen s)))])
    else if cur f = 'c' then
      .go f (some 1) (args ++ [some (.chr (cur s))])
    else if cur f = 's' then
      .go f (ExtractUntil s (cur (f.drop 1))).2
        (args ++ [some (.str (ExtractUntil s (cur (f.drop 1))).1)])
    else if cur f = 'S' then
      .go f (ExtractUntil s (cur (f.drop 1))).2
        (args ++ [some (.scoped (ExtractUntil s (cur (f.drop 1))).1)])
    else if cur f = '$' ∧ cur s = NUL then
      .cont f args
    else if cur f = '%' ∧ cur f = cur s then
      .go f (some 1) args
    else if cur f = ' ' ∧ IsWs (cur s) = true then
      .go f (some 1) args
    else if cur f = '_' then
      if IsWs (cur s) = false then .cont f args
      else .go f (some (1 + ((s.drop 1).takeWhile IsWs).length)) args
    else if cur f = '?' ∧ cur (f.drop 1) ≠ NUL then
      if cur s ≠ cur (f.drop 1) then .cont (f.drop 1) args
      else .go (f.drop 1) (some 1) args
    else if IsDigit (cur f) = true then
      match (ParseLimitedNumber Parse str f).endF with
      | .ptr k =>
        .go (f.drop (k - 1)) (ParseLimitedNumber Parse str f).endOut
          (args ++ [(ParseLimitedNumber Parse str f).valueOut])
      | .null => .go [] none (args ++ [(ParseLimitedNumber Parse str f).valueOut])
      | .fault => .fault (args ++ [(ParseLimitedNumber Parse str f).valueOut])
      | .timeout => .timeout (args ++ [(ParseLimitedNumber Parse str f).valueOut])
    else .go f none args
  | none =>
    if cur f = 'u' then .fault args
    else if cur f = 'd' then .fault args
    else if cur f = 'x' then .fault args
    else if cur f = 'f' then .fault args
    else if cur f = 'c' then .fault args
    else if cur f = 's' then .fault args
    else if cur f = 'S' then .fault args
    else if cur f = '$' then .fault args
    else if cur f = '%' then .fault args
    else if cur f = ' ' then .fault args
    else if cur f = '_' then .fault args
    else if cur f = '?' ∧ cur (f.drop 1) ≠ NUL then .fault args
    else if IsDigit (cur f) = true then
      match (ParseLimitedNumber Parse str f).endF with
      | .ptr k =>
        .go (f.drop (k - 1)) (ParseLimitedNumber Parse str f).endOut
          (args ++ [(ParseLimitedNumber Parse str f).valueOut])
      | .null => .go [] none (args ++ [(ParseLimitedNumber Parse str f).valueOut])
      | .fault => .fault (args ++ [(ParseLimitedNumber Parse str f).valueOut])
      | .timeout => .timeout (args ++ [(ParseLimitedNumber Parse str f).valueOut])
    else .go f none args

/-- `ParseV(str, format, args)`.  The first argument bounds the number of loop
iterations and nested calls; `pos` is the offset of `str` from the start of
the subject and `args` the slots taken from the argument list so far.  Returns
the result pointer and the slots taken. -/
def ParseV : Nat → Ptr → Nat → List Char → List Slot → PResult × List Slot
  | 0, _, _, _, args => (.timeout, args)
  | n + 1, str, pos, f, args =>
    if cur f = NUL then (.ptr pos, args)
    else if cur f ≠ '%' then
      match str with
      | none => (.fault, args)
      | some s =>
        if cur f ≠ cur s then (.null, args)
        else ParseV n (some (s.drop 1)) (pos + 1) (f.drop 1) args
    else
      match directive (fun s fmt => ParseV n (some s) 0 fmt []) str (f.drop 1) args with
      | .fault a => (.fault, a)
      | .timeout a => (.timeout, a)
      | .cont f1 a => ParseV n str pos (f1.drop 1) a
      | .go f1 e a =>
        match e with
        | none => (.null, a)
        | some k =>
          if k = 0 then (.null, a)
          else ParseV n (str.add k) (pos + k) (f1.drop 1) a

/-- `Parse(str, fmt, ...)` for two non-NULL strings: the result pointer as an
offset into `str`, and the output slots taken from the argument list. -/
def Parse (str fmt : List Char) : PResult × List Slot :=
  ParseV (fmt.length + 3) (some str) 0 fmt []

/-- The width as `ParseLimitedNumber` gets it from `%u`: the digits read by
`strtoul`, saturating at `UINT_MAX`. -/
def widthOf (ds : List Char) : Nat :=
  if digitsVal 10 ds > 2 ^ 32 - 1 then 2 ^ 32 - 1 else digitsVal 10 ds

/-- The characters that may follow `'%'` according to the doc comment of `ParseV`:
`u d x f c s S ? $ _ %`, the space, and the digits of a width. -/
def isDirectiveChar (c : Char) : Bool :=
  c == 'u' || c == 'd' || c == 'x' || c == 'f' || c == 'c' || c == 's' || c == 'S' ||
    c == '?' || c == '$' || c == ' ' || c == '_' || c == '%' || IsDigit c

/-! ## `EqIS`, `MemToHex`, `HexToMem` and the rendering of integers -/

/-- The C library `towlower`, on the ASCII letters. -/
def towlower (c : Char) : Char := c.toLower

/-- The `while` loop of `str::EqIS(s1, s2)` (for wide characters `IsWs` is the
library's `iswspace`).  The first argument bounds the number of iterations;
`none` is an exhausted bound. -/
def EqISLoop : Nat → List Char → List Char → Option Bool
  | 0, _, _ => none
  | n + 1, s1, s2 =>
    if cur s1 ≠ NUL ∧ cur s2 ≠ NUL then
      if towlower (cur (s1.dropWhile IsWs)) ≠ towlower (cur (s2.dropWhile IsWs)) then some false
      else if cur (s1.dropWhile IsWs) ≠ NUL then
        EqISLoop n ((s1.dropWhile IsWs).drop 1) ((s2.dropWhile IsWs).drop 1)
      else EqISLoop n (s1.dropWhile IsWs) (s2.dropWhile IsWs)
    else some (cur s1 == NUL && cur s2 == NUL)

/-- `str::EqIS(s1, s2)`. -/
def EqIS (s1 s2 : List Char) : Option Bool := EqISLoop (s1.length + 2) s1 s2

/-- The sixteen lower-case hexadecimal digits, the characters `%02x` can print. -/
def lowerHexDigits : List Char := "0123456789abcdef".toList

/-- What `sprintf_s(dst, 3, "%02x", b)` writes for a byte `b`: its value in
lower-case hexadecimal, padded with `0` to two digits. -/
def fmt02x (b : Nat) : List Char :=
  if (Nat.toDigits 16 b).length < 2 then '0' :: Nat.toDigits 16 b else Nat.toDigits 16 b

/-- `str::MemToHex(buf, len)` for a buffer of `len` bytes (allocation is assumed to
succeed): the string built in `ret`. -/
def MemToHex : List Nat → List Char
  | [] => []
  | b :: buf => fmt02x b ++ MemToHex buf

/-- The C library `sscanf_s(s, "%02x", &c)`: `none` when nothing is converted (the
call does not return 1), else the value stored in `c`.  Leading whitespace is
skipped; the input item is at most two characters long and is an optionally
signed hexadecimal number, so a sign or the mark `0x` uses up the width. -/
def sscanf02x (s : List Char) : Option Int :=
  let t := s.dropWhile IsWs
  if cur t = '-' then
    if isDigitIn 16 (cur (t.drop 1)) then some (-(digitVal (cur (t.drop 1)) : Int)) else none
  else if cur t = '+' then
    if isDigitIn 16 (cur (t.drop 1)) then some (digitVal (cur (t.drop 1)) : Int) else none
  else if cur t = '0' ∧ (cur (t.drop 1) = 'x' ∨ cur (t.drop 1) = 'X') then none
  else if isDigitIn 16 (cur t) then
    if isDigitIn 16 (cur (t.drop 1)) then
      some ((digitVal (cur t) * 16 + digitVal (cur (t.drop 1)) : Nat) : Int)
    else some (digitVal (cur t) : Int)
  else none

/-- `str::HexToMem(s, buf, bufLen)`: the returned flag (`none` when the string is read
outside its bounds) and the bytes stored in `buf`. -/
def HexToMem : Ptr → Nat → Option Bool × List Nat
  | none, _ => (none, [])
  | some l, 0 => (some (cur l == NUL), [])
  | some l, n + 1 =>
    match sscanf02x l with
    | none => (some false, [])
    | some c =>
      ((HexToMem (Ptr.add (some l) 2) n).1,
        (c % 256).toNat :: (HexToMem (Ptr.add (some l) 2) n).2)

/-- The text `str::Format("%u", n)` produces: the C library's decimal rendering. -/
def fmtU (n : Nat) : List Char := Nat.toDigits 10 n

/-- The text `str::Format("%d", i)` produces: the C library's decimal rendering. -/
def fmtD (i : Int) : List Char :=
  if i < 0 then '-' :: Nat.toDigits 10 i.natAbs else Nat.toDigits 10 i.toNat

/-- The text `str::Format("%x", n)` produces: the C library's hexadecimal rendering
(lower case, no `0x`). -/
def fmtX (n : Nat) : List Char := Nat.toDigits 16 n

/-! ## `CmpNatural` -/

/-- The wide-character functions of the C library that `CmpNatural` calls.  What
they return for a character outside ASCII depends on the C runtime and its
locale (the Windows runtime has `iswalnum` true for letters such as `é`), so
the embedding of `CmpNatural` takes the two functions as a parameter. -/
structure WideChars where
  /-- the C library `iswalnum` -/
  iswalnum : Char → Bool
  /-- the C library `towlower` -/
  towlower : Char → Char

/-- The C library `isalnum` of the "C" locale: the digits and the letters `A` to
`Z` and `a` to `z`. -/
def isAsciiAlnum (c : Char) : Bool :=
  IsDigit c || (65 ≤ c.toNat && c.toNat ≤ 90) || (97 ≤ c.toNat && c.toNat ≤ 122)

/-- What is fixed of the two functions whatever the runtime and the locale: on the
ASCII characters `iswalnum` is `isalnum` and `towlower` is `tolower`. -/
def WideChars.Ascii (L : WideChars) : Prop :=
  ∀ c : Char, c.toNat < 128 → L.iswalnum c = isAsciiAlnum c ∧ L.towlower c = c.toLower

/-- The two functions as they are in the "C" locale, where no character outside
ASCII is alphanumeric or has a lower-case form. -/
def cLocale : WideChars := ⟨isAsciiAlnum, Char.toLower⟩

/-- The difference `*a - *b` of two characters as an `int`. -/
def charDiff (x y : Char) : Int := (x.toNat : Int) - (y.toNat : Int)

/-- The C library `wcscmp`: negative, zero or positive (here -1, 0, 1) as the first
string is below, equal to or above the second, character by character. -/
def wcscmp : List Char → List Char → Int
  | [], b => if cur b = NUL then 0 else -1
  | x :: a, b =>
    if x = NUL then (if cur b = NUL then 0 else -1)
    else if x.toNat < (cur b).toNat then -1
    else if (cur b).toNat < x.toNat then 1
    else wcscmp a (b.drop 1)

/-- How the digit-comparing loop of `CmpNatural` ends. -/
inductive DigitRun
  /-- a `return` from inside the loop -/
  | ret (r : Int)
  /-- the loop condition failed, with `diff`, `a` and `b` as they then are -/
  | done (diff : Int) (a b : List Char)
deriving DecidableEq

/-- The loop `for (diff = 0; IsDigit(*a) || IsDigit(*b); a++, b++)` of `CmpNatural`,
entered with the current `diff`. -/
def cmpDigits : List Char → List Char → Int → DigitRun
  | [], b, diff => if IsDigit (cur b) = true then .ret (-1) else .done diff [] b
  | x :: a, b, diff =>
    if IsDigit x = true ∨ IsDigit (cur b) = true then
      if IsDigit x = false then .ret (-1)
      else if IsDigit (cur b) = false then .ret 1
      else cmpDigits a (b.drop 1) (if diff = 0 then charDiff x (cur b) else diff)
    else .done diff (x :: a) b

/-- The outer loop of `str::CmpNatural(a, b)`, with `aStart` and `bStart`.  `first`
says that `a` is still `aStart`; the argument before it bounds the number of
iterations (`none` is an exhausted bound).  After the digit loop `a--; b--`
and the `a++, b++` of the outer loop cancel. -/
def CmpNaturalLoop (L : WideChars) (aStart bStart : List Char) :
    Nat → Bool → List Char → List Char → Option Int
  | 0, _, _, _ => none
  | n + 1, first, a, b =>
    let skip : Bool := first || cur a == NUL || cur b == NUL || (IsWs (cur a) && IsWs (cur b))
    let a1 := if skip then a.dropWhile IsWs else a
    let b1 := if skip then b.dropWhile IsWs else b
    if cur a1 = NUL ∧ cur b1 = NUL then some (wcscmp aStart bStart)
    else if IsDigit (cur a1) = true ∧ IsDigit (cur b1) = true then
      match cmpDigits (a1.dropWhile (fun c => c == '0')) (b1.dropWhile (fun c => c == '0')) 0 with
      | .ret r => some r
      | .done diff a2 b2 =>
        if diff = 0 then CmpNaturalLoop L aStart bStart n false a2 b2 else some diff
    else if L.iswalnum (cur a1) = true ∧ L.iswalnum (cur b1) = true then
      if charDiff (L.towlower (cur a1)) (L.towlower (cur b1)) = 0 then
        CmpNaturalLoop L aStart bStart n false (a1.drop 1) (b1.drop 1)
      else some (charDiff (L.towlower (cur a1)) (L.towlower (cur b1)))
    else if L.iswalnum (cur a1) = true then some 1
    else if L.iswalnum (cur b1) = true then some (-1)
    else
      if charDiff (cur a1) (cur b1) = 0 then
        CmpNaturalLoop L aStart bStart n false (a1.drop 1) (b1.drop 1)
      else some (charDiff (cur a1) (cur b1))

/-- `str::CmpNatural(a, b)` for two non-NULL strings, with the wide-character
functions `L` of the C library. -/
def CmpNatural (L : WideChars) (a b : List Char) : Option Int :=
  CmpNaturalLoop L a b (a.length + 2) true a b

/-! ## Value-producing directives of a format, and the length-bounded `Parse` -/

/-- The type of an output slot. -/
inductive Kind
  | uint | int | float | chr | str | scoped
deriving DecidableEq

/-- The type of a stored value. -/
def Value.kind : Value → Kind
  | .uint _ => .uint
  | .int _ => .int
  | .float _ => .float
  | .chr _ => .chr
  | .str _ => .str
  | .scoped _ => .scoped

/-- The type of what a slot holds, `none` for a slot that was never written. -/
def slotKind (s : Slot) : Option Kind := s.map Value.kind

/-- Where a left-to-right reading of a format stands. -/
inductive FmtMode
  /-- between directives -/
  | lit
  /-- just after a `'%'` -/
  | pct
  /-- inside the digits of a width -/
  | width
  /-- just after `%?` -/
  | opt
deriving DecidableEq

/-- The value-producing directives of a format in the order they occur, by the list
of the spec: `%u`, `%d`, `%x`, `%f`, `%c`, `%s`, `%S` and `%<width><u|d|x>` each
produce a value (of the type given); literals, `%%`, `% `, `%_`, `%?X` and `%$`
produce none. -/
def scanFmt : FmtMode → List Char → List Kind
  | _, [] => []
  | .lit, c :: f => if c = '%' then scanFmt .pct f else scanFmt .lit f
  | .pct, c :: f =>
    if c = 'u' then .uint :: scanFmt .lit f
    else if c = 'd' then .int :: scanFmt .lit f
    else if c = 'x' then .uint :: scanFmt .lit f
    else if c = 'f' then .float :: scanFmt .lit f
    else if c = 'c' then .chr :: scanFmt .lit f
    else if c = 's' then .str :: scanFmt .lit f
    else if c = 'S' then .scoped :: scanFmt .lit f
    else if c = '?' then scanFmt .opt f
    else if IsDigit c = true then scanFmt .width f
    else scanFmt .lit f
  | .opt, _ :: f => scanFmt .lit f
  | .width, c :: f =>
    if IsDigit c = true then scanFmt .width f
    else if c = 'u' then .uint :: scanFmt .lit f
    else if c = 'd' then .int :: scanFmt .lit f
    else if c = 'x' then .uint :: scanFmt .lit f
    else scanFmt .lit f

/-- The types of the value-producing directives of a format, in order. -/
def slotKinds (fmt : List Char) : List Kind := scanFmt .lit fmt

/-- `Parse(str, len, fmt, ...)` for non-NULL arguments, `str` being a buffer of at
least `len` characters: the result pointer as an offset into `str`, and the
output slots.  For `len < 128` the subject is the 128-character array `buf`,
zero-filled and overwritten with the first `len` characters; otherwise it is
the copy `DupN(str, len)`. -/
def ParseLen (str : List Char) (len : Nat) (fmt : List Char) : PResult × List Slot :=
  if len < 128 then
    ParseV (fmt.length + 3) (some (str.take len ++ List.replicate (127 - len) NUL)) 0 fmt []
  else ParseV (fmt.length + 3) (some (DupN str len)) 0 fmt []

/-- The string `m` is the string `l` followed by further zero characters, as the
zero-filled scratch buffer of the length-bounded `Parse` is to the copy it holds. -/
def NulExt (l m : List Char) : Prop := ∃ z : List Char, m = l ++ z ∧ ∀ c ∈ z, c = NUL

/-- A pointer `q` into a zero-padded buffer that corresponds to the pointer `p` into
the unpadded string: the same characters followed by more zeroes; once `p` is
past the terminator `q` may be anywhere. -/
def Pad (p q : Ptr) : Prop :=
  match p with
  | none => True
  | some l => ∃ m, q = some m ∧ NulExt l m

/-! ## `seqstrings`: strings laid out one after the other in memory -/

/-- What `StrEqWeird` returns. -/
inductive Weird
  /-- NULL: `s` is the same as `toFind` -/
  | same
  /-- the pointer one past the terminator of `s`, given by the memory from there on -/
  | next (s : List Char)
  /-- a read outside the memory of the table -/
  | fault
deriving DecidableEq

/-- The statements `while (*s) s++;` and then one more `s++` (or `s + 1`): the
pointer one past the next terminator.  A pointer into the table is the list of
the characters from there to the end of the table's memory, terminators
included; `none` when the loop runs off that memory. -/
def skipString : List Char → Option (List Char)
  | [] => none
  | c :: s => if c = NUL then some s else skipString s

/-- `seqstrings::StrEqWeird(s, toFind)`: `s` points into the table, `toFind` is
a NUL-terminated string. -/
def seqstrings.StrEqWeird : List Char → List Char → Weird
  | [], _ => .fault
  | c :: s, toFind =>
    if c = NUL then
      if cur toFind = NUL then .same else .next s
    else if c ≠ cur toFind then
      match skipString s with
      | some s1 => .next s1
      | none => .fault
    else seqstrings.StrEqWeird s (toFind.drop 1)

/-- The loop of `GetStrIdx` with `n` iterations left (`max - idx`), at index `idx`
and pointer `s`; `none` for a read outside the memory of the table. -/
def seqstrings.GetStrIdxLoop (toFind : List Char) : Nat → Int → List Char → Option Int
  | 0, _, _ => some (-1)
  | n + 1, idx, s =>
    match seqstrings.StrEqWeird s toFind with
    | .same => some idx
    | .next s1 => seqstrings.GetStrIdxLoop toFind n (idx + 1) s1
    | .fault => none

/-- `seqstrings::GetStrIdx(strings, toFind, max)`. -/
def seqstrings.GetStrIdx (strings toFind : List Char) (max : Int) : Option Int :=
  seqstrings.GetStrIdxLoop toFind max.toNat 0 strings

/-- The loop of `GetByIdx` with `idx` still to count down. -/
def seqstrings.GetByIdxLoop : Nat → List Char → Option (List Char)
  | 0, s => some s
  | n + 1, s =>
    match skipString s with
    | some s1 => seqstrings.GetByIdxLoop n s1
    | none => none

/-- `seqstrings::GetByIdx(strings, idx)`: the pointer returned, `none` for a read
outside the memory of the table. -/
def seqstrings.GetByIdx (strings : List Char) (idx : Int) : Option (List Char) :=
  seqstrings.GetByIdxLoop idx.toNat strings

/-- The memory of a table of strings laid out sequentially: each string followed
by its terminator. -/
def seqstrings.layout : List (List Char) → List Char
  | [] => []
  | s :: t => s ++ NUL :: seqstrings.layout t

/-- The NUL-terminated string a pointer into memory points at. -/
def cstr (p : List Char) : List Char := p.takeWhile (fun c => c != NUL)

/-! ## `NormalizeWS` -/

/-- The `for` loop of `NormalizeWS` on the buffer `buf` (the terminator follows its
last character), with the indices `src` and `dst` and the flag `addedSpace`;
the first argument bounds the number of iterations.  Returns the buffer and
the two indices at the end of the loop, `none` if the bound was too small. -/
def NormalizeWSLoop : Nat → List Char → Nat → Nat → Bool → Option (List Char × Nat × Nat)
  | 0, _, _, _, _ => none
  | n + 1, buf, src, dst, addedSpace =>
    if buf.getD src NUL = NUL then some (buf, src, dst)
    else if IsWs (buf.getD src NUL) = false then
      NormalizeWSLoop n (buf.set dst (buf.getD src NUL)) (src + 1) (dst + 1) false
    else if addedSpace = false then
      NormalizeWSLoop n (buf.set dst ' ') (src + 1) (dst + 1) true
    else NormalizeWSLoop n buf (src + 1) dst addedSpace

/-- `str::NormalizeWS(str)`: the string left in the buffer and the value
returned. -/
def NormalizeWS (str : List Char) : Option (List Char × Nat) :=
  match NormalizeWSLoop (str.length + 1) str 0 0 true with
  | none => none
  | some (buf, src, dst) =>
    if 0 < dst ∧ IsWs (buf.getD (dst - 1) NUL) = true then
      some (buf.take (dst - 1), src - (dst - 1))
    else some (buf.take dst, src - dst)

/-- The words of a string: its maximal runs of characters that are not
whitespace. -/
def wsWords (s : List Char) : List (List Char) :=
  (s.splitOnP (fun c => IsWs c)).filter (fun w => !w.isEmpty)

/-- The whitespace-normal form in the words of the specification: the words of the
string with a single space between two of them, nothing before the first
and nothing after the last. -/
def normalForm (s : List Char) : List Char := [' '].intercalate (wsWords s)

/-- What the loop of `NormalizeWS` writes for the rest `s` of the string when the
flag `addedSpace` is `added`. -/
def wsCollapse : Bool → List Char → List Char
  | _, [] => []
  | added, c :: s =>
    if IsWs c = false then c :: wsCollapse false s
    else if added = false then ' ' :: wsCollapse true s
    else wsCollapse true s

/-- The last step of `NormalizeWS`: a whitespace character at the end of what the
loop wrote is cut off. -/
def stripLastWs (w : List Char) : List Char :=
  match w.getLast? with
  | some x => if IsWs x = true then w.dropLast else w
  | none => w

/-! ## `Utf8Encode` -/

/-- The statement `*tmp++ = b` on a buffer of bytes: the byte is stored as a
`uint8`. -/
def putByte (st : List Nat × Nat) (b : Int) : List Nat × Nat :=
  (st.1.set st.2 (b % 256).toNat, st.2 + 1)

/-- `str::Utf8Encode(dst, c)` on the buffer `buf` that `dst` points into, `dst`
being an index: the buffer and `dst` afterwards.  The shifts `c >> k` are only
applied to a non-negative `c` and are written as divisions by `2 ^ k`, the masks
`& (2 ^ k - 1)` as remainders modulo `2 ^ k`. -/
def Utf8Encode (buf : List Nat) (dst : Nat) (c : Int) : List Nat × Nat :=
  if c < 0x00080 then
    putByte (buf, dst) (c % 256)
  else if c < 0x00800 then
    putByte (putByte (buf, dst) (0xC0 + (c / 2 ^ 6 % 32) % 256)) (0x80 + (c % 64) % 256)
  else if c < 0x10000 then
    putByte (putByte (putByte (buf, dst) (0xE0 + (c / 2 ^ 12 % 16) % 256))
      (0x80 + (c / 2 ^ 6 % 64) % 256)) (0x80 + (c % 64) % 256)
  else
    putByte (putByte (putByte (putByte (buf, dst) (0xF0 + (c / 2 ^ 18 % 8) % 256))
      (0x80 + (c / 2 ^ 12 % 64) % 256)) (0x80 + (c / 2 ^ 6 % 64) % 256))
      (0x80 + (c % 64) % 256)

/-- A continuation byte of UTF-8, `10xxxxxx`. -/
def isCont (b : Nat) : Bool := 0x80 ≤ b && b ≤ 0xBF

/-- Modelled from the standard (RFC 3629, table 3-7 of the Unicode standard):
the decoding of one well-formed UTF-8 byte sequence, `none` for every other
sequence of bytes (a wrong length, an overlong form, a surrogate, a value above
0x10FFFF). -/
def utf8Decode : List Nat → Option Nat
  | [b0] => if b0 < 0x80 then some b0 else none
  | [b0, b1] =>
    if 0xC2 ≤ b0 ∧ b0 ≤ 0xDF ∧ isCont b1 = true then
      some ((b0 - 0xC0) * 2 ^ 6 + (b1 - 0x80))
    else none
  | [b0, b1, b2] =>
    if ((b0 = 0xE0 ∧ 0xA0 ≤ b1 ∧ b1 ≤ 0xBF) ∨ (0xE1 ≤ b0 ∧ b0 ≤ 0xEC ∧ isCont b1 = true) ∨
        (b0 = 0xED ∧ 0x80 ≤ b1 ∧ b1 ≤ 0x9F) ∨ (0xEE ≤ b0 ∧ b0 ≤ 0xEF ∧ isCont b1 = true)) ∧
        isCont b2 = true then
      some ((b0 - 0xE0) * 2 ^ 12 + (b1 - 0x80) * 2 ^ 6 + (b2 - 0x80))
    else none
  | [b0, b1, b2, b3] =>
    if ((b0 = 0xF0 ∧ 0x90 ≤ b1 ∧ b1 ≤ 0xBF) ∨ (0xF1 ≤ b0 ∧ b0 ≤ 0xF3 ∧ isCont b1 = true) ∨
        (b0 = 0xF4 ∧ 0x80 ≤ b1 ∧ b1 ≤ 0x8F)) ∧ isCont b2 = true ∧ isCont b3 = true then
      some ((b0 - 0xF0) * 2 ^ 18 + (b1 - 0x80) * 2 ^ 12 + (b2 - 0x80) * 2 ^ 6 + (b3 - 0x80))
    else none
  | _ => none

/-- The length of the standard UTF-8 encoding of a code point: 1 byte below 0x80,
2 below 0x800, 3 below 0x10000 and 4 from there on. -/
def utf8Len (c : Int) : Nat :=
  if c < 0x80 then 1 else if c < 0x800 then 2 else if c < 0x10000 then 3 else 4

/-! ## Basic facts -/


@[simp] theorem cur_nil : cur [] = NUL := rfl
@[simp] theorem cur_cons (c : Char) (l : List Char) : cur (c :: l) = c := rfl

/-- One loop iteration of `ParseV` on a `'%'`. -/
theorem ParseV_percent (n : Nat) (str : Ptr) (pos : Nat) (f : List Char) (args : List Slot) :
    ParseV (n + 1) str pos ('%' :: f) args =
      match directive (fun s fmt => ParseV n (some s) 0 fmt []) str f args with
      | .fault a => (.fault, a)
      | .timeout a => (.timeout, a)
      | .cont f1 a => ParseV n str pos (f1.drop 1) a
      | .go f1 e a =>
        match e with
        | none => (.null, a)
        | some k =>
          if k = 0 then (.null, a)
          else ParseV n (str.add k) (pos + k) (f1.drop 1) a := by
  have h1 : ¬ ('%' = NUL) := by decide
  simp [ParseV, h1]

theorem ParseV_nil (n : Nat) (str : Ptr) (pos : Nat) (args : List Slot) :
    ParseV (n + 1) str pos [] args = (.ptr pos, args) := by
  simp [ParseV]

theorem ParseV_literal (F : List Char) : ∀ (S : List Char) (n pos : Nat) (args : List Slot),
    (∀ c ∈ F, c ≠ '%' ∧ c ≠ NUL) → F.length < n →
    ParseV n (some S) pos F args =
      (if F <+: S then PResult.ptr (pos + F.length) else PResult.null, args) := by
  induction F with
  | nil =>
    intro S n pos args _ hn
    obtain ⟨m, rfl⟩ : ∃ m, n = m + 1 := ⟨n - 1, by simp at hn; omega⟩
    simp [ParseV_nil]
  | cons c F ih =>
    intro S n pos args hF hn
    obtain ⟨m, rfl⟩ : ∃ m, n = m + 1 := ⟨n - 1, by simp at hn; omega⟩
    have hc := hF c (by simp)
    have hF2 : ∀ d ∈ F, d ≠ '%' ∧ d ≠ NUL := fun d hd => hF d (by simp [hd])
    have hm : F.length < m := by simp at hn; omega
    cases S with
    | nil =>
      simp [ParseV, hc.1, hc.2]
    | cons x S =>
      by_cases hx : c = x
      · subst hx
        simp [ParseV, hc.1, hc.2, ih S m (pos + 1) args hF2 hm, List.cons_prefix_cons]
        split <;> simp; omega
      · simp [ParseV, hc.1, hc.2, hx, List.cons_prefix_cons]


theorem length_takeWhile_le_length (p : Char → Bool) (l : List Char) :
    (l.takeWhile p).length ≤ l.length := by
  induction l with
  | nil => simp
  | cons a t ih =>
    rw [List.takeWhile_cons]
    split
    · simp; omega
    · simp

theorem drop_length_takeWhile (p : Char → Bool) (l : List Char) :
    l.drop (l.takeWhile p).length = l.dropWhile p := by
  induction l with
  | nil => simp
  | cons a t ih =>
    rw [List.takeWhile_cons, List.dropWhile_cons]
    split <;> simp [ih]

theorem dollar_step (n : Nat) (s : List Char) (pos : Nat) (fr : List Char) (args : List Slot) :
    ParseV (n + 1) (some s) pos ('%' :: '$' :: fr) args =
      if cur s = NUL then ParseV n (some s) pos fr args else (.null, args) := by
  rw [ParseV_percent]
  by_cases h : cur s = NUL
  · simp [directive, h]
  · have hd : IsDigit '$' = false := by decide
    simp [directive, h, hd]

theorem optional_step (n : Nat) (s : List Char) (pos : Nat) (X : Char) (fr : List Char)
    (args : List Slot) (hX : X ≠ NUL) :
    ParseV (n + 1) (some s) pos ('%' :: '?' :: X :: fr) args =
      if cur s = X then ParseV n (some (s.drop 1)) (pos + 1) fr args
      else ParseV n (some s) pos fr args := by
  rw [ParseV_percent]
  by_cases h : cur s = X
  · have hs : 1 ≤ s.length := by
      cases s with
      | nil => exact absurd h.symm hX
      | cons a t => simp
    simp [directive, h, hX, Ptr.add, hs]
  · simp [directive, h, hX]

theorem underscore_step (n : Nat) (s : List Char) (pos : Nat) (fr : List Char)
    (args : List Slot) :
    ParseV (n + 1) (some s) pos ('%' :: '_' :: fr) args =
      ParseV n (some (s.dropWhile IsWs)) (pos + (s.takeWhile IsWs).length) fr args := by
  rw [ParseV_percent]
  cases s with
  | nil =>
    have h0 : IsWs NUL = false := by decide
    simp [directive, h0]
  | cons a t =>
    by_cases h : IsWs a = true
    · have hl : (t.takeWhile IsWs).length ≤ t.length := length_takeWhile_le_length IsWs t
      simp [directive, h, Ptr.add, hl, drop_length_takeWhile, List.takeWhile_cons,
        List.dropWhile_cons, Nat.add_comm]
    · simp at h
      simp [directive, h, List.takeWhile_cons, List.dropWhile_cons]

theorem char_step (n : Nat) (x : Char) (t : List Char) (pos : Nat) (fr : List Char)
    (args : List Slot) :
    ParseV (n + 1) (some (x :: t)) pos ('%' :: 'c' :: fr) args =
      ParseV n (some t) (pos + 1) fr (args ++ [some (.chr x)]) := by
  rw [ParseV_percent]
  simp [directive, Ptr.add]


theorem FindChar_append (c : Char) (rest : List Char) : ∀ (a : List Char),
    c ∉ a → NUL ∉ a → FindChar (a ++ c :: rest) c = some a.length := by
  intro a
  induction a with
  | nil => intro _ _; simp [FindChar]
  | cons x t ih =>
    intro hc h0
    have hx : x ≠ c := fun h => hc (by simp [h])
    have hx0 : x ≠ NUL := fun h => h0 (by simp [h])
    have := ih (fun h => hc (by simp [h])) (fun h => h0 (by simp [h]))
    simp [FindChar, hx, hx0, this]

theorem FindChar_none (c : Char) (hc : c ≠ NUL) : ∀ (s : List Char),
    c ∉ s → FindChar s c = none := by
  intro s
  induction s with
  | nil => intro _; simp [FindChar, hc]
  | cons x t ih =>
    intro h
    have hx : x ≠ c := fun e => h (by simp [e])
    have := ih (fun e => h (by simp [e]))
    simp [FindChar, hx, this]

theorem FindChar_NUL : ∀ (s : List Char), NUL ∉ s → FindChar s NUL = some s.length := by
  intro s
  induction s with
  | nil => intro _; simp [FindChar]
  | cons x t ih =>
    intro h
    have hx : x ≠ NUL := fun e => h (by simp [e])
    have := ih (fun e => h (by simp [e]))
    simp [FindChar, hx, this]

theorem string_step (n : Nat) (a : List Char) (c : Char) (rest : List Char) (pos : Nat)
    (fr : List Char) (args : List Slot) (ha : a ≠ []) (hc : c ∉ a) (h0 : NUL ∉ a) :
    ParseV (n + 1) (some (a ++ c :: rest)) pos ('%' :: 's' :: c :: fr) args =
      ParseV n (some (c :: rest)) (pos + a.length) (c :: fr)
        (args ++ [some (.str (some a))]) := by
  rw [ParseV_percent]
  have hl : a.length ≠ 0 := by
    cases a with
    | nil => exact absurd rfl ha
    | cons x t => simp
  simp [directive, ExtractUntil, FindChar_append c rest a hc h0, DupN, Ptr.add, hl]

theorem string_step_absent (n : Nat) (s : List Char) (c : Char) (pos : Nat)
    (fr : List Char) (args : List Slot) (hc : c ≠ NUL) (hs : c ∉ s) :
    ParseV (n + 1) (some s) pos ('%' :: 's' :: c :: fr) args =
      (.null, args ++ [some (.str none)]) := by
  rw [ParseV_percent]
  simp [directive, ExtractUntil, FindChar_none c hc s hs]

theorem string_step_last (n : Nat) (s : List Char) (pos : Nat) (args : List Slot)
    (hs : s ≠ []) (h0 : NUL ∉ s) :
    ParseV (n + 2) (some s) pos ['%', 's'] args =
      (.ptr (pos + s.length), args ++ [some (.str (some s))]) := by
  rw [ParseV_percent]
  have hl : s.length ≠ 0 := by
    cases s with
    | nil => exact absurd rfl hs
    | cons x t => simp
  simp [directive, ExtractUntil, FindChar_NUL s h0, DupN, Ptr.add, hl, ParseV_nil]


theorem isDigitIn_ten (c : Char) : isDigitIn 10 c = IsDigit c := by
  unfold isDigitIn digitVal IsDigit
  by_cases h1 : 48 ≤ c.toNat ∧ c.toNat ≤ 57
  · have : c.toNat - 48 < 10 := by omega
    simp [h1, this]
  · by_cases h2 : 97 ≤ c.toNat ∧ c.toNat ≤ 122
    · simp only [h1, h2, if_true, if_false]
      have : ¬ (c.toNat - 97 + 10 < 10) := by omega
      simp [this]; omega
    · by_cases h3 : 65 ≤ c.toNat ∧ c.toNat ≤ 90
      · simp only [h1, h2, h3, if_true, if_false]
        have : ¬ (c.toNat - 65 + 10 < 10) := by omega
        simp [this]; omega
      · simp only [h1, h2, h3, if_false]
        simp; omega

theorem IsWs_of_IsDigit (c : Char) (h : IsDigit c = true) : IsWs c = false := by
  unfold IsDigit at h
  unfold IsWs
  simp at h ⊢
  omega

theorem takeWhile_digits_append (ds rest : List Char) (hdig : ∀ d ∈ ds, IsDigit d = true)
    (hrest : IsDigit (cur rest) = false) :
    (ds ++ rest).takeWhile (isDigitIn 10) = ds := by
  have hp : isDigitIn 10 = IsDigit := funext isDigitIn_ten
  rw [hp, List.takeWhile_append_of_pos hdig]
  cases rest with
  | nil => simp
  | cons x t => simp at hrest; simp [hrest]

theorem scanInt_digits (ds rest : List Char) (hne : ds ≠ [])
    (hdig : ∀ d ∈ ds, IsDigit d = true) (hrest : IsDigit (cur rest) = false) :
    scanInt 10 (ds ++ rest) = ⟨false, digitsVal 10 ds, ds.length⟩ := by
  cases ds with
  | nil => exact absurd rfl hne
  | cons d t =>
    have hd : IsDigit d = true := hdig d (by simp)
    have hw : IsWs d = false := IsWs_of_IsDigit d hd
    have hm : (d == '-') = false := by
      rw [beq_eq_false_iff_ne]; rintro rfl; revert hd; decide
    have hp : (d == '+') = false := by
      rw [beq_eq_false_iff_ne]; rintro rfl; revert hd; decide
    have htw := takeWhile_digits_append (d :: t) rest hdig hrest
    simp only [List.cons_append] at htw
    simp [scanInt, hw, hm, hp, htw]


theorem strtoul_digits (ds rest : List Char) (hne : ds ≠ [])
    (hdig : ∀ d ∈ ds, IsDigit d = true) (hrest : IsDigit (cur rest) = false) :
    strtoul (ds ++ rest) 10 = (widthOf ds, ds.length) := by
  simp [strtoul, scanInt_digits ds rest hne hdig hrest, widthOf]

theorem width_parse (m : Nat) (ds : List Char) (c : Char) (fr : List Char) (hne : ds ≠ [])
    (hdig : ∀ d ∈ ds, IsDigit d = true) (hc : IsDigit c = false) :
    ParseV (m + 3) (some (ds ++ c :: fr)) 0 ['%', 'u', '%', 'c'] [] =
      (.ptr (ds.length + 1), [some (.uint (widthOf ds)), some (.chr c)]) := by
  rw [ParseV_percent]
  have hl : ds.length ≠ 0 := by
    cases ds with
    | nil => exact absurd rfl hne
    | cons x t => simp
  have hs := strtoul_digits ds (c :: fr) hne hdig (by simpa using hc)
  simp [directive, hs, hl, Ptr.add, char_step, ParseV_nil]

theorem limited_endOut_of (P : List Char → List Char → PResult × List Slot)
    (s format : List Char) (e w : Nat) (c : Char)
    (hr : P format ['%', 'u', '%', 'c'] = (.ptr e, [some (.uint w), some (.chr c)]))
    (k : Nat) (h : (ParseLimitedNumber P (some s) format).endOut = some k) :
    k = w ∧ w ≤ Len s ∧ w ≠ 2 ^ 32 - 1 ∧
      (ParseLimitedNumber P (some s) format).endF = .ptr e := by
  revert h
  simp only [ParseLimitedNumber, hr]
  split
  · split
    · rename_i hw
      split
      · simp
      · rename_i lim cnt hb
        have hnz : w ≠ 2 ^ 32 - 1 := by
          intro e
          simp [BufSet, e] at hb
        split
        · split
          · simp
          · split
            · intro h
              simp at h
              exact ⟨h.symm, hw, hnz, rfl⟩
            · simp
        all_goals simp
    · simp
  · simp

theorem limited_short_of (P : List Char → List Char → PResult × List Slot)
    (s format : List Char) (e w : Nat) (c : Char)
    (hr : P format ['%', 'u', '%', 'c'] = (.ptr e, [some (.uint w), some (.chr c)]))
    (hw : ¬ (w ≤ Len s)) :
    ParseLimitedNumber P (some s) format = ⟨.ptr e, none, none⟩ := by
  simp only [ParseLimitedNumber, hr]
  split <;> simp [hw]

theorem Len_le_length (s : List Char) : Len s ≤ s.length :=
  length_takeWhile_le_length _ s

/-- The chain of `ParseV` on a digit: the call of `ParseLimitedNumber`. -/
theorem directive_digit (P : List Char → List Char → PResult × List Slot) (str : Ptr)
    (f : List Char) (args : List Slot) (hd : IsDigit (cur f) = true) :
    directive P str f args =
      match (ParseLimitedNumber P str f).endF with
      | .ptr k =>
        .go (f.drop (k - 1)) (ParseLimitedNumber P str f).endOut
          (args ++ [(ParseLimitedNumber P str f).valueOut])
      | .null => .go [] none (args ++ [(ParseLimitedNumber P str f).valueOut])
      | .fault => .fault (args ++ [(ParseLimitedNumber P str f).valueOut])
      | .timeout => .timeout (args ++ [(ParseLimitedNumber P str f).valueOut]) := by
  have hne0 : ∀ x : Char, IsDigit x = false → cur f ≠ x := by
    intro x hx e; rw [e] at hd; rw [hd] at hx; exact absurd hx (by decide)
  cases str with
  | some s =>
    unfold directive
    simp only []
    rw [if_neg (hne0 _ (by decide)), if_neg (hne0 _ (by decide)), if_neg (hne0 _ (by decide)),
      if_neg (hne0 _ (by decide)), if_neg (hne0 _ (by decide)), if_neg (hne0 _ (by decide)),
      if_neg (hne0 _ (by decide)), if_neg (fun h => hne0 _ (by decide) h.1),
      if_neg (fun h => hne0 _ (by decide) h.1), if_neg (fun h => hne0 _ (by decide) h.1),
      if_neg (hne0 _ (by decide)), if_neg (fun h => hne0 _ (by decide) h.1), if_pos hd]
  | none =>
    unfold directive
    simp only []
    rw [if_neg (hne0 _ (by decide)), if_neg (hne0 _ (by decide)), if_neg (hne0 _ (by decide)),
      if_neg (hne0 _ (by decide)), if_neg (hne0 _ (by decide)), if_neg (hne0 _ (by decide)),
      if_neg (hne0 _ (by decide)), if_neg (hne0 _ (by decide)), if_neg (hne0 _ (by decide)),
      if_neg (hne0 _ (by decide)), if_neg (hne0 _ (by decide)),
      if_neg (fun h => hne0 _ (by decide) h.1), if_pos hd]

/-- One loop iteration of `ParseV` on a literal format character. -/
theorem ParseV_lit (n : Nat) (s : List Char) (pos : Nat) (c : Char) (f : List Char)
    (args : List Slot) (h0 : c ≠ NUL) (hp : c ≠ '%') :
    ParseV (n + 1) (some s) pos (c :: f) args =
      if c ≠ cur s then (.null, args) else ParseV n (some (s.drop 1)) (pos + 1) f args := by
  simp [ParseV, h0, hp]

end str
namespace str

/-! ## The recursion budget of `Parse` is enough -/

/-- Where the chain of `ParseV` leaves the format pointer: never further back than
it was; and it reports an exhausted budget only out of `ParseLimitedNumber`. -/
theorem directive_shape (P : List Char → List Char → PResult × List Slot) (str : Ptr)
    (f : List Char) (args : List Slot) :
    (∀ a, directive P str f args = .timeout a →
        (ParseLimitedNumber P str f).endF = .timeout) ∧
      (∀ f1 a, directive P str f args = .cont f1 a → f1.length ≤ f.length) ∧
      (∀ f1 e a, directive P str f args = .go f1 e a → f1.length ≤ f.length) := by
  by_cases hd : IsDigit (cur f) = true
  · rw [directive_digit P str f args hd]
    refine ⟨?_, ?_, ?_⟩
    · intro a h
      split at h <;> first | assumption | exact absurd h (by simp)
    · intro f1 a h
      split at h <;> exact absurd h (by simp)
    · intro f1 e a h
      split at h <;> first | (simp at h; done) | (simp at h; rw [← h.1]; simp) | (simp at h; simp [h.1])
  by_cases h1 : cur f = 'u'
  · cases str <;> simp [directive, h1]
  by_cases h2 : cur f = 'd'
  · cases str <;> simp [directive, h2]
  by_cases h3 : cur f = 'x'
  · cases str <;> simp [directive, h3]
  by_cases h4 : cur f = 'f'
  · cases str <;> simp [directive, h4]
  by_cases h5 : cur f = 'c'
  · cases str <;> simp [directive, h5]
  by_cases h6 : cur f = 's'
  · cases str <;> simp [directive, h6]
  by_cases h7 : cur f = 'S'
  · cases str <;> simp [directive, h7]
  by_cases h8 : cur f = '$'
  · have : IsDigit '$' = false := by decide
    cases str <;> simp [directive, h8, this]
    split <;> simp
  by_cases h9 : cur f = '%'
  · have : IsDigit '%' = false := by decide
    cases str <;> simp [directive, h9, this]
    split <;> simp
  by_cases h10 : cur f = ' '
  · have : IsDigit ' ' = false := by decide
    cases str <;> simp [directive, h10, this]
    split <;> simp
  by_cases h11 : cur f = '_'
  · cases str <;> simp [directive, h11]
    split <;> simp
  by_cases h12 : cur f = '?'
  · have : IsDigit '?' = false := by decide
    cases str <;> simp [directive, h12, this]
    all_goals
      refine ⟨?_, ?_, ?_⟩ <;> intros <;> rename_i h <;> repeat' (split at h)
      all_goals first
        | (simp at h; done)
        | (simp at h; rw [← h.1]; done)
        | (simp at h; rw [← h.1]; simp)
  cases str <;> simp [directive, h1, h2, h3, h4, h5, h6, h7, h8, h9, h10, h11, h12, hd]

end str
namespace str

theorem FindChar_udx (c : Char) (h : (FindChar ['u', 'd', 'x'] c).isSome = true) :
    c = 'u' ∨ c = 'd' ∨ c = 'x' ∨ c = NUL := by
  by_cases h1 : c = 'u'
  · exact Or.inl h1
  by_cases h2 : c = 'd'
  · exact Or.inr (Or.inl h2)
  by_cases h3 : c = 'x'
  · exact Or.inr (Or.inr (Or.inl h3))
  by_cases h4 : c = NUL
  · exact Or.inr (Or.inr (Or.inr h4))
  exfalso
  have e1 : ¬ ('u' = c) := fun e => h1 e.symm
  have e2 : ¬ ('d' = c) := fun e => h2 e.symm
  have e3 : ¬ ('x' = c) := fun e => h3 e.symm
  have n1 : ¬ ('u' = NUL) := by decide
  have n2 : ¬ ('d' = NUL) := by decide
  have n3 : ¬ ('x' = NUL) := by decide
  simp [FindChar, e1, e2, e3, n1, n2, n3, h4] at h

theorem width_format_no_timeout (k : Nat) (s : List Char) :
    (ParseV (k + 3) (some s) 0 ['%', 'u', '%', 'c'] []).1 ≠ .timeout := by
  rw [ParseV_percent]
  simp only [directive, cur_cons]
  simp only [if_true]
  split
  · simp
  · rw [show k + 2 = (k + 1) + 1 from rfl]
    simp only [List.drop_succ_cons, List.drop_zero]
    rw [ParseV_percent]
    cases Ptr.add (some s) (strtoul s 10).2 with
    | none => simp [directive]
    | some t => simp [directive, ParseV_nil]

theorem conversion_format_no_timeout (k : Nat) (s : List Char) (c : Char)
    (hc : (FindChar ['u', 'd', 'x'] c).isSome = true) :
    (ParseV (k + 2) (some s) 0 ['%', c] []).1 ≠ .timeout := by
  rw [ParseV_percent]
  rcases FindChar_udx c hc with rfl | rfl | rfl | rfl
  · have hs : directive (fun s fmt => ParseV (k + 1) (some s) 0 fmt []) (some s) ['u'] [] =
        .go ['u'] (some (strtoul s 10).2) [some (.uint (strtoul s 10).1)] := by
      simp [directive]
    rw [hs]
    simp only []
    split
    · simp
    · simp [ParseV_nil]
  · have hs : directive (fun s fmt => ParseV (k + 1) (some s) 0 fmt []) (some s) ['d'] [] =
        .go ['d'] (some (strtol s 10).2) [some (.int (strtol s 10).1)] := by
      simp [directive]
    rw [hs]
    simp only []
    split
    · simp
    · simp [ParseV_nil]
  · have hs : directive (fun s fmt => ParseV (k + 1) (some s) 0 fmt []) (some s) ['x'] [] =
        .go ['x'] (some (strtoul s 16).2) [some (.uint (strtoul s 16).1)] := by
      simp [directive]
    rw [hs]
    simp only []
    split
    · simp
    · simp [ParseV_nil]
  · have hs : directive (fun s fmt => ParseV (k + 1) (some s) 0 fmt []) (some s) [NUL] [] =
        .go [NUL] none [] := by
      simp only [directive, cur_cons]
      rw [if_neg (by decide), if_neg (by decide), if_neg (by decide), if_neg (by decide),
        if_neg (by decide), if_neg (by decide), if_neg (by decide),
        if_neg (fun h => absurd h.1 (by decide)), if_neg (fun h => absurd h.1 (by decide)),
        if_neg (fun h => absurd h.1 (by decide)), if_neg (by decide),
        if_neg (fun h => absurd h.1 (by decide)), if_neg (by decide)]
    rw [hs]
    simp

theorem limited_no_timeout (P : List Char → List Char → PResult × List Slot) (str : Ptr)
    (f : List Char) (hC : (P f ['%', 'u', '%', 'c']).1 ≠ .timeout)
    (hD : ∀ (l : List Char) (c : Char), (FindChar ['u', 'd', 'x'] c).isSome = true →
      (P l ['%', c]).1 ≠ .timeout) :
    (ParseLimitedNumber P str f).endF ≠ .timeout := by
  unfold ParseLimitedNumber
  simp only []
  repeat' first
    | assumption
    | (simp; done)
    | exact fun _ => absurd (by assumption) (hD _ _ (by assumption))
    | split


theorem ParseV_no_timeout : ∀ (L : Nat) (f : List Char) (n : Nat) (str : Ptr) (pos : Nat)
    (args : List Slot), f.length ≤ L → L + 3 ≤ n →
    (ParseV n str pos f args).1 ≠ .timeout := by
  intro L
  induction L with
  | zero =>
    intro f n str pos args hf hn
    obtain ⟨m, rfl⟩ : ∃ m, n = m + 1 := ⟨n - 1, by omega⟩
    have : f = [] := List.eq_nil_of_length_eq_zero (by omega)
    subst this
    simp [ParseV_nil]
  | succ L ih =>
    intro f n str pos args hf hn
    obtain ⟨m, rfl⟩ : ∃ m, n = m + 1 := ⟨n - 1, by omega⟩
    cases f with
    | nil => simp [ParseV_nil]
    | cons c f1 =>
      have hf1 : f1.length ≤ L := by simpa using hf
      have hm : L + 3 ≤ m := by omega
      by_cases h0 : c = NUL
      · simp [ParseV, h0]
      by_cases hp : c = '%'
      · subst hp
        rw [ParseV_percent]
        obtain ⟨k, rfl⟩ : ∃ k, m = k + 3 := ⟨m - 3, by omega⟩
        have hsh := directive_shape (fun s fmt => ParseV (k + 3) (some s) 0 fmt []) str f1 args
        cases hdir : directive (fun s fmt => ParseV (k + 3) (some s) 0 fmt []) str f1 args with
        | fault a => simp
        | timeout a =>
          exact absurd (hsh.1 a hdir)
            (limited_no_timeout _ str f1 (width_format_no_timeout k f1)
              (fun l c hc => conversion_format_no_timeout (k + 1) l c hc))
        | cont f2 a =>
          have h2 := hsh.2.1 f2 a hdir
          exact ih (f2.drop 1) (k + 3) str pos a (by simp; omega) hm
        | go f2 e a =>
          have h2 := hsh.2.2 f2 e a hdir
          cases e with
          | none => simp
          | some j =>
            simp only []
            split
            · simp
            · exact ih (f2.drop 1) (k + 3) _ _ a (by simp; omega) hm
      · cases str with
        | none => simp [ParseV, h0, hp]
        | some s =>
          rw [ParseV_lit m s pos c f1 args h0 hp]
          split
          · simp
          · exact ih f1 m _ _ args hf1 hm

/-- `Parse` never runs out of its recursion budget: what it returns is NULL, a
pointer, or a fault. -/
theorem Parse_no_timeout (s f : List Char) : (Parse s f).1 ≠ .timeout :=
  ParseV_no_timeout f.length f (f.length + 3) (some s) 0 [] (Nat.le_refl _) (Nat.le_refl _)


/-! ## Literal formats (C1) -/

/-- Claim C1, counterexample: the literal format `ab` matches the longer subject
`abc`; the parse succeeds with the cursor on the third character, although the
subject differs from the format and is not consumed to its end. -/
theorem literal_format_accepts_longer_subject :
    Parse ['a', 'b', 'c'] ['a', 'b'] = (PResult.ptr 2, []) ∧
      ['a', 'b', 'c'] ≠ ['a', 'b'] ∧ 2 ≠ ['a', 'b', 'c'].length := by
  decide

/-- Claim C1, amended: for a format `F` without `'%'` (and without NUL) and any
subject `S`, `Parse(S, F)` succeeds exactly when `F` is a leading part of `S`
(case-sensitive), the returned cursor is then `|F|` characters into `S`, and no
output slot is taken; so it succeeds with the whole input consumed exactly when
`S = F`. -/
theorem Parse_literal (S F : List Char) (hF : ∀ c ∈ F, c ≠ '%' ∧ c ≠ NUL) :
    Parse S F = (if F <+: S then PResult.ptr F.length else PResult.null, []) ∧
      ((Parse S F).1 = PResult.ptr S.length ↔ S = F) := by
  have h := ParseV_literal F S (F.length + 3) 0 [] hF (by omega)
  have hP : Parse S F = (if F <+: S then PResult.ptr F.length else PResult.null, []) := by
    simpa [Parse] using h
  refine ⟨hP, ?_⟩
  rw [hP]
  constructor
  · intro h1
    by_cases hp : F <+: S
    · simp [hp] at h1
      obtain ⟨t, rfl⟩ := hp
      have ht : t = [] := by simpa using h1
      simp [ht]
    · simp [hp] at h1
  · rintro rfl
    simp

/-- Witness for `Parse_literal`: the format `ab` on the subject `abc`. -/
theorem Parse_literal_witness :
    Parse ['a', 'b', 'c'] ['a', 'b'] =
        (if ['a', 'b'] <+: ['a', 'b', 'c'] then PResult.ptr ['a', 'b'].length
          else PResult.null, []) ∧
      ((Parse ['a', 'b', 'c'] ['a', 'b']).1 = PResult.ptr ['a', 'b', 'c'].length ↔
        ['a', 'b', 'c'] = ['a', 'b']) :=
  Parse_literal ['a', 'b', 'c'] ['a', 'b'] (by decide)


/-! ## Width-limited numbers (C2, C3, C4) -/

/-- Claim C2: whenever a width-limited directive `%<w>u`, `%<w>d` or `%<w>x` leaves
the chain of `ParseV` with a non-NULL `end`, that `end` is exactly `w` characters
after the cursor (`w` being the number written by the digits `ds`, and at most
the length of the remaining subject), the format pointer stands on the
conversion letter, and the parse goes on `w` characters further with the rest
of the format.  `Parse("1234", "%2d")` gives 12 and the cursor on the third
character, `Parse("-12345", "%4d")` gives -123, `Parse("123", "%4d")` fails. -/
theorem width_directive_advances :
    (∀ (m : Nat) (ds : List Char) (c : Char) (fr s : List Char) (pos : Nat)
        (args : List Slot) (f1 : List Char) (k : Nat) (a : List Slot),
        ds ≠ [] → (∀ d ∈ ds, IsDigit d = true) → (c = 'u' ∨ c = 'd' ∨ c = 'x') →
        directive (fun s fmt => ParseV (m + 3) (some s) 0 fmt []) (some s)
          (ds ++ c :: fr) args = Step.go f1 (some k) a →
        k = digitsVal 10 ds ∧ k ≤ Len s ∧ f1.drop 1 = fr ∧
          (k ≠ 0 → ParseV (m + 4) (some s) pos ('%' :: (ds ++ c :: fr)) args =
            ParseV (m + 3) (some (s.drop (digitsVal 10 ds))) (pos + digitsVal 10 ds) fr a)) ∧
      Parse "1234".toList "%2d".toList = (PResult.ptr 2, [some (Value.int 12)]) ∧
      Parse "-12345".toList "%4d".toList = (PResult.ptr 4, [some (Value.int (-123))]) ∧
      (Parse "123".toList "%4d".toList).1 = PResult.null := by
  refine ⟨?_, by decide, by decide, by decide⟩
  intro m ds c fr s pos args f1 k a hne hdig hc h
  have hcd : IsDigit c = false := by rcases hc with rfl | rfl | rfl <;> decide
  have hr := width_parse m ds c fr hne hdig hcd
  have hcur : IsDigit (cur (ds ++ c :: fr)) = true := by
    cases ds with
    | nil => exact absurd rfl hne
    | cons x t => simpa using hdig x (by simp)
  rw [directive_digit _ _ _ _ hcur] at h
  have hk : (ParseLimitedNumber (fun s fmt => ParseV (m + 3) (some s) 0 fmt []) (some s)
      (ds ++ c :: fr)).endOut = some k := by
    revert h
    split <;> simp
    intro _ h2 _
    exact h2
  obtain ⟨hkw, hlen, hnz, hE⟩ := limited_endOut_of _ s (ds ++ c :: fr) (ds.length + 1)
    (widthOf ds) c hr k hk
  have hW : widthOf ds = digitsVal 10 ds := by
    by_cases hgt : digitsVal 10 ds > 2 ^ 32 - 1
    · exact absurd (by unfold widthOf; rw [if_pos hgt]) hnz
    · unfold widthOf; rw [if_neg hgt]
  rw [hE] at h
  simp at h
  have hf1 : f1.drop 1 = fr := by rw [← h.1]; simp
  have hkl : k ≤ s.length := by
    have := Len_le_length s
    omega
  refine ⟨by omega, by omega, hf1, ?_⟩
  intro hk0
  rw [show m + 4 = (m + 3) + 1 from rfl, ParseV_percent, directive_digit _ _ _ _ hcur, hE]
  simp only [hk]
  simp [hk0, Ptr.add, hkl, h.2, ← hW, ← hkw]

/-- Witness for `width_directive_advances`: the directive `%2d` on the subject `1234`. -/
theorem width_directive_advances_witness :
    2 = digitsVal 10 ['2'] ∧ 2 ≤ Len "1234".toList ∧ ['d'].drop 1 = [] ∧
      (2 ≠ 0 → ParseV 4 (some "1234".toList) 0 ('%' :: (['2'] ++ 'd' :: [])) [] =
        ParseV 3 (some ("1234".toList.drop (digitsVal 10 ['2']))) (0 + digitsVal 10 ['2']) []
          [some (Value.int 12)]) :=
  width_directive_advances.1 0 ['2'] 'd' [] "1234".toList 0 [] ['d'] 2 [some (Value.int 12)]
    (by decide) (by decide) (by decide) (by decide)

/-- Claim C3, evaluation at the failing inputs: with the width 16 only the first 15
characters reach the scratch buffer, so `%16d` accepts `000000000000001x`
(cursor 16 characters on, value 1, the `x` never examined) and reads
`0000000000000012` as 1. -/
theorem width_sixteen_ignores_last_char :
    Parse "000000000000001x".toList "%16d".toList = (PResult.ptr 16, [some (Value.int 1)]) ∧
      Parse "0000000000000012".toList "%16d".toList =
        (PResult.ptr 16, [some (Value.int 1)]) := by
  decide

/-- Claim C4: when fewer than `w` characters remain at the cursor (and the subject
is shorter than `UINT_MAX` characters, as every string in a 32-bit address
space is), a width-limited directive `%<w>u`, `%<w>d` or `%<w>x` makes the
parse return NULL, whatever the remaining characters are; the slot is taken
from the argument list and left unwritten. -/
theorem width_directive_short_subject (m : Nat) (ds : List Char) (c : Char)
    (fr s : List Char) (pos : Nat) (args : List Slot)
    (hne : ds ≠ []) (hdig : ∀ d ∈ ds, IsDigit d = true)
    (hc : c = 'u' ∨ c = 'd' ∨ c = 'x')
    (hlen : Len s < digitsVal 10 ds) (hmax : Len s < 2 ^ 32 - 1) :
    ParseV (m + 4) (some s) pos ('%' :: (ds ++ c :: fr)) args = (PResult.null, args ++ [none]) ∧
      Parse s ('%' :: (ds ++ c :: fr)) = (PResult.null, [none]) := by
  have hcd : IsDigit c = false := by rcases hc with rfl | rfl | rfl <;> decide
  have hcur : IsDigit (cur (ds ++ c :: fr)) = true := by
    cases ds with
    | nil => exact absurd rfl hne
    | cons x t => simpa using hdig x (by simp)
  have hw : ¬ (widthOf ds ≤ Len s) := by
    unfold widthOf; split <;> omega
  have key : ∀ (m : Nat) (pos : Nat) (args : List Slot),
      ParseV (m + 4) (some s) pos ('%' :: (ds ++ c :: fr)) args =
        (PResult.null, args ++ [none]) := by
    intro m pos args
    have hr := width_parse m ds c fr hne hdig hcd
    have hL := limited_short_of (fun s fmt => ParseV (m + 3) (some s) 0 fmt []) s
      (ds ++ c :: fr) (ds.length + 1) (widthOf ds) c hr hw
    rw [show m + 4 = (m + 3) + 1 from rfl, ParseV_percent, directive_digit _ _ _ _ hcur, hL]
  refine ⟨key m pos args, ?_⟩
  have e : ('%' :: (ds ++ c :: fr)).length + 3 = (ds.length + fr.length + 1) + 4 := by
    simp; omega
  unfold Parse
  rw [e]
  exact key _ 0 []

/-- Witness for `width_directive_short_subject`: `%4d` on the subject `123`. -/
theorem width_directive_short_subject_witness :
    ParseV 4 (some "123".toList) 0 ('%' :: (['4'] ++ 'd' :: [])) [] =
        (PResult.null, [] ++ [none]) ∧
      Parse "123".toList ('%' :: (['4'] ++ 'd' :: [])) = (PResult.null, [none]) :=
  width_directive_short_subject 0 ['4'] 'd' [] "123".toList 0 [] (by decide) (by decide)
    (by decide) (by decide) (by decide)


/-! ## String extraction (C5) -/

/-- Claim C5: for `%s` followed in the format by the character `c`: on a subject
`a ++ [c] ++ rest` with `a` non-empty and free of `c` the slot receives a copy
of `a` and the parse goes on with the cursor on that `c` (and the format on its
`c`); if `c` does not occur in the rest of the subject the parse returns NULL;
as last directive `%s` extracts the whole non-empty rest of the subject; and
`Parse("foo:bar", "%s:%s")` yields `foo` and `bar`. -/
theorem percent_s_extracts_until :
    (∀ (n : Nat) (a : List Char) (c : Char) (rest : List Char) (pos : Nat) (fr : List Char)
        (args : List Slot), a ≠ [] → c ∉ a → NUL ∉ a →
        ParseV (n + 1) (some (a ++ c :: rest)) pos ('%' :: 's' :: c :: fr) args =
          ParseV n (some (c :: rest)) (pos + a.length) (c :: fr)
            (args ++ [some (Value.str (some a))])) ∧
      (∀ (n : Nat) (s : List Char) (c : Char) (pos : Nat) (fr : List Char)
        (args : List Slot), c ≠ NUL → c ∉ s →
        ParseV (n + 1) (some s) pos ('%' :: 's' :: c :: fr) args =
          (PResult.null, args ++ [some (Value.str none)])) ∧
      (∀ (n : Nat) (s : List Char) (pos : Nat) (args : List Slot), s ≠ [] → NUL ∉ s →
        ParseV (n + 2) (some s) pos ['%', 's'] args =
          (PResult.ptr (pos + s.length), args ++ [some (Value.str (some s))])) ∧
      Parse "foo:bar".toList "%s:%s".toList =
        (PResult.ptr 7, [some (Value.str (some "foo".toList)),
          some (Value.str (some "bar".toList))]) :=
  ⟨fun n a c rest pos fr args ha hc h0 => string_step n a c rest pos fr args ha hc h0,
   fun n s c pos fr args hc hs => string_step_absent n s c pos fr args hc hs,
   fun n s pos args hs h0 => string_step_last n s pos args hs h0,
   by decide⟩

/-- Witness for `percent_s_extracts_until`: `%s:` on the subject `foo:bar`. -/
theorem percent_s_extracts_until_witness :
    ParseV 1 (some ("foo".toList ++ ':' :: "bar".toList)) 0 ('%' :: 's' :: ':' :: []) [] =
      ParseV 0 (some (':' :: "bar".toList)) (0 + "foo".toList.length) (':' :: [])
        ([] ++ [some (Value.str (some "foo".toList))]) :=
  percent_s_extracts_until.1 0 "foo".toList ':' "bar".toList 0 [] [] (by decide) (by decide)
    (by decide)

/-! ## End-of-string assertion (C6, C7) -/

/-- Claim C6: when `%$` is reached with the cursor not at the end of the subject the
parse returns NULL; with the cursor at the end, `%$` consumes nothing, takes no
slot, and the parse goes on with the rest of the format. -/
theorem end_assertion_directive (n : Nat) (s : List Char) (pos : Nat) (fr : List Char)
    (args : List Slot) :
    ParseV (n + 1) (some s) pos ('%' :: '$' :: fr) args =
      if cur s = NUL then ParseV n (some s) pos fr args else (PResult.null, args) :=
  dollar_step n s pos fr args

/-- Claim C7, counterexample: the format `a%$b` does not match the subject `ab`. -/
theorem percent_dollar_fails_on_ab :
    (Parse ['a', 'b'] ['a', '%', '$', 'b']).1 = PResult.null := by
  decide

/-- Claim C7, amended: when `%$` is reached with the cursor not at the end of the
subject, the parse fails at once (NULL is returned and the rest of the format is
not tried); in particular the format `a%$b` matches no subject at all. -/
theorem percent_dollar_rejects :
    (∀ (n : Nat) (s : List Char) (pos : Nat) (fr : List Char) (args : List Slot),
        cur s ≠ NUL →
        ParseV (n + 1) (some s) pos ('%' :: '$' :: fr) args = (PResult.null, args)) ∧
      (∀ S : List Char, Parse S ['a', '%', '$', 'b'] = (PResult.null, [])) := by
  constructor
  · intro n s pos fr args h
    rw [dollar_step, if_neg h]
  · intro S
    have ha : 'a' ≠ NUL := by decide
    have hb : 'b' ≠ NUL := by decide
    show ParseV (6 + 1) (some S) 0 ['a', '%', '$', 'b'] [] = _
    rw [ParseV_lit 6 S 0 'a' _ [] ha (by decide)]
    split
    · rfl
    · rw [show (6 : Nat) = 5 + 1 from rfl, dollar_step]
      split
      · rename_i h0
        rw [show (5 : Nat) = 4 + 1 from rfl, ParseV_lit 4 _ _ 'b' _ [] hb (by decide),
          if_pos (by rw [h0]; exact hb)]
      · rfl

/-- Witness for `percent_dollar_rejects`: `%$b` with the cursor on the `b` of `ab`. -/
theorem percent_dollar_rejects_witness :
    ParseV 1 (some ['b']) 1 ('%' :: '$' :: ['b']) [] = (PResult.null, []) :=
  percent_dollar_rejects.1 0 ['b'] 1 ['b'] [] (by decide)


/-! ## Single characters, optional characters, whitespace (C8, C9, C10) -/

/-- Claim C8, evaluation at the failing input: while a character remains, `%c`
stores it and consumes exactly that one character; on the exhausted subject
`Parse("", "%c")` does not fail but stores the terminator and returns the
address one past it, and with more format to match (`"%cx"`) the next read is
outside the string. -/
theorem percent_c_reads_terminator :
    (∀ (n : Nat) (x : Char) (t : List Char) (pos : Nat) (fr : List Char) (args : List Slot),
        ParseV (n + 1) (some (x :: t)) pos ('%' :: 'c' :: fr) args =
          ParseV n (some t) (pos + 1) fr (args ++ [some (Value.chr x)])) ∧
      Parse [] ['%', 'c'] = (PResult.ptr 1, [some (Value.chr NUL)]) ∧
      Parse [] ['%', 'c', 'x'] = (PResult.fault, [some (Value.chr NUL)]) :=
  ⟨fun n x t pos fr args => char_step n x t pos fr args, by decide, by decide⟩

/-- Claim C9: for a non-NUL character `X` the directive `%?X` never fails: if the
next subject character is `X` exactly that character is consumed, otherwise
nothing is, and either way the parse goes on after `X` in the format, no slot
being taken.  `Parse("x,y", "x%?,y")` and `Parse("xy", "x%?,y")` both succeed. -/
theorem percent_question_optional :
    (∀ (n : Nat) (s : List Char) (pos : Nat) (X : Char) (fr : List Char) (args : List Slot),
        X ≠ NUL →
        ParseV (n + 1) (some s) pos ('%' :: '?' :: X :: fr) args =
          if cur s = X then ParseV n (some (s.drop 1)) (pos + 1) fr args
          else ParseV n (some s) pos fr args) ∧
      Parse "x,y".toList "x%?,y".toList = (PResult.ptr 3, []) ∧
      Parse "xy".toList "x%?,y".toList = (PResult.ptr 2, []) :=
  ⟨fun n s pos X fr args hX => optional_step n s pos X fr args hX, by decide, by decide⟩

/-- Witness for `percent_question_optional`: `%?,` with the cursor on the comma of `x,y`. -/
theorem percent_question_optional_witness :
    ParseV 1 (some [',', 'y']) 1 ('%' :: '?' :: ',' :: ['y']) [] =
      if cur [',', 'y'] = ',' then ParseV 0 (some ([',', 'y'].drop 1)) (1 + 1) ['y'] []
      else ParseV 0 (some [',', 'y']) 1 ['y'] [] :=
  percent_question_optional.1 0 [',', 'y'] 1 ',' ['y'] [] (by decide)

/-- Claim C10: the directive `%_` never fails and consumes exactly the maximal run of
whitespace at the cursor (the characters consumed are all whitespace and the
cursor is left on a character that is not; nothing is consumed when the next
character is not whitespace), taking no slot; so the format `a%_b` matches `a`,
any number of whitespace characters (also none) and `b`. -/
theorem percent_underscore_skips_whitespace :
    (∀ (n : Nat) (s : List Char) (pos : Nat) (fr : List Char) (args : List Slot),
        ParseV (n + 1) (some s) pos ('%' :: '_' :: fr) args =
            ParseV n (some (s.dropWhile IsWs)) (pos + (s.takeWhile IsWs).length) fr args ∧
          s = s.takeWhile IsWs ++ s.dropWhile IsWs ∧
          (∀ c ∈ s.takeWhile IsWs, IsWs c = true) ∧
          IsWs (cur (s.dropWhile IsWs)) = false) ∧
      (∀ ws : List Char, (∀ c ∈ ws, IsWs c = true) →
        Parse ('a' :: (ws ++ ['b'])) ['a', '%', '_', 'b'] = (PResult.ptr (ws.length + 2), [])) := by
  constructor
  · intro n s pos fr args
    refine ⟨underscore_step n s pos fr args, (List.takeWhile_append_dropWhile IsWs s).symm,
      fun c hc => (List.mem_takeWhile_imp hc), ?_⟩
    induction s with
    | nil => decide
    | cons x t ih =>
      rw [List.dropWhile_cons]
      split
      · exact ih
      · rename_i hx
        simpa using hx
  · intro ws hws
    have ha : 'a' ≠ NUL := by decide
    have hb : 'b' ≠ NUL := by decide
    have hbw : IsWs 'b' = false := by decide
    have htw : (ws ++ ['b']).takeWhile IsWs = ws := by
      rw [List.takeWhile_append_of_pos hws]
      simp [hbw]
    have hdw : (ws ++ ['b']).dropWhile IsWs = ['b'] := by
      have := drop_length_takeWhile IsWs (ws ++ ['b'])
      rw [htw] at this
      rw [← this]
      simp
    show ParseV (6 + 1) (some ('a' :: (ws ++ ['b']))) 0 ['a', '%', '_', 'b'] [] = _
    rw [ParseV_lit 6 _ 0 'a' _ [] ha (by decide)]
    simp only [cur_cons, ne_eq, not_true_eq_false, if_false, List.drop_succ_cons, List.drop_zero]
    rw [show (6 : Nat) = 5 + 1 from rfl, underscore_step, htw, hdw,
      show (5 : Nat) = 4 + 1 from rfl, ParseV_lit 4 _ _ 'b' _ [] hb (by decide)]
    simp only [cur_cons, ne_eq, not_true_eq_false, if_false, List.drop_succ_cons, List.drop_zero]
    rw [show (4 : Nat) = 3 + 1 from rfl, ParseV_nil]
    simp
    omega

/-- Witness for `percent_underscore_skips_whitespace`: `a%_b` on `a`, a space, a tab, `b`. -/
theorem percent_underscore_skips_whitespace_witness :
    Parse ('a' :: ([' ', '\t'] ++ ['b'])) ['a', '%', '_', 'b'] =
      (PResult.ptr ([' ', '\t'].length + 2), []) :=
  percent_underscore_skips_whitespace.2 [' ', '\t'] (by decide)

/-! ## Partial writes, numeric directives, malformed formats (C11, C13, C16) -/

theorem length_takeWhile_take (p : Char → Bool) (l : List Char) :
    l.take (l.takeWhile p).length = l.takeWhile p := by
  induction l with
  | nil => simp
  | cons a t ih =>
    rw [List.takeWhile_cons]
    split
    · simp [ih]
    · simp

theorem cur_ne_nul_length {l : List Char} (h : cur l ≠ NUL) : 1 ≤ l.length := by
  cases l with
  | nil => exact absurd rfl h
  | cons a t => simp

theorem isDigitIn_NUL (base : Nat) (h : base ≤ 36) : isDigitIn base NUL = false := by
  have : digitVal NUL = 36 := by decide
  simp [isDigitIn, this]; omega

theorem sign_bound (t : List Char) :
    (if cur t == '-' || cur t == '+' then 1 else 0) ≤ t.length ∧
      ((if cur t == '-' || cur t == '+' then 1 else 0) = 0 ∨
        ((if cur t == '-' || cur t == '+' then 1 else 0) = 1 ∧ (cur t = '-' ∨ cur t = '+'))) := by
  split
  · rename_i h
    simp at h
    refine ⟨?_, Or.inr ⟨rfl, h⟩⟩
    apply cur_ne_nul_length
    rcases h with h | h <;> (rw [h]; decide)
  · exact ⟨Nat.zero_le _, Or.inl rfl⟩

theorem hex_mark_bound (base : Nat) (t : List Char) :
    (if base == 16 && cur t == '0' && (cur (t.drop 1) == 'x' || cur (t.drop 1) == 'X')
        && isDigitIn 16 (cur (t.drop 2)) then 2 else 0) ≤ t.length ∧
      ((if base == 16 && cur t == '0' && (cur (t.drop 1) == 'x' || cur (t.drop 1) == 'X')
        && isDigitIn 16 (cur (t.drop 2)) then 2 else 0) = 0 ∨
       ((if base == 16 && cur t == '0' && (cur (t.drop 1) == 'x' || cur (t.drop 1) == 'X')
        && isDigitIn 16 (cur (t.drop 2)) then 2 else 0) = 2 ∧ base = 16 ∧ cur t = '0' ∧
          (cur (t.drop 1) = 'x' ∨ cur (t.drop 1) = 'X'))) := by
  split
  · rename_i h
    simp [-List.drop_one] at h
    refine ⟨?_, Or.inr ⟨rfl, h.1.1.1, h.1.1.2, h.1.2⟩⟩
    have h1 : 1 ≤ (t.drop 1).length := by
      apply cur_ne_nul_length
      rcases h.1.2 with h | h <;> (rw [h]; decide)
    simp only [List.length_drop] at h1
    omega
  · exact ⟨Nat.zero_le _, Or.inl rfl⟩

/-- The shape of `scanInt`: whitespace, sign and `0x` each stay inside the string. -/
theorem scanInt_eq (base : Nat) (s : List Char) :
    ∃ ws sg px : Nat, ws = (s.takeWhile IsWs).length ∧ sg ≤ (s.drop ws).length ∧
      px ≤ ((s.drop ws).drop sg).length ∧
      (sg = 0 ∨ (sg = 1 ∧ (cur (s.drop ws) = '-' ∨ cur (s.drop ws) = '+'))) ∧
      (px = 0 ∨ (px = 2 ∧ base = 16 ∧ cur ((s.drop ws).drop sg) = '0' ∧
        (cur (((s.drop ws).drop sg).drop 1) = 'x' ∨ cur (((s.drop ws).drop sg).drop 1) = 'X'))) ∧
      scanInt base s =
        if (((s.drop ws).drop sg).drop px).takeWhile (isDigitIn base) = [] then ⟨false, 0, 0⟩
        else ⟨cur (s.drop ws) == '-',
          digitsVal base ((((s.drop ws).drop sg).drop px).takeWhile (isDigitIn base)),
          ws + sg + px + ((((s.drop ws).drop sg).drop px).takeWhile (isDigitIn base)).length⟩ := by
  refine ⟨(s.takeWhile IsWs).length, _, _, rfl, (sign_bound _).1, (hex_mark_bound base _).1,
    (sign_bound _).2, (hex_mark_bound base _).2, ?_⟩
  unfold scanInt
  simp only [List.isEmpty_iff]

/-- The pieces `scanInt` is made of, for a conversion that consumed something. -/
theorem scanInt_parts (base : Nat) (s : List Char) (h : (scanInt base s).len ≠ 0) :
    ∃ (a : Nat) (ds : List Char), (scanInt base s).len = a + ds.length ∧ ds ≠ [] ∧
      (∀ d ∈ ds, isDigitIn base d = true) ∧ (s.drop a).take ds.length = ds ∧
      a + ds.length ≤ s.length := by
  obtain ⟨ws, sg, px, hws, hsg, hpx, _, _, he⟩ := scanInt_eq base s
  rw [he] at h ⊢
  split at h
  · exact absurd rfl h
  · rename_i hne
    rw [if_neg hne]
    refine ⟨ws + sg + px, _, rfl, hne, ?_, ?_, ?_⟩
    · intro d hd; exact List.mem_takeWhile_imp hd
    · have : s.drop (ws + sg + px) = ((s.drop ws).drop sg).drop px := by
        simp [List.drop_drop, Nat.add_comm, Nat.add_left_comm]
      rw [this]
      exact length_takeWhile_take _ _
    · have h3 := length_takeWhile_le_length (isDigitIn base) (((s.drop ws).drop sg).drop px)
      have hw : ws ≤ s.length := by rw [hws]; exact length_takeWhile_le_length _ _
      simp only [List.length_drop] at h3 hsg hpx
      omega

theorem scanInt_len_le (base : Nat) (s : List Char) : (scanInt base s).len ≤ s.length := by
  by_cases h : (scanInt base s).len = 0
  · omega
  · obtain ⟨a, ds, h1, _, _, _, h5⟩ := scanInt_parts base s h
    omega

theorem number_step_u (n : Nat) (s : List Char) (pos : Nat) (fr : List Char)
    (args : List Slot) :
    ParseV (n + 1) (some s) pos ('%' :: 'u' :: fr) args =
      if (strtoul s 10).2 = 0 then (.null, args ++ [some (.uint (strtoul s 10).1)])
      else ParseV n (some (s.drop (strtoul s 10).2)) (pos + (strtoul s 10).2) fr
        (args ++ [some (.uint (strtoul s 10).1)]) := by
  rw [ParseV_percent]
  have hl : (strtoul s 10).2 ≤ s.length := scanInt_len_le 10 s
  simp [directive, Ptr.add, hl]

theorem number_step_d (n : Nat) (s : List Char) (pos : Nat) (fr : List Char)
    (args : List Slot) :
    ParseV (n + 1) (some s) pos ('%' :: 'd' :: fr) args =
      if (strtol s 10).2 = 0 then (.null, args ++ [some (.int (strtol s 10).1)])
      else ParseV n (some (s.drop (strtol s 10).2)) (pos + (strtol s 10).2) fr
        (args ++ [some (.int (strtol s 10).1)]) := by
  rw [ParseV_percent]
  have hl : (strtol s 10).2 ≤ s.length := scanInt_len_le 10 s
  simp [directive, Ptr.add, hl]

theorem number_step_x (n : Nat) (s : List Char) (pos : Nat) (fr : List Char)
    (args : List Slot) :
    ParseV (n + 1) (some s) pos ('%' :: 'x' :: fr) args =
      if (strtoul s 16).2 = 0 then (.null, args ++ [some (.uint (strtoul s 16).1)])
      else ParseV n (some (s.drop (strtoul s 16).2)) (pos + (strtoul s 16).2) fr
        (args ++ [some (.uint (strtoul s 16).1)]) := by
  rw [ParseV_percent]
  have hl : (strtoul s 16).2 ≤ s.length := scanInt_len_le 16 s
  simp [directive, Ptr.add, hl]

theorem scanInt_has_digit (base : Nat) (s : List Char) (h : (scanInt base s).len ≠ 0) :
    ∃ c ∈ s.take (scanInt base s).len, isDigitIn base c = true := by
  obtain ⟨a, ds, h1, hne, hd, ht, _⟩ := scanInt_parts base s h
  obtain ⟨d, t, rfl⟩ : ∃ d t, ds = d :: t := by
    cases ds with
    | nil => exact absurd rfl hne
    | cons d t => exact ⟨d, t, rfl⟩
  refine ⟨d, ?_, hd d (by simp)⟩
  rw [h1, List.take_add, ht]
  simp

/-- Claim C11: a failed parse is not rolled back.  `Parse("12x", "%uy")` returns NULL
with 12 stored in the slot of `%u`, and `Parse("foo:bar", "%s:x")` returns NULL
with a fresh copy of `foo` stored in the slot of `%s`. -/
theorem failed_parse_keeps_written_slots :
    Parse "12x".toList "%uy".toList = (PResult.null, [some (Value.uint 12)]) ∧
      Parse "foo:bar".toList "%s:x".toList =
        (PResult.null, [some (Value.str (some "foo".toList))]) := by
  decide

/-- Claim C13: a `%u`, `%d` or `%x` directive whose conversion consumes nothing makes
the parse return NULL; otherwise the parse goes on after the characters the
conversion consumed, and among those there is at least one digit (of base 10
for `%u` and `%d`, of base 16 for `%x`). -/
theorem numeric_directive_consumes_digit :
    (∀ (n : Nat) (s : List Char) (pos : Nat) (fr : List Char) (args : List Slot),
      ParseV (n + 1) (some s) pos ('%' :: 'u' :: fr) args =
        if (strtoul s 10).2 = 0 then (PResult.null, args ++ [some (Value.uint (strtoul s 10).1)])
        else ParseV n (some (s.drop (strtoul s 10).2)) (pos + (strtoul s 10).2) fr
          (args ++ [some (Value.uint (strtoul s 10).1)])) ∧
    (∀ (n : Nat) (s : List Char) (pos : Nat) (fr : List Char) (args : List Slot),
      ParseV (n + 1) (some s) pos ('%' :: 'd' :: fr) args =
        if (strtol s 10).2 = 0 then (PResult.null, args ++ [some (Value.int (strtol s 10).1)])
        else ParseV n (some (s.drop (strtol s 10).2)) (pos + (strtol s 10).2) fr
          (args ++ [some (Value.int (strtol s 10).1)])) ∧
    (∀ (n : Nat) (s : List Char) (pos : Nat) (fr : List Char) (args : List Slot),
      ParseV (n + 1) (some s) pos ('%' :: 'x' :: fr) args =
        if (strtoul s 16).2 = 0 then (PResult.null, args ++ [some (Value.uint (strtoul s 16).1)])
        else ParseV n (some (s.drop (strtoul s 16).2)) (pos + (strtoul s 16).2) fr
          (args ++ [some (Value.uint (strtoul s 16).1)])) ∧
    (∀ s : List Char, (strtoul s 10).2 ≠ 0 →
      ∃ c ∈ s.take (strtoul s 10).2, IsDigit c = true) ∧
    (∀ s : List Char, (strtol s 10).2 ≠ 0 →
      ∃ c ∈ s.take (strtol s 10).2, IsDigit c = true) ∧
    (∀ s : List Char, (strtoul s 16).2 ≠ 0 →
      ∃ c ∈ s.take (strtoul s 16).2, isDigitIn 16 c = true) := by
  refine ⟨number_step_u, number_step_d, number_step_x, ?_, ?_, ?_⟩
  · intro s h
    obtain ⟨c, hc, hd⟩ := scanInt_has_digit 10 s h
    exact ⟨c, hc, by rw [← isDigitIn_ten]; exact hd⟩
  · intro s h
    obtain ⟨c, hc, hd⟩ := scanInt_has_digit 10 s h
    exact ⟨c, hc, by rw [← isDigitIn_ten]; exact hd⟩
  · intro s h
    exact scanInt_has_digit 16 s h

/-- Witness for `numeric_directive_consumes_digit`: `%u` on the subject `42`. -/
theorem numeric_directive_consumes_digit_witness :
    ∃ c ∈ "42".toList.take (strtoul "42".toList 10).2, IsDigit c = true :=
  numeric_directive_consumes_digit.2.2.2.1 "42".toList (by decide)

/-- Claim C16: a `'%'` followed by a character that is no directive, a `'%'` that is
the last character of the format, and a `%?` that ends the format each make the
parse return NULL when they are reached, whatever the subject and wherever the
cursor is. -/
theorem malformed_directive_fails :
    (∀ (n : Nat) (str : Ptr) (pos : Nat) (c : Char) (fr : List Char) (args : List Slot),
      isDirectiveChar c = false →
      ParseV (n + 1) str pos ('%' :: c :: fr) args = (PResult.null, args)) ∧
    (∀ (n : Nat) (str : Ptr) (pos : Nat) (args : List Slot),
      ParseV (n + 1) str pos ['%'] args = (PResult.null, args)) ∧
    (∀ (n : Nat) (str : Ptr) (pos : Nat) (args : List Slot),
      ParseV (n + 1) str pos ['%', '?'] args = (PResult.null, args)) := by
  refine ⟨?_, ?_, ?_⟩
  · intro n str pos c fr args hc
    rw [ParseV_percent]
    simp [isDirectiveChar] at hc
    obtain ⟨⟨⟨⟨⟨⟨⟨⟨⟨⟨⟨⟨h1, h2⟩, h3⟩, h4⟩, h5⟩, h6⟩, h7⟩, h8⟩, h9⟩, h10⟩, h11⟩, h12⟩, h13⟩ := hc
    cases str <;> simp [directive, *]
  · intro n str pos args
    rw [ParseV_percent]
    have h : IsDigit NUL = false := by decide
    have e : ∀ c : Char, c ≠ NUL → ¬ (NUL = c) := fun c hc e => hc e.symm
    cases str <;>
      simp [directive, h, e 'u' (by decide), e 'd' (by decide), e 'x' (by decide),
        e 'f' (by decide), e 'c' (by decide), e 's' (by decide), e 'S' (by decide),
        e '$' (by decide), e '%' (by decide), e ' ' (by decide), e '_' (by decide),
        e '?' (by decide)]
  · intro n str pos args
    rw [ParseV_percent]
    have h : IsDigit '?' = false := by decide
    cases str <;> simp [directive, h]

/-- Witness for `malformed_directive_fails`: `%q` in front of the subject `abc`. -/
theorem malformed_directive_fails_witness :
    ParseV 1 (some ['a', 'b', 'c']) 0 ('%' :: 'q' :: []) [] = (PResult.null, []) :=
  malformed_directive_fails.1 0 (some ['a', 'b', 'c']) 0 'q' [] [] (by decide)

/-! ## `EqIS`, hexadecimal dumps, round trips (C14, C17, C18, C19) -/

theorem length_dropWhile_le_length (p : Char → Bool) (l : List Char) :
    (l.dropWhile p).length ≤ l.length := by
  rw [← drop_length_takeWhile]
  simp

theorem EqISLoop_total : ∀ (n : Nat) (s1 s2 : List Char), s1.length + 2 ≤ n →
    EqISLoop n s1 s2 ≠ none := by
  intro n
  induction n with
  | zero => intro s1 s2 h; omega
  | succ n ih =>
    intro s1 s2 h
    unfold EqISLoop
    split
    · split
      · simp
      · split
        · rename_i hc
          apply ih
          have h1 := length_dropWhile_le_length IsWs s1
          have h2 := cur_ne_nul_length hc
          simp only [List.length_drop]
          omega
        · rename_i hc
          obtain ⟨m, rfl⟩ : ∃ m, n = m + 1 := ⟨n - 1, by omega⟩
          unfold EqISLoop
          have : ¬ (cur (List.dropWhile IsWs s1) ≠ NUL ∧ cur (List.dropWhile IsWs s2) ≠ NUL) :=
            fun h => hc h.1
          rw [if_neg this]
          simp
    · simp

/-- `EqIS` always returns: the bound on its loop is never exhausted. -/
theorem EqIS_total (s1 s2 : List Char) : EqIS s1 s2 ≠ none :=
  EqISLoop_total _ s1 s2 (Nat.le_refl _)

/-- Claim C17, evaluation at the failing input: `EqIS("a ", "a")` returns false,
although the two strings are equal once whitespace is removed and the letters
are lower-cased; the same with the arguments exchanged. -/
theorem EqIS_rejects_trailing_space :
    EqIS "a ".toList "a".toList = some false ∧ EqIS "a".toList "a ".toList = some false ∧
      ("a ".toList.filter (fun c => !IsWs c)).map towlower =
        ("a".toList.filter (fun c => !IsWs c)).map towlower := by
  decide

theorem digitChar_facts : ∀ d : Nat, d < 16 →
    IsWs (Nat.digitChar d) = false ∧ Nat.digitChar d ≠ '-' ∧ Nat.digitChar d ≠ '+' ∧
      Nat.digitChar d ≠ 'x' ∧ Nat.digitChar d ≠ 'X' ∧ Nat.digitChar d ≠ NUL ∧
      digitVal (Nat.digitChar d) = d ∧
      Nat.digitChar d ∈ lowerHexDigits := by
  decide

theorem fmt02x_byte (b : Nat) (hb : b < 256) :
    fmt02x b = [Nat.digitChar (b / 16), Nat.digitChar (b % 16)] := by
  unfold fmt02x Nat.toDigits
  by_cases h : b / 16 = 0
  · have h1 : b % 16 = b := Nat.mod_eq_of_lt (by omega)
    simp [Nat.toDigitsCore, h, h1]
    rfl
  · have h2 : b / 16 / 16 = 0 := by omega
    have h3 : b / 16 % 16 = b / 16 := Nat.mod_eq_of_lt (by omega)
    obtain ⟨m, rfl⟩ : ∃ m, b = m + 1 := ⟨b - 1, by omega⟩
    simp [Nat.toDigitsCore, h, h2, h3]

theorem digitsVal_append (b : Nat) (ds : List Char) (c : Char) :
    digitsVal b (ds ++ [c]) = digitsVal b ds * b + digitVal c := by
  simp [digitsVal, List.foldl_append]

theorem toDigitsCore_spec (b : Nat) (hb2 : 2 ≤ b) (hb : b ≤ 16) :
    ∀ (fuel n : Nat) (acc : List Char),
    n < fuel → ∃ ds : List Char, Nat.toDigitsCore b fuel n acc = ds ++ acc ∧ ds ≠ [] ∧
      (∀ c ∈ ds, ∃ d, d < b ∧ c = Nat.digitChar d) ∧ digitsVal b ds = n := by
  intro fuel
  induction fuel with
  | zero => intro n acc h; omega
  | succ fuel ih =>
    intro n acc hn
    have hb0 : 0 < b := by omega
    have hmod : n % b < b := Nat.mod_lt _ hb0
    have hdv : digitVal (Nat.digitChar (n % b)) = n % b :=
      (digitChar_facts (n % b) (by omega)).2.2.2.2.2.2.1
    by_cases h : n / b = 0
    · have hlt : n < b := (Nat.div_eq_zero_iff hb0).mp h
      refine ⟨[Nat.digitChar (n % b)], by simp [Nat.toDigitsCore, h], by simp, ?_, ?_⟩
      · intro c hc
        simp at hc
        exact ⟨n % b, hmod, hc⟩
      · rw [Nat.mod_eq_of_lt hlt] at hdv ⊢
        simp [digitsVal, hdv]
    · have hpos : 0 < n := by
        rcases Nat.eq_zero_or_pos n with h0 | h0
        · subst h0; simp at h
        · exact h0
      have hlt : n / b < fuel := by
        have h2 : n / b < n := Nat.div_lt_self hpos (by omega)
        omega
      obtain ⟨ds, h1, h2, h3, h4⟩ := ih (n / b) (Nat.digitChar (n % b) :: acc) hlt
      refine ⟨ds ++ [Nat.digitChar (n % b)], by simp [Nat.toDigitsCore, h, h1], by simp, ?_, ?_⟩
      · intro c hc
        simp at hc
        rcases hc with hc | hc
        · exact h3 c hc
        · exact ⟨n % b, hmod, hc⟩
      · rw [digitsVal_append, h4, hdv]
        exact Nat.div_add_mod' n b

theorem toDigits_spec (b : Nat) (hb2 : 2 ≤ b) (hb : b ≤ 16) (n : Nat) :
    Nat.toDigits b n ≠ [] ∧ (∀ c ∈ Nat.toDigits b n, ∃ d, d < b ∧ c = Nat.digitChar d) ∧
      digitsVal b (Nat.toDigits b n) = n := by
  obtain ⟨ds, h1, h2, h3, h4⟩ := toDigitsCore_spec b hb2 hb (n + 1) n [] (by omega)
  have : Nat.toDigits b n = ds := by simpa [Nat.toDigits] using h1
  rw [this]
  exact ⟨h2, h3, h4⟩

theorem isDigitIn_digitChar (b : Nat) (hb : b ≤ 16) (d : Nat) (hd : d < b) :
    isDigitIn b (Nat.digitChar d) = true := by
  have := (digitChar_facts d (by omega)).2.2.2.2.2.2.1
  simp [isDigitIn, this, hd]

/-- `scanInt` on a bare run of digits, and on such a run after a minus sign. -/
theorem scanInt_run (b : Nat) (hb : b ≤ 16) (ds : List Char) (hne : ds ≠ [])
    (hdig : ∀ c ∈ ds, ∃ d, d < b ∧ c = Nat.digitChar d) :
    scanInt b ds = ⟨false, digitsVal b ds, ds.length⟩ ∧
      scanInt b ('-' :: ds) = ⟨true, digitsVal b ds, ds.length + 1⟩ := by
  have hall : ∀ c ∈ ds, isDigitIn b c = true := by
    intro c hc
    obtain ⟨d, hd, rfl⟩ := hdig c hc
    exact isDigitIn_digitChar b hb d hd
  have htw : ds.takeWhile (isDigitIn b) = ds := by
    have : (ds ++ []).takeWhile (isDigitIn b) = ds ++ ([] : List Char).takeWhile (isDigitIn b) :=
      List.takeWhile_append_of_pos hall
    simpa using this
  obtain ⟨c0, t, rfl⟩ : ∃ c0 t, ds = c0 :: t := by
    cases ds with
    | nil => exact absurd rfl hne
    | cons x t => exact ⟨x, t, rfl⟩
  obtain ⟨d0, hd0, rfl⟩ := hdig c0 (by simp)
  have f0 := digitChar_facts d0 (by omega)
  have hx : ¬ (cur t = 'x' ∨ cur t = 'X') := by
    cases t with
    | nil => simp; decide
    | cons c1 t1 =>
      obtain ⟨d1, hd1, rfl⟩ := hdig c1 (by simp)
      have f1 := digitChar_facts d1 (by omega)
      simp [f1.2.2.2.1, f1.2.2.2.2.1]
  have hm : IsWs '-' = false := by decide
  constructor
  · simp [scanInt, f0.1, f0.2.1, f0.2.2.1, htw, hx]
  · simp [scanInt, hm, f0.1, f0.2.1, f0.2.2.1, htw, hx]
    omega

/-- Claim C14: round trip for integers.  For every unsigned 32-bit `n`, parsing its
decimal rendering with `%u` succeeds with the cursor at the end and stores `n`;
for every signed 32-bit `i`, parsing its decimal rendering with `%d` does so
with `i`; for every unsigned 32-bit `n`, parsing its hexadecimal rendering with
`%x` does so with `n`. -/
theorem integer_round_trip :
    (∀ n : Nat, n < 2 ^ 32 →
      Parse (fmtU n) ['%', 'u'] = (PResult.ptr (fmtU n).length, [some (Value.uint n)])) ∧
    (∀ i : Int, -(2 ^ 31) ≤ i → i < 2 ^ 31 →
      Parse (fmtD i) ['%', 'd'] = (PResult.ptr (fmtD i).length, [some (Value.int i)])) ∧
    (∀ n : Nat, n < 2 ^ 32 →
      Parse (fmtX n) ['%', 'x'] = (PResult.ptr (fmtX n).length, [some (Value.uint n)])) := by
  refine ⟨?_, ?_, ?_⟩
  · intro n hn
    obtain ⟨h1, h2, h3⟩ := toDigits_spec 10 (by omega) (by omega) n
    have hs := (scanInt_run 10 (by omega) _ h1 h2).1
    have hl : (Nat.toDigits 10 n).length ≠ 0 := by
      intro e; exact h1 (List.eq_nil_of_length_eq_zero e)
    show ParseV (4 + 1) (some (fmtU n)) 0 ['%', 'u'] [] = _
    rw [number_step_u]
    have hn' : ¬ (n > 4294967295) := by omega
    simp [strtoul, fmtU, hs, h3, hl, ParseV_nil, hn']
  · intro i hlo hhi
    show ParseV (4 + 1) (some (fmtD i)) 0 ['%', 'd'] [] = _
    rw [number_step_d]
    by_cases hneg : i < 0
    · obtain ⟨h1, h2, h3⟩ := toDigits_spec 10 (by omega) (by omega) i.natAbs
      have hs := (scanInt_run 10 (by omega) _ h1 h2).2
      have hn' : ¬ (i.natAbs > 2147483648) := by omega
      simp [strtol, fmtD, hneg, hs, h3, ParseV_nil, hn', abs_of_neg hneg]
    · obtain ⟨h1, h2, h3⟩ := toDigits_spec 10 (by omega) (by omega) i.toNat
      have hs := (scanInt_run 10 (by omega) _ h1 h2).1
      have hl : (Nat.toDigits 10 i.toNat).length ≠ 0 := by
        intro e; exact h1 (List.eq_nil_of_length_eq_zero e)
      have hn' : ¬ (i.toNat > 2147483647) := by omega
      have hv : (i.toNat : Int) = i := by omega
      simp [strtol, fmtD, hneg, hs, h3, hl, ParseV_nil, hn', hv]
  · intro n hn
    obtain ⟨h1, h2, h3⟩ := toDigits_spec 16 (by omega) (by omega) n
    have hs := (scanInt_run 16 (by omega) _ h1 h2).1
    have hl : (Nat.toDigits 16 n).length ≠ 0 := by
      intro e; exact h1 (List.eq_nil_of_length_eq_zero e)
    show ParseV (4 + 1) (some (fmtX n)) 0 ['%', 'x'] [] = _
    rw [number_step_x]
    have hn' : ¬ (n > 4294967295) := by omega
    simp [strtoul, fmtX, hs, h3, hl, ParseV_nil, hn']

/-- Witness for `integer_round_trip`: the largest unsigned 32-bit value with `%u`. -/
theorem integer_round_trip_witness :
    Parse (fmtU 4294967295) ['%', 'u'] =
      (PResult.ptr (fmtU 4294967295).length, [some (Value.uint 4294967295)]) :=
  integer_round_trip.1 4294967295 (by decide)

theorem sscanf02x_pair (b : Nat) (hb : b < 256) (rest : List Char) :
    sscanf02x (fmt02x b ++ rest) = some (b : Int) := by
  rw [fmt02x_byte b hb]
  have f1 := digitChar_facts (b / 16) (by omega)
  have f2 := digitChar_facts (b % 16) (by omega)
  have d1 := isDigitIn_digitChar 16 (by omega) (b / 16) (by omega)
  have d2 := isDigitIn_digitChar 16 (by omega) (b % 16) (by omega)
  have hv : b / 16 * 16 + b % 16 = b := Nat.div_add_mod' b 16
  simp [sscanf02x, List.dropWhile_cons, f1.1, f1.2.1, f1.2.2.1, f2.2.2.2.1, f2.2.2.2.2.1, d1, d2,
    f1.2.2.2.2.2.2.1, f2.2.2.2.2.2.2.1]
  exact_mod_cast hv

/-- Claim C18: for a buffer `buf` of bytes, `HexToMem(MemToHex(buf, len), out, len)`
returns true and leaves `out` equal to `buf`; `MemToHex` produces exactly
`2 * len` characters, all of them lower-case hexadecimal digits. -/
theorem hex_round_trip (buf : List Nat) (hbuf : ∀ b ∈ buf, b < 256) :
    HexToMem (some (MemToHex buf)) buf.length = (some true, buf) ∧
      (MemToHex buf).length = 2 * buf.length ∧
      ∀ c ∈ MemToHex buf, c ∈ lowerHexDigits := by
  induction buf with
  | nil => simp [MemToHex, HexToMem]
  | cons b buf ih =>
    have hb : b < 256 := hbuf b (by simp)
    obtain ⟨h1, h2, h3⟩ := ih (fun x hx => hbuf x (by simp [hx]))
    have hs := sscanf02x_pair b hb (MemToHex buf)
    refine ⟨?_, ?_, ?_⟩
    · simp only [MemToHex, List.length_cons]
      unfold HexToMem
      rw [hs]
      have hadd : Ptr.add (some (fmt02x b ++ MemToHex buf)) 2 = some (MemToHex buf) := by
        rw [fmt02x_byte b hb]
        simp [Ptr.add]
      simp only [hadd, h1]
      have : ((b : Int) % 256).toNat = b := by omega
      rw [this]
    · simp [MemToHex, fmt02x_byte b hb, h2]
      omega
    · intro c hc
      simp only [MemToHex, fmt02x_byte b hb, List.mem_append] at hc
      rcases hc with hc | hc
      · simp only [List.mem_cons, List.mem_singleton, List.not_mem_nil, or_false] at hc
        rcases hc with rfl | rfl
        · exact (digitChar_facts (b / 16) (by omega)).2.2.2.2.2.2.2
        · exact (digitChar_facts (b % 16) (by omega)).2.2.2.2.2.2.2
      · exact h3 c hc

/-- Witness for `hex_round_trip`: the four bytes 0, 255, 16, 7. -/
theorem hex_round_trip_witness :
    HexToMem (some (MemToHex [0, 255, 16, 7])) [0, 255, 16, 7].length =
        (some true, [0, 255, 16, 7]) ∧
      (MemToHex [0, 255, 16, 7]).length = 2 * [0, 255, 16, 7].length ∧
      ∀ c ∈ MemToHex [0, 255, 16, 7], c ∈ lowerHexDigits :=
  hex_round_trip [0, 255, 16, 7] (by decide)

/-- Claim C19, evaluation at the failing inputs: `HexToMem("ag", buf, 1)` returns true
(and stores the byte 10) although `g` is no hexadecimal digit, because
`sscanf_s` converts the single digit `a` and the cursor is moved two characters
on regardless; and `HexToMem("a", buf, 1)`, a string of the wrong length, does
not return false but moves the cursor past the terminator and reads there. -/
theorem HexToMem_accepts_non_hex :
    HexToMem (some ['a', 'g']) 1 = (some true, [10]) ∧
      HexToMem (some ['a']) 1 = (none, [10]) := by
  decide

/-! ## Natural comparison (C20) -/

theorem digitVal_of_IsDigit (c : Char) (h : IsDigit c = true) :
    digitVal c = c.toNat - 48 ∧ 48 ≤ c.toNat ∧ c.toNat ≤ 57 := by
  simp [IsDigit] at h
  simp [digitVal, h]

theorem foldl_digits_acc (t : List Char) : ∀ acc : Nat,
    t.foldl (fun acc c => acc * 10 + digitVal c) acc =
      acc * 10 ^ t.length + t.foldl (fun acc c => acc * 10 + digitVal c) 0 := by
  induction t with
  | nil => intro acc; simp
  | cons x t ih =>
    intro acc
    simp only [List.foldl_cons, List.length_cons]
    rw [ih (acc * 10 + digitVal x), ih (0 * 10 + digitVal x)]
    ring

theorem digitsVal_cons (x : Char) (t : List Char) :
    digitsVal 10 (x :: t) = digitVal x * 10 ^ t.length + digitsVal 10 t := by
  simp only [digitsVal, List.foldl_cons]
  rw [foldl_digits_acc]
  simp

theorem digitsVal_lt (t : List Char) (h : ∀ c ∈ t, IsDigit c = true) :
    digitsVal 10 t < 10 ^ t.length := by
  induction t with
  | nil => simp [digitsVal]
  | cons x t ih =>
    have hx := digitVal_of_IsDigit x (h x (by simp))
    have ht := ih (fun c hc => h c (by simp [hc]))
    rw [digitsVal_cons, List.length_cons, pow_succ]
    have : digitVal x ≤ 9 := by omega
    nlinarith

theorem digitsVal_dropZeros (t : List Char) :
    digitsVal 10 (t.dropWhile (fun c => c == '0')) = digitsVal 10 t := by
  induction t with
  | nil => rfl
  | cons x t ih =>
    rw [List.dropWhile_cons]
    split
    · rename_i hx
      simp at hx
      subst hx
      rw [ih, digitsVal_cons]
      have : digitVal '0' = 0 := by decide
      simp [this]
    · rfl

theorem dropZeros_head (t : List Char) : cur (t.dropWhile (fun c => c == '0')) ≠ '0' := by
  induction t with
  | nil => simp; decide
  | cons x t ih =>
    rw [List.dropWhile_cons]
    split
    · exact ih
    · rename_i hx
      simpa using hx

theorem digitsVal_ge (u : List Char) (h : ∀ c ∈ u, IsDigit c = true) (hne : u ≠ [])
    (h0 : cur u ≠ '0') : 10 ^ (u.length - 1) ≤ digitsVal 10 u := by
  cases u with
  | nil => exact absurd rfl hne
  | cons x t =>
    have hx := digitVal_of_IsDigit x (h x (by simp))
    have : 1 ≤ digitVal x := by
      by_contra hc
      have h48 : x.toNat = 48 := by omega
      apply h0
      simp only [cur_cons]
      apply Char.ext
      apply UInt32.ext
      rw [← Char.toNat] at *
      simpa using h48
    rw [digitsVal_cons]
    simp only [List.length_cons, Nat.add_sub_cancel]
    have hp := Nat.mul_le_mul_right (10 ^ t.length) this
    omega

theorem charDiff_digits (x y : Char) (hx : IsDigit x = true) (hy : IsDigit y = true) :
    charDiff x y = (digitVal x : Int) - (digitVal y : Int) := by
  have h1 := digitVal_of_IsDigit x hx
  have h2 := digitVal_of_IsDigit y hy
  unfold charDiff
  omega

theorem cmpDigits_shorter : ∀ (u v : List Char) (diff : Int),
    (∀ c ∈ u, IsDigit c = true) → (∀ c ∈ v, IsDigit c = true) → u.length < v.length →
    cmpDigits u v diff = .ret (-1) := by
  intro u
  induction u with
  | nil =>
    intro v diff _ hv hl
    cases v with
    | nil => simp at hl
    | cons y s => simp [cmpDigits, hv y (by simp)]
  | cons x t ih =>
    intro v diff hu hv hl
    cases v with
    | nil => simp at hl
    | cons y s =>
      have hx := hu x (by simp)
      have hy := hv y (by simp)
      simp only [cmpDigits, cur_cons, hx, hy, true_or, if_true]
      simp only [Bool.true_eq_false, if_false, List.drop_succ_cons, List.drop_zero]
      exact ih s _ (fun c hc => hu c (by simp [hc])) (fun c hc => hv c (by simp [hc]))
        (by simpa using hl)

theorem cmpDigits_longer : ∀ (u v : List Char) (diff : Int),
    (∀ c ∈ u, IsDigit c = true) → (∀ c ∈ v, IsDigit c = true) → v.length < u.length →
    cmpDigits u v diff = .ret 1 := by
  intro u
  induction u with
  | nil => intro v diff _ _ hl; simp at hl
  | cons x t ih =>
    intro v diff hu hv hl
    have hx := hu x (by simp)
    cases v with
    | nil =>
      have h0 : IsDigit NUL = false := by decide
      simp [cmpDigits, hx, h0]
    | cons y s =>
      have hy := hv y (by simp)
      simp only [cmpDigits, cur_cons, hx, hy, true_or, if_true]
      simp only [Bool.true_eq_false, if_false, List.drop_succ_cons, List.drop_zero]
      exact ih s _ (fun c hc => hu c (by simp [hc])) (fun c hc => hv c (by simp [hc]))
        (by simpa using hl)

theorem cmpDigits_same_length : ∀ (u v : List Char) (diff : Int),
    (∀ c ∈ u, IsDigit c = true) → (∀ c ∈ v, IsDigit c = true) → u.length = v.length →
    ∃ D : Int, cmpDigits u v diff = .done D [] [] ∧ (diff ≠ 0 → D = diff) ∧
      (diff = 0 → ((D < 0 ↔ digitsVal 10 u < digitsVal 10 v) ∧
        (D = 0 ↔ digitsVal 10 u = digitsVal 10 v))) := by
  intro u
  induction u with
  | nil =>
    intro v diff _ _ hl
    have : v = [] := List.eq_nil_of_length_eq_zero hl.symm
    subst this
    have h0 : IsDigit NUL = false := by decide
    refine ⟨diff, by simp [cmpDigits, h0], fun _ => rfl, ?_⟩
    intro hd
    simp [hd]
  | cons x t ih =>
    intro v diff hu hv hl
    cases v with
    | nil => simp at hl
    | cons y s =>
      have hx := hu x (by simp)
      have hy := hv y (by simp)
      have hut : ∀ c ∈ t, IsDigit c = true := fun c hc => hu c (by simp [hc])
      have hvs : ∀ c ∈ s, IsDigit c = true := fun c hc => hv c (by simp [hc])
      have hls : t.length = s.length := by simpa using hl
      obtain ⟨D, hD, h1, h2⟩ := ih s (if diff = 0 then charDiff x y else diff) hut hvs hls
      refine ⟨D, ?_, ?_, ?_⟩
      · simp only [cmpDigits, cur_cons, hx, hy, true_or, if_true]
        simp only [Bool.true_eq_false, if_false, List.drop_succ_cons, List.drop_zero]
        exact hD
      · intro hd
        rw [if_neg hd] at h1
        exact h1 hd
      · intro hd
        subst hd
        simp only [if_true] at h1 h2
        have hcd := charDiff_digits x y hx hy
        have bt := digitsVal_lt t hut
        have bs := digitsVal_lt s hvs
        rw [digitsVal_cons, digitsVal_cons, hls]
        rw [hls] at bt
        by_cases hxy : digitVal x = digitVal y
        · have hz : charDiff x y = 0 := by rw [hcd, hxy]; simp
          have := h2 hz
          rw [hxy]
          constructor
          · rw [this.1]; omega
          · rw [this.2]; omega
        · have hnz : charDiff x y ≠ 0 := by rw [hcd]; omega
          have hDe := h1 hnz
          rw [hDe, hcd]
          rcases Nat.lt_or_gt_of_ne hxy with hlt | hgt
          · have : (digitVal x + 1) * 10 ^ s.length ≤ digitVal y * 10 ^ s.length :=
              Nat.mul_le_mul_right _ hlt
            have e : (digitVal x + 1) * 10 ^ s.length =
                digitVal x * 10 ^ s.length + 10 ^ s.length := by ring
            constructor
            · constructor
              · intro _; omega
              · intro _; omega
            · constructor
              · intro h; omega
              · intro h; omega
          · have : (digitVal y + 1) * 10 ^ s.length ≤ digitVal x * 10 ^ s.length :=
              Nat.mul_le_mul_right _ hgt
            have e : (digitVal y + 1) * 10 ^ s.length =
                digitVal y * 10 ^ s.length + 10 ^ s.length := by ring
            constructor
            · constructor
              · intro h; omega
              · intro h; omega
            · constructor
              · intro h; omega
              · intro h; omega

theorem cLocale_ascii : cLocale.Ascii := fun _ _ => ⟨rfl, rfl⟩

theorem iswalnum_NUL (L : WideChars) (hL : L.Ascii) : L.iswalnum NUL = false := by
  rw [(hL NUL (by decide)).1]
  decide

theorem iswalnum_not_ws (L : WideChars) (hL : L.Ascii) (c : Char)
    (h : L.iswalnum c = true) : IsWs c = false := by
  by_cases hw : IsWs c = true
  · have hc : c.toNat < 128 := by
      simp [IsWs] at hw
      omega
    rw [(hL c hc).1] at h
    simp [isAsciiAlnum, IsDigit] at h
    simp [IsWs] at hw
    omega
  · simpa using hw

theorem IsDigit_iswalnum (L : WideChars) (hL : L.Ascii) (c : Char)
    (h : IsDigit c = true) : L.iswalnum c = true := by
  have hc : c.toNat < 128 := by
    simp [IsDigit] at h
    omega
  rw [(hL c hc).1]
  simp [isAsciiAlnum, h]

theorem CmpNatural_numbers (L : WideChars) (x y : List Char) (hx : x ≠ []) (hy : y ≠ [])
    (hdx : ∀ c ∈ x, IsDigit c = true) (hdy : ∀ c ∈ y, IsDigit c = true)
    (hne : digitsVal 10 x ≠ digitsVal 10 y) :
    ∃ r : Int, CmpNatural L x y = some r ∧ (r < 0 ↔ digitsVal 10 x < digitsVal 10 y) := by
  obtain ⟨a0, ta, rfl⟩ : ∃ a0 ta, x = a0 :: ta := by
    cases x with
    | nil => exact absurd rfl hx
    | cons a t => exact ⟨a, t, rfl⟩
  obtain ⟨b0, tb, rfl⟩ : ∃ b0 tb, y = b0 :: tb := by
    cases y with
    | nil => exact absurd rfl hy
    | cons a t => exact ⟨a, t, rfl⟩
  have ha0 := hdx a0 (by simp)
  have hb0 := hdy b0 (by simp)
  have wa := IsWs_of_IsDigit a0 ha0
  have wb := IsWs_of_IsDigit b0 hb0
  have na : a0 ≠ NUL := by rintro rfl; revert ha0; decide
  have hu : ∀ c ∈ (a0 :: ta).dropWhile (fun c => c == '0'), IsDigit c = true :=
    fun c hc => hdx c ((List.dropWhile_suffix _).subset hc)
  have hv : ∀ c ∈ (b0 :: tb).dropWhile (fun c => c == '0'), IsDigit c = true :=
    fun c hc => hdy c ((List.dropWhile_suffix _).subset hc)
  have vu := digitsVal_dropZeros (a0 :: ta)
  have vv := digitsVal_dropZeros (b0 :: tb)
  have zu := dropZeros_head (a0 :: ta)
  have zv := dropZeros_head (b0 :: tb)
  have step : CmpNatural L (a0 :: ta) (b0 :: tb) =
      match cmpDigits ((a0 :: ta).dropWhile (fun c => c == '0'))
          ((b0 :: tb).dropWhile (fun c => c == '0')) 0 with
      | .ret r => some r
      | .done diff a2 b2 =>
        if diff = 0 then CmpNaturalLoop L (a0 :: ta) (b0 :: tb) (ta.length + 2) false a2 b2
        else some diff := by
    unfold CmpNatural
    rw [show (a0 :: ta).length + 2 = (ta.length + 2) + 1 from rfl, CmpNaturalLoop]
    simp only [Bool.true_or, if_true]
    have e1 : List.dropWhile IsWs (a0 :: ta) = a0 :: ta := by simp [List.dropWhile_cons, wa]
    have e2 : List.dropWhile IsWs (b0 :: tb) = b0 :: tb := by simp [List.dropWhile_cons, wb]
    rw [e1, e2]
    simp only [cur_cons]
    rw [if_neg (fun h => na h.1), if_pos ⟨ha0, hb0⟩]
    try rfl
  rw [step]
  generalize hU : (a0 :: ta).dropWhile (fun c => c == '0') = u at *
  generalize hV : (b0 :: tb).dropWhile (fun c => c == '0') = v at *
  rw [← vu, ← vv] at hne ⊢
  rcases Nat.lt_trichotomy u.length v.length with hl | hl | hl
  · rw [cmpDigits_shorter u v 0 hu hv hl]
    refine ⟨-1, rfl, ?_⟩
    have hvne : v ≠ [] := by intro e; rw [e] at hl; simp at hl
    have b1 := digitsVal_lt u hu
    have b2 := digitsVal_ge v hv hvne zv
    have b3 : 10 ^ u.length ≤ 10 ^ (v.length - 1) :=
      Nat.pow_le_pow_right (by omega) (by omega)
    constructor
    · intro _; omega
    · intro _; omega
  · obtain ⟨D, hD, _, h2⟩ := cmpDigits_same_length u v 0 hu hv hl
    have h3 := h2 rfl
    rw [hD]
    have hD0 : D ≠ 0 := fun e => hne (h3.2.mp e)
    simp only [if_neg hD0]
    exact ⟨D, rfl, h3.1⟩
  · rw [cmpDigits_longer u v 0 hu hv hl]
    refine ⟨1, rfl, ?_⟩
    have hune : u ≠ [] := by intro e; rw [e] at hl; simp at hl
    have b1 := digitsVal_lt v hv
    have b2 := digitsVal_ge u hu hune zu
    have b3 : 10 ^ v.length ≤ 10 ^ (u.length - 1) :=
      Nat.pow_le_pow_right (by omega) (by omega)
    constructor
    · intro h; omega
    · intro h; omega

theorem CmpNatural_special_first (L : WideChars) (hL : L.Ascii) (a0 b0 : Char)
    (ta tb : List Char) (ha : L.iswalnum a0 = false) (hw : IsWs a0 = false)
    (hb : L.iswalnum b0 = true) :
    CmpNatural L (a0 :: ta) (b0 :: tb) = some (-1) := by
  have wb : IsWs b0 = false := iswalnum_not_ws L hL b0 hb
  have nb : b0 ≠ NUL := by
    rintro rfl
    rw [iswalnum_NUL L hL] at hb
    exact absurd hb (by simp)
  have da : IsDigit a0 = false := by
    by_cases h : IsDigit a0 = true
    · rw [IsDigit_iswalnum L hL a0 h] at ha
      exact absurd ha (by simp)
    · simpa using h
  unfold CmpNatural
  rw [show (a0 :: ta).length + 2 = (ta.length + 2) + 1 from rfl, CmpNaturalLoop]
  simp only [Bool.true_or, if_true]
  have e1 : List.dropWhile IsWs (a0 :: ta) = a0 :: ta := by simp [List.dropWhile_cons, hw]
  have e2 : List.dropWhile IsWs (b0 :: tb) = b0 :: tb := by simp [List.dropWhile_cons, wb]
  rw [e1, e2]
  simp only [cur_cons]
  rw [if_neg (fun h => nb h.2), if_neg (by simp [da]), if_neg (by simp [ha]),
    if_neg (by simp [ha]), if_pos hb]

/-- One pass of `CmpNatural` on two strings that start with alphanumeric characters
(by the library's `iswalnum`), not both digits, whose lower-case forms differ:
the difference of the lower-case forms is returned. -/
theorem CmpNatural_letters (L : WideChars) (hL : L.Ascii) (a0 b0 : Char)
    (ta tb : List Char) (la : L.iswalnum a0 = true) (lb : L.iswalnum b0 = true)
    (hd : ¬ (IsDigit a0 = true ∧ IsDigit b0 = true))
    (hne : charDiff (L.towlower a0) (L.towlower b0) ≠ 0) :
    CmpNatural L (a0 :: ta) (b0 :: tb) = some (charDiff (L.towlower a0) (L.towlower b0)) := by
  have wa : IsWs a0 = false := iswalnum_not_ws L hL a0 la
  have wb : IsWs b0 = false := iswalnum_not_ws L hL b0 lb
  have na : a0 ≠ NUL := by
    rintro rfl
    rw [iswalnum_NUL L hL] at la
    exact absurd la (by simp)
  unfold CmpNatural
  rw [show (a0 :: ta).length + 2 = (ta.length + 2) + 1 from rfl, CmpNaturalLoop]
  simp only [Bool.true_or, if_true]
  have e1 : List.dropWhile IsWs (a0 :: ta) = a0 :: ta := by simp [List.dropWhile_cons, wa]
  have e2 : List.dropWhile IsWs (b0 :: tb) = b0 :: tb := by simp [List.dropWhile_cons, wb]
  rw [e1, e2]
  simp only [cur_cons]
  rw [if_neg (fun h => na h.1), if_neg hd, if_pos ⟨la, lb⟩, if_neg hne]

/-- With a runtime whose `iswalnum` is true for the letter U+00E9 (e with acute
accent) and whose `towlower` leaves it as it is, `CmpNatural` of that letter
and `"a"` is 233 - 97 = 136: the letter is compared as a letter, not as a
special character. -/
theorem CmpNatural_accented_letter (L : WideChars) (hL : L.Ascii)
    (h1 : L.iswalnum (Char.ofNat 233) = true)
    (h2 : L.towlower (Char.ofNat 233) = Char.ofNat 233) :
    CmpNatural L [Char.ofNat 233] "a".toList = some 136 := by
  have ha := hL 'a' (by decide)
  have e : charDiff (L.towlower (Char.ofNat 233)) (L.towlower 'a') = 136 := by
    rw [h2, ha.2]
    decide
  have := CmpNatural_letters L hL (Char.ofNat 233) 'a' [] [] h1
    (by rw [ha.1]; decide) (by decide) (by rw [e]; decide)
  rw [e] at this
  exact this

/-- Claim C20, counterexample: `" z"` starts with a character that is not
alphanumeric, `"a"` with one that is, and yet `CmpNatural(" z", "a")` is
positive: the leading space is skipped and `z` is compared with `a`.  All
characters are ASCII, where `iswalnum` and `towlower` are those of the "C"
locale whatever the runtime. -/
theorem CmpNatural_leading_space :
    CmpNatural cLocale " z".toList "a".toList = some 25 ∧ cLocale.iswalnum ' ' = false ∧
      cLocale.iswalnum 'a' = true := by
  decide

/-- Claim C20, amended: whatever the C library's `iswalnum` and `towlower` are
outside ASCII, numbers are compared by value: for non-empty strings of decimal
digits `x` and `y` (leading zeroes allowed) that denote different numbers,
`CmpNatural(x, y)` is negative exactly when the number `x` is below the number
`y`; a string whose first character is neither alphanumeric (by `iswalnum`) nor
whitespace sorts before one whose first character is alphanumeric; and
`".hg" < "2.pdf" < "100.pdf" < "zzz"`. -/
theorem CmpNatural_natural_order (L : WideChars) (hL : L.Ascii) :
    (∀ x y : List Char, x ≠ [] → y ≠ [] → (∀ c ∈ x, IsDigit c = true) →
      (∀ c ∈ y, IsDigit c = true) → digitsVal 10 x ≠ digitsVal 10 y →
      ∃ r : Int, CmpNatural L x y = some r ∧ (r < 0 ↔ digitsVal 10 x < digitsVal 10 y)) ∧
    (∀ (a0 b0 : Char) (ta tb : List Char), L.iswalnum a0 = false → IsWs a0 = false →
      L.iswalnum b0 = true → CmpNatural L (a0 :: ta) (b0 :: tb) = some (-1)) ∧
    CmpNatural L ".hg".toList "2.pdf".toList = some (-1) ∧
    CmpNatural L "2.pdf".toList "100.pdf".toList = some (-1) ∧
    CmpNatural L "100.pdf".toList "zzz".toList = some (-73) := by
  refine ⟨CmpNatural_numbers L, CmpNatural_special_first L hL, ?_, ?_, ?_⟩
  · exact CmpNatural_special_first L hL '.' '2' _ _
      (by rw [(hL '.' (by decide)).1]; decide) (by decide)
      (by rw [(hL '2' (by decide)).1]; decide)
  · rfl
  · have h1 := hL '1' (by decide)
    have hz := hL 'z' (by decide)
    have e : charDiff (L.towlower '1') (L.towlower 'z') = -73 := by
      rw [h1.2, hz.2]
      decide
    have := CmpNatural_letters L hL '1' 'z' "00.pdf".toList "zz".toList
      (by rw [h1.1]; decide) (by rw [hz.1]; decide) (by decide) (by rw [e]; decide)
    rw [e] at this
    exact this

/-- Witness for `CmpNatural_natural_order`: the functions of the "C" locale and the
digit strings `007` and `12`. -/
theorem CmpNatural_natural_order_witness :
    ∃ r : Int, CmpNatural cLocale "007".toList "12".toList = some r ∧
      (r < 0 ↔ digitsVal 10 "007".toList < digitsVal 10 "12".toList) :=
  (CmpNatural_natural_order cLocale cLocale_ascii).1 "007".toList "12".toList (by decide)
    (by decide) (by decide) (by decide) (by decide)

theorem cmpDigits_done_length : ∀ (u v : List Char) (diff D : Int) (a2 b2 : List Char),
    cmpDigits u v diff = .done D a2 b2 →
    a2.length ≤ u.length ∧ (IsDigit (cur u) = true → a2.length < u.length) := by
  intro u
  induction u with
  | nil =>
    intro v diff D a2 b2 h
    simp only [cmpDigits] at h
    split at h
    · simp at h
    · simp at h
      have hN : IsDigit NUL = false := by decide
      simp [h.2.1, hN]
  | cons x t ih =>
    intro v diff D a2 b2 h
    simp only [cmpDigits] at h
    split at h
    · split at h
      · simp at h
      · split at h
        · simp at h
        · have := (ih _ _ _ _ _ h).1
          simp
          omega
    · rename_i hx
      simp at h
      simp at hx
      simp [← h.2.1, hx.1]

theorem charDiff_eq_zero {x y : Char} (h : charDiff x y = 0) : x = y := by
  unfold charDiff at h
  have h1 : x.toNat = y.toNat := by omega
  apply Char.ext
  apply UInt32.ext
  exact h1

theorem iswalnum_ne_nul (L : WideChars) (hL : L.Ascii) {c : Char}
    (h : L.iswalnum c = true) : c ≠ NUL := by
  rintro rfl
  rw [iswalnum_NUL L hL] at h
  exact absurd h (by simp)

theorem CmpNaturalLoop_total (L : WideChars) (hL : L.Ascii) (aStart bStart : List Char) :
    ∀ (n : Nat) (first : Bool) (a b : List Char), a.length + 1 ≤ n →
    CmpNaturalLoop L aStart bStart n first a b ≠ none := by
  intro n
  induction n with
  | zero => intro first a b h; omega
  | succ n ih =>
    intro first a b h
    rw [CmpNaturalLoop]
    generalize hskip : (first || cur a == NUL || cur b == NUL || IsWs (cur a) && IsWs (cur b)) = skip
    have hla : (if skip = true then a.dropWhile IsWs else a).length ≤ a.length := by
      split
      · exact length_dropWhile_le_length _ _
      · exact Nat.le_refl _
    generalize (if skip = true then a.dropWhile IsWs else a) = a1 at *
    generalize (if skip = true then b.dropWhile IsWs else b) = b1 at *
    split
    · simp
    · rename_i hne
      split
      · rename_i hdig
        have hz := length_dropWhile_le_length (fun c => c == '0') a1
        cases hc : cmpDigits (a1.dropWhile (fun c => c == '0')) (b1.dropWhile (fun c => c == '0')) 0 with
        | ret r => simp
        | done D a2 b2 =>
          simp only []
          split
          · apply ih
            have h1 := cmpDigits_done_length _ _ _ _ _ _ hc
            have h2 : a2.length < a1.length := by
              cases a1 with
              | nil => exact absurd hdig.1 (by decide)
              | cons x t =>
                rw [List.dropWhile_cons] at h1 hz
                split at h1
                · have := length_dropWhile_le_length (fun c => c == '0') t
                  simp only [List.length_cons]
                  omega
                · have := h1.2 (by simpa using hdig.1)
                  exact this
            omega
          · simp
      · split
        · rename_i hal
          split
          · apply ih
            have := cur_ne_nul_length (iswalnum_ne_nul L hL hal.1)
            simp only [List.length_drop]
            omega
          · simp
        · split
          · simp
          · split
            · simp
            · split
              · rename_i hcd
                apply ih
                have he := charDiff_eq_zero hcd
                have hn : cur a1 ≠ NUL := fun e => hne ⟨e, by rw [← he]; exact e⟩
                have := cur_ne_nul_length hn
                simp only [List.length_drop]
                omega
              · simp

/-- `CmpNatural` always returns: the bound on its loop is never exhausted. -/
theorem CmpNatural_total (L : WideChars) (hL : L.Ascii) (a b : List Char) :
    CmpNatural L a b ≠ none :=
  CmpNaturalLoop_total L hL a b _ true a b (by omega)

/-! ## Output slots and value-producing directives (C15) -/

theorem conversion_parse (m : Nat) (l : List Char) (c : Char)
    (hc : c = 'u' ∨ c = 'd' ∨ c = 'x') :
    ∃ v : Value, (ParseV (m + 2) (some l) 0 ['%', c] []).2 = [some v] ∧
      v.kind = (if c = 'd' then Kind.int else Kind.uint) := by
  rcases hc with rfl | rfl | rfl
  · refine ⟨.uint (strtoul l 10).1, ?_, by simp [Value.kind]⟩
    rw [show m + 2 = (m + 1) + 1 from rfl, number_step_u]
    split <;> simp [ParseV_nil]
  · refine ⟨.int (strtol l 10).1, ?_, by simp [Value.kind]⟩
    rw [show m + 2 = (m + 1) + 1 from rfl, number_step_d]
    split <;> simp [ParseV_nil]
  · refine ⟨.uint (strtoul l 16).1, ?_, by simp [Value.kind]⟩
    rw [show m + 2 = (m + 1) + 1 from rfl, number_step_x]
    split <;> simp [ParseV_nil]

theorem nul_conversion_parse (m : Nat) (str : Ptr) :
    ParseV (m + 1) str 0 ['%', NUL] [] = (.null, []) := by
  rw [ParseV_percent]
  have h : IsDigit NUL = false := by decide
  have e : ∀ c : Char, c ≠ NUL → ¬ (NUL = c) := fun c hc e => hc e.symm
  cases str <;>
    simp [directive, h, e 'u' (by decide), e 'd' (by decide), e 'x' (by decide),
      e 'f' (by decide), e 'c' (by decide), e 's' (by decide), e 'S' (by decide),
      e '$' (by decide), e '%' (by decide), e ' ' (by decide), e '_' (by decide),
      e '?' (by decide)]

theorem width_parse_end (m : Nat) (ds : List Char) (hne : ds ≠ [])
    (hdig : ∀ d ∈ ds, IsDigit d = true) :
    ParseV (m + 3) (some ds) 0 ['%', 'u', '%', 'c'] [] =
      (.ptr (ds.length + 1), [some (.uint (widthOf ds)), some (.chr NUL)]) := by
  rw [ParseV_percent]
  have hl : ds.length ≠ 0 := by
    cases ds with
    | nil => exact absurd rfl hne
    | cons x t => simp
  have hs := strtoul_digits ds [] hne hdig (by decide)
  simp only [List.append_nil] at hs
  simp [directive, hs, hl, Ptr.add]
  rw [show m + 2 = (m + 1) + 1 from rfl, ParseV_percent]
  simp [directive, Ptr.add, ParseV_nil]

theorem limited_value_of (P : List Char → List Char → PResult × List Slot)
    (s format : List Char) (e w : Nat) (c : Char)
    (hr : P format ['%', 'u', '%', 'c'] = (.ptr e, [some (.uint w), some (.chr c)]))
    (k : Nat) (h : (ParseLimitedNumber P (some s) format).endOut = some k) :
    (FindChar ['u', 'd', 'x'] c).isSome = true ∧
    ∃ (l : List Char) (j : Nat), (P l ['%', c]).1 = .ptr j ∧
      (ParseLimitedNumber P (some s) format).valueOut = (P l ['%', c]).2.headD none := by
  revert h
  simp only [ParseLimitedNumber, hr]
  split
  · split
    · split
      · simp
      · rename_i lim cnt hb
        split
        · split
          · simp
          · split
            · intro _
              exact ⟨by assumption, lim, _, by assumption, rfl⟩
            · simp
        all_goals simp
    · simp
  · simp

theorem limited_none_endOut (P : List Char → List Char → PResult × List Slot)
    (format : List Char) : (ParseLimitedNumber P none format).endOut = none := by
  unfold ParseLimitedNumber
  simp only []
  split
  · split <;> rfl
  · rfl

theorem dropWhile_head_not (p : Char → Bool) (c : Char) (r l : List Char)
    (h : l.dropWhile p = c :: r) : p c = false := by
  induction l with
  | nil => simp at h
  | cons x t ih =>
    rw [List.dropWhile_cons] at h
    split at h
    · exact ih h
    · rename_i hx
      simp at h
      rw [← h.1]
      simpa using hx

theorem scanFmt_width (dt : List Char) (c : Char) (r : List Char)
    (hdt : ∀ d ∈ dt, IsDigit d = true) (hc : c = 'u' ∨ c = 'd' ∨ c = 'x') :
    scanFmt .width (dt ++ c :: r) = (if c = 'd' then Kind.int else Kind.uint) :: scanFmt .lit r := by
  induction dt with
  | nil =>
    have h1 : IsDigit 'u' = false := by decide
    have h2 : IsDigit 'd' = false := by decide
    have h3 : IsDigit 'x' = false := by decide
    rcases hc with rfl | rfl | rfl <;> simp [scanFmt, h1, h2, h3]
  | cons d t ih =>
    have hd := hdt d (by simp)
    simp only [List.cons_append, scanFmt, hd, if_true]
    exact ih (fun x hx => hdt x (by simp [hx]))

theorem digit_directive_kinds (m : Nat) (str : Ptr) (f1 : List Char) (args : List Slot)
    (h0 : NUL ∉ f1) (hd : IsDigit (cur f1) = true) (f2 : List Char) (j : Nat) (a : List Slot)
    (h : directive (fun s fmt => ParseV (m + 3) (some s) 0 fmt []) str f1 args =
      .go f2 (some j) a) :
    ∃ K : Kind, a.map slotKind = args.map slotKind ++ [some K] ∧
      scanFmt .pct f1 = K :: scanFmt .lit (f2.drop 1) := by
  rw [directive_digit _ _ _ _ hd] at h
  have hk : (ParseLimitedNumber (fun s fmt => ParseV (m + 3) (some s) 0 fmt []) str
      f1).endOut = some j := by
    revert h
    split <;> simp
    intro _ h2 _
    exact h2
  cases str with
  | none => rw [limited_none_endOut] at hk; exact absurd hk (by simp)
  | some s =>
    obtain ⟨d0, t0, rfl⟩ : ∃ d0 t0, f1 = d0 :: t0 := by
      cases f1 with
      | nil => exact absurd hd (by decide)
      | cons x t => exact ⟨x, t, rfl⟩
    have hd0 : IsDigit d0 = true := by simpa using hd
    have hsplit := List.takeWhile_append_dropWhile IsDigit t0
    have hdt : ∀ d ∈ d0 :: t0.takeWhile IsDigit, IsDigit d = true := by
      intro d hd
      simp at hd
      rcases hd with rfl | hd
      · exact hd0
      · exact List.mem_takeWhile_imp hd
    cases hrest : t0.dropWhile IsDigit with
    | nil =>
      rw [hrest, List.append_nil] at hsplit
      have hr := width_parse_end m (d0 :: t0.takeWhile IsDigit) (by simp) hdt
      rw [hsplit] at hr
      obtain ⟨_, l, i, h1, _⟩ := limited_value_of (fun s fmt => ParseV (m + 3) (some s) 0 fmt [])
        s (d0 :: t0) _ _ NUL hr j hk
      have h1' : ParseV (m + 3) (some l) 0 ['%', NUL] [] = (.null, []) :=
        nul_conversion_parse (m + 2) (some l)
      rw [h1'] at h1
      exact absurd h1 (by simp)
    | cons c r =>
      rw [hrest] at hsplit
      have hcd : IsDigit c = false := dropWhile_head_not IsDigit c r t0 hrest
      have hc0 : c ≠ NUL := by
        intro e
        apply h0
        rw [← hsplit, e]
        simp
      have hr := width_parse m (d0 :: t0.takeWhile IsDigit) c r (by simp) hdt hcd
      rw [List.cons_append, hsplit] at hr
      obtain ⟨hfc, l, i, h1, h2⟩ := limited_value_of (fun s fmt => ParseV (m + 3) (some s) 0 fmt [])
        s (d0 :: t0) _ _ c hr j hk
      obtain ⟨_, _, _, hE⟩ := limited_endOut_of (fun s fmt => ParseV (m + 3) (some s) 0 fmt [])
        s (d0 :: t0) _ _ c hr j hk
      have hc : c = 'u' ∨ c = 'd' ∨ c = 'x' := by
        rcases FindChar_udx c hfc with h | h | h | h
        · exact Or.inl h
        · exact Or.inr (Or.inl h)
        · exact Or.inr (Or.inr h)
        · exact absurd h hc0
      obtain ⟨v, hv, hkind⟩ := conversion_parse (m + 1) l c hc
      rw [hE] at h
      simp only [Step.go.injEq] at h
      obtain ⟨hf2, _, ha⟩ := h
      have hval : (ParseLimitedNumber (fun s fmt => ParseV (m + 3) (some s) 0 fmt []) (some s)
          (d0 :: t0)).valueOut = some v := by
        have hv' : (ParseV (m + 3) (some l) 0 ['%', c] []).2 = [some v] := hv
        rw [h2]
        rw [hv']
        rfl
      refine ⟨if c = 'd' then Kind.int else Kind.uint, ?_, ?_⟩
      · rw [← ha, hval]
        simp [slotKind, hkind]
      · rw [← hf2]
        have hdrop : List.drop ((d0 :: List.takeWhile IsDigit t0).length + 1 - 1) (d0 :: t0) =
            c :: r := by
          simp only [List.length_cons, Nat.add_sub_cancel, List.drop_succ_cons]
          rw [drop_length_takeWhile, hrest]
        rw [hdrop]
        have hne0 : ∀ x : Char, IsDigit x = false → d0 ≠ x := by
          intro x hx e; rw [e] at hd0; rw [hd0] at hx; exact absurd hx (by decide)
        have e1 : scanFmt .pct (d0 :: t0) = scanFmt .width t0 := by
          simp only [scanFmt]
          rw [if_neg (hne0 _ (by decide)), if_neg (hne0 _ (by decide)),
            if_neg (hne0 _ (by decide)), if_neg (hne0 _ (by decide)),
            if_neg (hne0 _ (by decide)), if_neg (hne0 _ (by decide)),
            if_neg (hne0 _ (by decide)), if_neg (hne0 _ (by decide)), if_pos hd0]
        rw [e1, ← hsplit]
        simp only [List.drop_succ_cons, List.drop_zero]
        exact scanFmt_width _ c r (fun d hd => List.mem_takeWhile_imp hd) hc

theorem directive_kinds (m : Nat) (str : Ptr) (f1 : List Char) (args : List Slot)
    (h0 : NUL ∉ f1) :
    (∀ f2 a, directive (fun s fmt => ParseV (m + 3) (some s) 0 fmt []) str f1 args =
        .cont f2 a → a = args ∧ scanFmt .pct f1 = scanFmt .lit (f2.drop 1)) ∧
    (∀ f2 j a, directive (fun s fmt => ParseV (m + 3) (some s) 0 fmt []) str f1 args =
        .go f2 (some j) a → ∃ K : List Kind,
          a.map slotKind = args.map slotKind ++ K.map some ∧
          scanFmt .pct f1 = K ++ scanFmt .lit (f2.drop 1)) := by
  by_cases hd : IsDigit (cur f1) = true
  · refine ⟨fun f2 a h => ?_, fun f2 j a h => ?_⟩
    · rw [directive_digit _ _ _ _ hd] at h
      split at h <;> exact absurd h (by simp)
    · obtain ⟨K, h1, h2⟩ := digit_directive_kinds m str f1 args h0 hd f2 j a h
      exact ⟨[K], by simpa using h1, by simpa using h2⟩
  cases f1 with
  | nil =>
    have e : ∀ c : Char, c ≠ NUL → ¬ (NUL = c) := fun c hc e => hc e.symm
    have hs : directive (fun s fmt => ParseV (m + 3) (some s) 0 fmt []) str [] args =
        .go [] none args := by
      have hN : IsDigit NUL = false := by decide
      cases str <;>
      simp [directive, hN, e 'u' (by decide), e 'd' (by decide), e 'x' (by decide),
        e 'f' (by decide), e 'c' (by decide), e 's' (by decide), e 'S' (by decide),
        e '$' (by decide), e '%' (by decide), e ' ' (by decide), e '_' (by decide),
        e '?' (by decide)]
    rw [hs]
    simp
  | cons c r =>
    simp only [cur_cons] at hd
    have hd' : IsDigit c = false := by simpa using hd
    by_cases h1 : c = 'u'
    · subst h1
      refine ⟨fun f2 a h => ?_, fun f2 j a h => ?_⟩
      · cases str <;> simp [directive] at h
      · cases str with
        | none => simp [directive] at h
        | some s =>
          simp [directive] at h
          obtain ⟨rfl, _, rfl⟩ := h
          exact ⟨[Kind.uint], by simp [slotKind, Value.kind], by simp [scanFmt]⟩
    by_cases h2 : c = 'd'
    · subst h2
      refine ⟨fun f2 a h => ?_, fun f2 j a h => ?_⟩
      · cases str <;> simp [directive] at h
      · cases str with
        | none => simp [directive] at h
        | some s =>
          simp [directive] at h
          obtain ⟨rfl, _, rfl⟩ := h
          exact ⟨[Kind.int], by simp [slotKind, Value.kind], by simp [scanFmt]⟩
    by_cases h3 : c = 'x'
    · subst h3
      refine ⟨fun f2 a h => ?_, fun f2 j a h => ?_⟩
      · cases str <;> simp [directive] at h
      · cases str with
        | none => simp [directive] at h
        | some s =>
          simp [directive] at h
          obtain ⟨rfl, _, rfl⟩ := h
          exact ⟨[Kind.uint], by simp [slotKind, Value.kind], by simp [scanFmt]⟩
    by_cases h4 : c = 'f'
    · subst h4
      refine ⟨fun f2 a h => ?_, fun f2 j a h => ?_⟩
      · cases str <;> simp [directive] at h
      · cases str with
        | none => simp [directive] at h
        | some s =>
          simp [directive] at h
          obtain ⟨rfl, _, rfl⟩ := h
          exact ⟨[Kind.float], by simp [slotKind, Value.kind], by simp [scanFmt]⟩
    by_cases h5 : c = 'c'
    · subst h5
      refine ⟨fun f2 a h => ?_, fun f2 j a h => ?_⟩
      · cases str <;> simp [directive] at h
      · cases str with
        | none => simp [directive] at h
        | some s =>
          simp [directive] at h
          obtain ⟨rfl, _, rfl⟩ := h
          exact ⟨[Kind.chr], by simp [slotKind, Value.kind], by simp [scanFmt]⟩
    by_cases h6 : c = 's'
    · subst h6
      refine ⟨fun f2 a h => ?_, fun f2 j a h => ?_⟩
      · cases str <;> simp [directive] at h
      · cases str with
        | none => simp [directive] at h
        | some s =>
          simp [directive] at h
          obtain ⟨rfl, _, rfl⟩ := h
          exact ⟨[Kind.str], by simp [slotKind, Value.kind], by simp [scanFmt]⟩
    by_cases h7 : c = 'S'
    · subst h7
      refine ⟨fun f2 a h => ?_, fun f2 j a h => ?_⟩
      · cases str <;> simp [directive] at h
      · cases str with
        | none => simp [directive] at h
        | some s =>
          simp [directive] at h
          obtain ⟨rfl, _, rfl⟩ := h
          exact ⟨[Kind.scoped], by simp [slotKind, Value.kind], by simp [scanFmt]⟩
    by_cases h8 : c = '$'
    · subst h8
      refine ⟨fun f2 a h => ?_, fun f2 j a h => ?_⟩
      · cases str with
        | none => simp [directive] at h
        | some s =>
          by_cases hs : cur s = NUL
          · simp [directive, hs] at h
            obtain ⟨rfl, rfl⟩ := h
            exact ⟨rfl, by simp [scanFmt, hd']⟩
          · simp [directive, hs, hd'] at h
      · cases str with
        | none => simp [directive] at h
        | some s =>
          by_cases hs : cur s = NUL
          · simp [directive, hs] at h
          · simp [directive, hs, hd'] at h
    by_cases h9 : c = '%'
    · subst h9
      refine ⟨fun f2 a h => ?_, fun f2 j a h => ?_⟩
      · cases str with
        | none => simp [directive] at h
        | some s =>
          by_cases hs : '%' = cur s
          · simp [directive, ← hs] at h
          · simp [directive, hs, hd'] at h
      · cases str with
        | none => simp [directive] at h
        | some s =>
          by_cases hs : '%' = cur s
          · simp [directive, ← hs] at h
            obtain ⟨rfl, _, rfl⟩ := h
            exact ⟨[], by simp, by simp [scanFmt, hd']⟩
          · simp [directive, hs, hd'] at h
    by_cases h10 : c = ' '
    · subst h10
      refine ⟨fun f2 a h => ?_, fun f2 j a h => ?_⟩
      · cases str with
        | none => simp [directive] at h
        | some s =>
          by_cases hs : IsWs (cur s) = true
          · simp [directive, hs] at h
          · simp [directive, hs, hd'] at h
      · cases str with
        | none => simp [directive] at h
        | some s =>
          by_cases hs : IsWs (cur s) = true
          · simp [directive, hs] at h
            obtain ⟨rfl, _, rfl⟩ := h
            exact ⟨[], by simp, by simp [scanFmt, hd']⟩
          · simp [directive, hs, hd'] at h
    by_cases h11 : c = '_'
    · subst h11
      refine ⟨fun f2 a h => ?_, fun f2 j a h => ?_⟩
      · cases str with
        | none => simp [directive] at h
        | some s =>
          by_cases hs : IsWs (cur s) = true
          · simp [directive, hs] at h
          · simp [directive, hs] at h
            obtain ⟨rfl, rfl⟩ := h
            exact ⟨rfl, by simp [scanFmt, hd']⟩
      · cases str with
        | none => simp [directive] at h
        | some s =>
          by_cases hs : IsWs (cur s) = true
          · simp [directive, hs] at h
            obtain ⟨rfl, _, rfl⟩ := h
            exact ⟨[], by simp, by simp [scanFmt, hd']⟩
          · simp [directive, hs] at h
    by_cases h12 : c = '?'
    · subst h12
      cases r with
      | nil =>
        refine ⟨fun f2 a h => ?_, fun f2 j a h => ?_⟩
        · cases str <;> simp [directive, hd'] at h
        · cases str <;> simp [directive, hd'] at h
      | cons X r' =>
        have hX : X ≠ NUL := fun e => h0 (by simp [e])
        refine ⟨fun f2 a h => ?_, fun f2 j a h => ?_⟩
        · cases str with
          | none => simp [directive, hX] at h
          | some s =>
            by_cases hs : cur s = X
            · simp [directive, hX, hs] at h
            · simp [directive, hX, hs] at h
              obtain ⟨rfl, rfl⟩ := h
              exact ⟨rfl, by simp [scanFmt]⟩
        · cases str with
          | none => simp [directive, hX] at h
          | some s =>
            by_cases hs : cur s = X
            · simp [directive, hX, hs] at h
              obtain ⟨rfl, _, rfl⟩ := h
              exact ⟨[], by simp, by simp [scanFmt]⟩
            · simp [directive, hX, hs] at h
    refine ⟨fun f2 a h => ?_, fun f2 j a h => ?_⟩
    · cases str <;> simp [directive, h1, h2, h3, h4, h5, h6, h7, h8, h9, h10, h11, h12, hd'] at h
    · cases str <;> simp [directive, h1, h2, h3, h4, h5, h6, h7, h8, h9, h10, h11, h12, hd'] at h

/-- The chain of `ParseV` leaves the format pointer inside the format. -/
theorem directive_subset (P : List Char → List Char → PResult × List Slot) (str : Ptr)
    (f : List Char) (args : List Slot) :
    (∀ f1 a, directive P str f args = .cont f1 a → f1 ⊆ f) ∧
      (∀ f1 e a, directive P str f args = .go f1 e a → f1 ⊆ f) := by
  have hdrop : ∀ k : Nat, f.drop k ⊆ f := fun k => List.drop_subset k f
  have htail : f.tail ⊆ f := List.tail_subset f
  by_cases hd : IsDigit (cur f) = true
  · rw [directive_digit P str f args hd]
    refine ⟨?_, ?_⟩
    · intro f1 a h
      split at h <;> exact absurd h (by simp)
    · intro f1 e a h
      split at h <;> first
        | (simp at h; done)
        | (simp at h; rw [← h.1]; exact hdrop _)
        | (simp at h; simp [h.1])
  by_cases h1 : cur f = 'u'
  · cases str <;> simp [directive, h1]
  by_cases h2 : cur f = 'd'
  · cases str <;> simp [directive, h2]
  by_cases h3 : cur f = 'x'
  · cases str <;> simp [directive, h3]
  by_cases h4 : cur f = 'f'
  · cases str <;> simp [directive, h4]
  by_cases h5 : cur f = 'c'
  · cases str <;> simp [directive, h5]
  by_cases h6 : cur f = 's'
  · cases str <;> simp [directive, h6]
  by_cases h7 : cur f = 'S'
  · cases str <;> simp [directive, h7]
  by_cases h8 : cur f = '$'
  · have : IsDigit '$' = false := by decide
    cases str <;> simp [directive, h8, this]
    split <;> simp
  by_cases h9 : cur f = '%'
  · have : IsDigit '%' = false := by decide
    cases str <;> simp [directive, h9, this]
    split <;> simp
  by_cases h10 : cur f = ' '
  · have : IsDigit ' ' = false := by decide
    cases str <;> simp [directive, h10, this]
    split <;> simp
  by_cases h11 : cur f = '_'
  · cases str <;> simp [directive, h11]
    split <;> simp
  by_cases h12 : cur f = '?'
  · have : IsDigit '?' = false := by decide
    cases str <;> simp [directive, h12, this]
    all_goals
      refine ⟨?_, ?_⟩ <;> intros <;> rename_i h <;> repeat' (split at h)
      all_goals first
        | (simp at h; done)
        | (simp at h; rw [← h.1]; done)
        | (simp at h; rw [← h.1]; exact htail)
        | (simp at h; rw [← h.1]; simp)
  cases str <;> simp [directive, h1, h2, h3, h4, h5, h6, h7, h8, h9, h10, h11, h12, hd]

theorem ParseV_kinds : ∀ (L : Nat) (f : List Char) (n : Nat) (str : Ptr) (pos : Nat)
    (args : List Slot) (k : Nat) (out : List Slot), f.length ≤ L → L + 3 ≤ n → NUL ∉ f →
    ParseV n str pos f args = (.ptr k, out) →
    out.map slotKind = args.map slotKind ++ (scanFmt .lit f).map some := by
  intro L
  induction L with
  | zero =>
    intro f n str pos args k out hf hn _ h
    obtain ⟨m, rfl⟩ : ∃ m, n = m + 1 := ⟨n - 1, by omega⟩
    have : f = [] := List.eq_nil_of_length_eq_zero (by omega)
    subst this
    rw [ParseV_nil] at h
    simp at h
    simp [← h.2, scanFmt]
  | succ L ih =>
    intro f n str pos args k out hf hn h0 h
    obtain ⟨m, rfl⟩ : ∃ m, n = m + 1 := ⟨n - 1, by omega⟩
    cases f with
    | nil =>
      rw [ParseV_nil] at h
      simp at h
      simp [← h.2, scanFmt]
    | cons c f1 =>
      have hf1 : f1.length ≤ L := by simpa using hf
      have hm : L + 3 ≤ m := by omega
      have hc0 : c ≠ NUL := fun e => h0 (by simp [e])
      have h01 : NUL ∉ f1 := fun e => h0 (by simp [e])
      by_cases hp : c = '%'
      · subst hp
        rw [ParseV_percent] at h
        obtain ⟨j, rfl⟩ : ∃ j, m = j + 3 := ⟨m - 3, by omega⟩
        have hk := directive_kinds j str f1 args h01
        have hsh := directive_shape (fun s fmt => ParseV (j + 3) (some s) 0 fmt []) str f1 args
        have hlit : scanFmt .lit ('%' :: f1) = scanFmt .pct f1 := by simp [scanFmt]
        rw [hlit]
        cases hdir : directive (fun s fmt => ParseV (j + 3) (some s) 0 fmt []) str f1 args with
        | fault a => rw [hdir] at h; simp at h
        | timeout a => rw [hdir] at h; simp at h
        | cont f2 a =>
          rw [hdir] at h
          obtain ⟨ha, hs⟩ := hk.1 f2 a hdir
          have h2 := hsh.2.1 f2 a hdir
          have h02 : NUL ∉ f2.drop 1 := fun e =>
            h01 ((directive_subset _ str f1 args).1 f2 a hdir (List.drop_subset 1 f2 e))
          have := ih (f2.drop 1) (j + 3) str pos a k out (by simp; omega) hm h02 h
          rw [this, ha, hs]
        | go f2 e a =>
          rw [hdir] at h
          have h2 := hsh.2.2 f2 e a hdir
          cases e with
          | none => simp at h
          | some i =>
            simp only [] at h
            split at h
            · simp at h
            · obtain ⟨K, hK1, hK2⟩ := hk.2 f2 i a hdir
              have h02 : NUL ∉ f2.drop 1 := fun e =>
                h01 ((directive_subset _ str f1 args).2 f2 (some i) a hdir
                  (List.drop_subset 1 f2 e))
              have := ih (f2.drop 1) (j + 3) _ _ a k out (by simp; omega) hm h02 h
              rw [this, hK1, hK2]
              simp
      · cases str with
        | none => simp [ParseV, hc0, hp] at h
        | some s =>
          rw [ParseV_lit m s pos c f1 args hc0 hp] at h
          split at h
          · simp at h
          · have := ih f1 m _ _ args k out hf1 hm h01 h
            rw [this]
            simp [scanFmt, hp]

/-- Claim C15: on a successful parse (of a format without NUL) the slots taken from
the argument list are exactly the value-producing directives of the format:
there are as many slots as such directives, and the slots hold, in the order of
the directives, a value of the type of each (`%u`, `%x` and `%<w>u`, `%<w>x`
an unsigned, `%d` and `%<w>d` an int, `%f` a float, `%c` a character, `%s` a
string, `%S` a scoped string); literals, `%%`, `% `, `%_`, `%?X` and `%$` take
none. -/
theorem slots_match_directives (S F : List Char) (k : Nat) (hF : NUL ∉ F)
    (h : (Parse S F).1 = PResult.ptr k) :
    (Parse S F).2.length = (slotKinds F).length ∧
      (Parse S F).2.map slotKind = (slotKinds F).map some := by
  have key := ParseV_kinds F.length F (F.length + 3) (some S) 0 [] k (Parse S F).2
    (Nat.le_refl _) (Nat.le_refl _) hF (by
      show Parse S F = _
      rw [← h])
  have key2 : (Parse S F).2.map slotKind = (slotKinds F).map some := by
    simpa [slotKinds] using key
  refine ⟨?_, key2⟩
  have := congrArg List.length key2
  simpa using this

/-- Witness for `slots_match_directives`: `12 ab: x` against `%d %s:%_%c`. -/
theorem slots_match_directives_witness :
    (Parse "12 ab: x".toList "%d %s:%_%c".toList).2.length =
        (slotKinds "%d %s:%_%c".toList).length ∧
      (Parse "12 ab: x".toList "%d %s:%_%c".toList).2.map slotKind =
        (slotKinds "%d %s:%_%c".toList).map some :=
  slots_match_directives "12 ab: x".toList "%d %s:%_%c".toList 8 (by decide) (by decide)

/-! ## The length-bounded `Parse` (C12) -/

theorem NulExt.cur_eq {l m : List Char} (h : NulExt l m) : cur m = cur l := by
  obtain ⟨z, rfl, hz⟩ := h
  cases l with
  | nil =>
    cases z with
    | nil => rfl
    | cons c t => simpa using hz c (by simp)
  | cons x t => rfl

theorem NulExt.drop {l m : List Char} (h : NulExt l m) (k : Nat) :
    NulExt (l.drop k) (m.drop k) := by
  obtain ⟨z, rfl, hz⟩ := h
  refine ⟨z.drop (k - l.length), List.drop_append_eq_append_drop, ?_⟩
  intro c hc
  exact hz c (List.drop_subset _ _ hc)

theorem NulExt.takeWhile_eq {l m : List Char} (h : NulExt l m) (p : Char → Bool)
    (hp : p NUL = false) : m.takeWhile p = l.takeWhile p := by
  obtain ⟨z, rfl, hz⟩ := h
  induction l with
  | nil =>
    cases z with
    | nil => rfl
    | cons c t =>
      have := hz c (by simp)
      subst this
      simp [List.takeWhile_cons, hp]
  | cons x t ih =>
    simp only [List.cons_append, List.takeWhile_cons]
    split
    · rw [ih]
    · rfl

theorem NulExt.take_eq {l m : List Char} (h : NulExt l m) (k : Nat) (hk : k ≤ l.length) :
    m.take k = l.take k := by
  obtain ⟨z, rfl, _⟩ := h
  rw [List.take_append_of_le_length hk]

theorem NulExt.length_le {l m : List Char} (h : NulExt l m) : l.length ≤ m.length := by
  obtain ⟨z, rfl, _⟩ := h
  simp

theorem NulExt.findChar_eq {l m : List Char} (h : NulExt l m) (c : Char) :
    FindChar m c = FindChar l c := by
  obtain ⟨z, rfl, hz⟩ := h
  induction l with
  | nil =>
    cases z with
    | nil => rfl
    | cons y t =>
      have := hz y (by simp)
      subst this
      by_cases hc : c = NUL
      · simp [FindChar, hc]
      · have : ¬ (NUL = c) := fun e => hc e.symm
        simp [FindChar, hc, this]
  | cons x t ih =>
    simp only [List.cons_append, FindChar]
    rw [show t.append z = t ++ z from rfl, ih]

theorem NulExt.len_eq {l m : List Char} (h : NulExt l m) : Len m = Len l := by
  unfold Len
  rw [h.takeWhile_eq _ (by decide)]

theorem FindChar_le_length (c : Char) : ∀ (l : List Char) (k : Nat),
    FindChar l c = some k → k ≤ l.length := by
  intro l
  induction l with
  | nil =>
    intro k h
    simp only [FindChar] at h
    split at h
    · simp at h; omega
    · simp at h
  | cons x t ih =>
    intro k h
    simp only [FindChar] at h
    split at h
    · simp at h; omega
    · split at h
      · simp at h
      · cases hf : FindChar t c with
        | none => rw [hf] at h; simp at h
        | some j =>
          rw [hf] at h
          simp at h
          have := ih j hf
          simp
          omega

theorem NulExt.extractUntil_eq {l m : List Char} (h : NulExt l m) (c : Char) :
    ExtractUntil m c = ExtractUntil l c := by
  unfold ExtractUntil
  rw [h.findChar_eq c]
  cases hf : FindChar l c with
  | none => rfl
  | some k =>
    simp only [DupN]
    rw [h.take_eq k (FindChar_le_length c l k hf)]

theorem NulExt.bufSet_eq {l m : List Char} (h : NulExt l m) (n : Nat) :
    BufSet n m = BufSet n l := by
  unfold BufSet
  rw [h.len_eq, h.take_eq _ (Nat.le_trans (Nat.min_le_right _ _) (Len_le_length l))]

theorem NulExt.scanInt_ext {l m : List Char} (h : NulExt l m) (base : Nat) (hb : base ≤ 36) :
    scanInt base m = scanInt base l := by
  unfold scanInt
  have hw : IsWs NUL = false := by decide
  have hdg := isDigitIn_NUL base hb
  have e1 := h.takeWhile_eq IsWs hw
  have h1 := h.drop (l.takeWhile IsWs).length
  simp only [e1, h1.cur_eq]
  have h2 := h1.drop (if (cur (List.drop (List.takeWhile IsWs l).length l) == '-' ||
    cur (List.drop (List.takeWhile IsWs l).length l) == '+') = true then 1 else 0)
  simp only [h2.cur_eq, (h2.drop 1).cur_eq, (h2.drop 2).cur_eq]
  have h3 := h2.drop (if (base == 16 &&
      cur (List.drop (if (cur (List.drop (List.takeWhile IsWs l).length l) == '-' ||
        cur (List.drop (List.takeWhile IsWs l).length l) == '+') = true then 1 else 0)
        (List.drop (List.takeWhile IsWs l).length l)) == '0' &&
      (cur (List.drop 1 (List.drop (if (cur (List.drop (List.takeWhile IsWs l).length l) == '-' ||
        cur (List.drop (List.takeWhile IsWs l).length l) == '+') = true then 1 else 0)
        (List.drop (List.takeWhile IsWs l).length l))) == 'x' ||
       cur (List.drop 1 (List.drop (if (cur (List.drop (List.takeWhile IsWs l).length l) == '-' ||
        cur (List.drop (List.takeWhile IsWs l).length l) == '+') = true then 1 else 0)
        (List.drop (List.takeWhile IsWs l).length l))) == 'X') &&
      isDigitIn 16 (cur (List.drop 2 (List.drop
        (if (cur (List.drop (List.takeWhile IsWs l).length l) == '-' ||
        cur (List.drop (List.takeWhile IsWs l).length l) == '+') = true then 1 else 0)
        (List.drop (List.takeWhile IsWs l).length l))))) = true then 2 else 0)
  simp only [h3.takeWhile_eq _ hdg]

theorem strtodLen_le (s : List Char) : strtodLen s ≤ s.length := by
  unfold strtodLen
  simp only []
  have hws := length_takeWhile_le_length IsWs s
  generalize (s.takeWhile IsWs).length = ws at *
  have hl1 : (s.drop ws).length = s.length - ws := List.length_drop ws s
  generalize s.drop ws = s1 at *
  have hsg := (sign_bound s1).1
  generalize (if (cur s1 == '-' || cur s1 == '+') = true then 1 else 0) = sg at *
  have hl2 : (s1.drop sg).length = s1.length - sg := List.length_drop sg s1
  generalize s1.drop sg = s2 at *
  have hip := length_takeWhile_le_length IsDigit s2
  generalize (s2.takeWhile IsDigit).length = ip at *
  have hl3 : (s2.drop ip).length = s2.length - ip := List.length_drop ip s2
  generalize s2.drop ip = s3 at *
  have hpf : (if (cur s3 == '.') = true then 1 else 0) +
      (if (cur s3 == '.') = true then ((s3.drop 1).takeWhile IsDigit).length else 0) ≤
      s3.length := by
    split
    · rename_i h
      have h1 : 1 ≤ s3.length := cur_ne_nul_length (by
        simp at h; rw [h]; decide)
      have h2 := length_takeWhile_le_length IsDigit (s3.drop 1)
      simp only [List.length_drop] at h2
      omega
    · omega
  generalize (if (cur s3 == '.') = true then ((s3.drop 1).takeWhile IsDigit).length else 0) = fp
    at *
  generalize (if (cur s3 == '.') = true then 1 else 0) = pt at *
  have hl4 : (s3.drop (pt + fp)).length = s3.length - (pt + fp) := List.length_drop _ s3
  generalize s3.drop (pt + fp) = s4 at *
  have hes := (sign_bound (s4.drop 1)).1
  simp only [List.length_drop] at hes
  generalize (if (cur (s4.drop 1) == '-' || cur (s4.drop 1) == '+') = true then 1 else 0) = es
    at *
  have hed := length_takeWhile_le_length IsDigit (s4.drop (1 + es))
  simp only [List.length_drop] at hed
  generalize ((s4.drop (1 + es)).takeWhile IsDigit).length = ed at *
  have hex : (if ((cur s4 == 'e' || cur s4 == 'E') && ed != 0) = true then 1 + es + ed else 0) ≤
      s4.length := by
    split
    · rename_i h
      simp at h
      have h1 : 1 ≤ s4.length := cur_ne_nul_length (by
        rcases h.1 with h | h <;> (rw [h]; decide))
      have h4 : ed ≠ 0 := h.2
      omega
    · omega
  generalize (if ((cur s4 == 'e' || cur s4 == 'E') && ed != 0) = true then 1 + es + ed else 0) = ex
    at *
  split
  · omega
  · omega

theorem NulExt.strtodLen_eq {l m : List Char} (h : NulExt l m) : strtodLen m = strtodLen l := by
  have hw : IsWs NUL = false := by decide
  have hg : IsDigit NUL = false := by decide
  have A : ∀ k, cur (m.drop k) = cur (l.drop k) := fun k => (h.drop k).cur_eq
  have B1 : ∀ k, (m.drop k).takeWhile IsWs = (l.drop k).takeWhile IsWs :=
    fun k => (h.drop k).takeWhile_eq IsWs hw
  have B2 : ∀ k, (m.drop k).takeWhile IsDigit = (l.drop k).takeWhile IsDigit :=
    fun k => (h.drop k).takeWhile_eq IsDigit hg
  have e0 := h.takeWhile_eq IsWs hw
  unfold strtodLen
  simp only [List.drop_drop, e0, A, B1, B2]

theorem NulExt.limited_eq {l m : List Char} (h : NulExt l m)
    (P : List Char → List Char → PResult × List Slot) (f : List Char) :
    ParseLimitedNumber P (some m) f = ParseLimitedNumber P (some l) f := by
  unfold ParseLimitedNumber
  simp only [h.len_eq, h.bufSet_eq]

theorem NulExt.directive_eq {l m : List Char} (h : NulExt l m)
    (P : List Char → List Char → PResult × List Slot) (f : List Char) (args : List Slot) :
    directive P (some m) f args = directive P (some l) f args := by
  have hw : IsWs NUL = false := by decide
  have e1 : strtoul m 10 = strtoul l 10 := by
    unfold strtoul; rw [h.scanInt_ext 10 (by omega)]
  have e2 : strtol m 10 = strtol l 10 := by
    unfold strtol; rw [h.scanInt_ext 10 (by omega)]
  have e3 : strtoul m 16 = strtoul l 16 := by
    unfold strtoul; rw [h.scanInt_ext 16 (by omega)]
  have e4 := h.strtodLen_eq
  have e5 : m.take (strtodLen l) = l.take (strtodLen l) := h.take_eq _ (strtodLen_le l)
  have e6 := h.cur_eq
  have e7 : ∀ c, ExtractUntil m c = ExtractUntil l c := fun c => h.extractUntil_eq c
  have e8 : (m.drop 1).takeWhile IsWs = (l.drop 1).takeWhile IsWs :=
    (h.drop 1).takeWhile_eq IsWs hw
  have e9 := h.limited_eq P f
  unfold directive
  simp only [e1, e2, e3, e4, e5, e6, e7, e8, e9]

theorem limited_none_eq (P : List Char → List Char → PResult × List Slot) (f s : List Char)
    (h : (ParseLimitedNumber P none f).endF ≠ .fault) :
    ParseLimitedNumber P (some s) f = ParseLimitedNumber P none f := by
  revert h
  unfold ParseLimitedNumber
  simp only []
  split
  · split
    · intro h; exact absurd rfl h
    · intro _; rfl
  · intro _; rfl

theorem directive_none_eq (P : List Char → List Char → PResult × List Slot) (f : List Char)
    (args : List Slot) (q : Ptr) (h : ∀ a, directive P none f args ≠ .fault a) :
    directive P q f args = directive P none f args := by
  cases q with
  | none => rfl
  | some s =>
    by_cases hd : IsDigit (cur f) = true
    · have hE : (ParseLimitedNumber P none f).endF ≠ .fault := by
        intro e
        have := directive_digit P none f args hd
        rw [e] at this
        exact h _ this
      rw [directive_digit P (some s) f args hd, directive_digit P none f args hd,
        limited_none_eq P f s hE]
    by_cases h1 : cur f = 'u'
    · exact absurd (by simp [directive, h1]) (h args)
    by_cases h2 : cur f = 'd'
    · exact absurd (by simp [directive, h2]) (h args)
    by_cases h3 : cur f = 'x'
    · exact absurd (by simp [directive, h3]) (h args)
    by_cases h4 : cur f = 'f'
    · exact absurd (by simp [directive, h4]) (h args)
    by_cases h5 : cur f = 'c'
    · exact absurd (by simp [directive, h5]) (h args)
    by_cases h6 : cur f = 's'
    · exact absurd (by simp [directive, h6]) (h args)
    by_cases h7 : cur f = 'S'
    · exact absurd (by simp [directive, h7]) (h args)
    by_cases h8 : cur f = '$'
    · exact absurd (by simp [directive, h8]) (h args)
    by_cases h9 : cur f = '%'
    · exact absurd (by simp [directive, h9]) (h args)
    by_cases h10 : cur f = ' '
    · exact absurd (by simp [directive, h10]) (h args)
    by_cases h11 : cur f = '_'
    · exact absurd (by simp [directive, h11]) (h args)
    by_cases h12 : cur f = '?'
    · have hq : IsDigit '?' = false := by decide
      by_cases hn : cur f.tail = NUL
      · simp [directive, h12, hn, hq]
      · exact absurd (by simp [directive, h12, hn]) (h args)
    simp [directive, h1, h2, h3, h4, h5, h6, h7, h8, h9, h10, h11, h12, hd]

theorem Pad.add_ptr {p q : Ptr} (h : Pad p q) (k : Nat) : Pad (p.add k) (q.add k) := by
  cases p with
  | none => simp [Ptr.add, Pad]
  | some l =>
    obtain ⟨m, rfl, hm⟩ := h
    by_cases hk : k ≤ l.length
    · have hk2 : k ≤ m.length := Nat.le_trans hk hm.length_le
      simp only [Ptr.add, hk, hk2, if_true]
      exact ⟨_, rfl, hm.drop k⟩
    · simp [Ptr.add, hk, Pad]

/-- Zero characters after the terminator do not change a parse that stays inside
the string. -/
theorem ParseV_pad : ∀ (n : Nat) (p q : Ptr) (pos : Nat) (f : List Char) (args : List Slot),
    Pad p q → (ParseV n p pos f args).1 ≠ .fault →
    ParseV n q pos f args = ParseV n p pos f args := by
  intro n
  induction n with
  | zero => intro p q pos f args _ _; rfl
  | succ n ih =>
    intro p q pos f args hpq hnf
    cases f with
    | nil => simp [ParseV_nil]
    | cons c f1 =>
      by_cases h0 : c = NUL
      · simp [ParseV, h0]
      by_cases hp : c = '%'
      · subst hp
        rw [ParseV_percent] at hnf ⊢
        rw [ParseV_percent]
        have hdir : directive (fun s fmt => ParseV n (some s) 0 fmt []) q f1 args =
            directive (fun s fmt => ParseV n (some s) 0 fmt []) p f1 args := by
          cases p with
          | none =>
            apply directive_none_eq
            intro a e
            rw [e] at hnf
            exact hnf rfl
          | some l =>
            obtain ⟨m, rfl, hm⟩ := hpq
            exact hm.directive_eq _ f1 args
        rw [hdir]
        cases hd : directive (fun s fmt => ParseV n (some s) 0 fmt []) p f1 args with
        | fault a => rfl
        | timeout a => rfl
        | cont f2 a =>
          rw [hd] at hnf
          exact ih p q pos _ a hpq hnf
        | go f2 e a =>
          rw [hd] at hnf
          cases e with
          | none => rfl
          | some k =>
            simp only [] at hnf ⊢
            split
            · rfl
            · rename_i hk
              rw [if_neg hk] at hnf
              exact ih _ _ _ _ a (hpq.add_ptr k) hnf
      · cases p with
        | none =>
          exact absurd (by simp [ParseV, h0, hp]) hnf
        | some l =>
          obtain ⟨m, rfl, hm⟩ := hpq
          rw [ParseV_lit n l pos c f1 args h0 hp] at hnf ⊢
          rw [ParseV_lit n m pos c f1 args h0 hp, hm.cur_eq]
          split
          · rfl
          · rename_i hc
            rw [if_neg hc] at hnf
            exact ih _ _ _ _ args ⟨_, rfl, hm.drop 1⟩ hnf

theorem ParseLen_refines (s : List Char) (len : Nat) (fmt : List Char)
    (h : (Parse (s.take len) fmt).1 ≠ .fault) :
    ParseLen s len fmt = Parse (s.take len) fmt := by
  unfold ParseLen
  split
  · exact ParseV_pad _ (some (s.take len)) _ 0 fmt []
      ⟨_, rfl, _, rfl, fun c hc => (List.mem_replicate.mp hc).2⟩ h
  · rfl

/-- Claim C12, evaluation at the failing input: `Parse("", 0, "%c%c", &a, &b)` parses
the zero-filled scratch buffer, so after the first `%c` has stepped over the
terminator the second reads the next zero: it succeeds and returns `str + 2`,
two characters past a subject of length 0, whereas `Parse("", "%c%c", &a, &b)`
on the copy reads outside the string.  Apart from that the two agree: whenever
the standard `Parse` on the copy of the first `len` characters stays inside the
string, the length-bounded `Parse` returns the same offset and the same slots;
and for `len >= 128`, where the copy is on the heap, it is the standard `Parse`
on that copy. -/
theorem bounded_parse_reads_padding :
    ParseLen [] 0 ['%', 'c', '%', 'c'] =
        (PResult.ptr 2, [some (Value.chr NUL), some (Value.chr NUL)]) ∧
      Parse [] ['%', 'c', '%', 'c'] = (PResult.fault, [some (Value.chr NUL)]) ∧
      (∀ (s : List Char) (len : Nat) (fmt : List Char),
        (Parse (s.take len) fmt).1 ≠ PResult.fault →
        ParseLen s len fmt = Parse (s.take len) fmt) ∧
      (∀ (s : List Char) (len : Nat) (fmt : List Char), 128 ≤ len →
        ParseLen s len fmt = Parse (s.take len) fmt) := by
  refine ⟨?_, by decide, ParseLen_refines, ?_⟩
  · unfold ParseLen
    rw [if_pos (by omega)]
    simp only [List.take_nil, List.nil_append, Nat.sub_zero, List.length_cons, List.length_nil]
    rw [show (127 : Nat) = 125 + 1 + 1 from rfl, List.replicate_succ, List.replicate_succ,
      show 0 + 1 + 1 + 1 + 1 + 3 = 6 + 1 from rfl, char_step,
      show (6 : Nat) = 5 + 1 from rfl, char_step, show (5 : Nat) = 4 + 1 from rfl,
      ParseV_nil]
    rfl
  · intro s len fmt hlen
    unfold ParseLen
    rw [if_neg (by omega)]
    rfl

/-- Witness for `bounded_parse_reads_padding`: the first two characters of `12ab`
against `%d`. -/
theorem bounded_parse_reads_padding_witness :
    ParseLen "12ab".toList 2 "%d".toList = Parse ("12ab".toList.take 2) "%d".toList :=
  bounded_parse_reads_padding.2.2.1 "12ab".toList 2 "%d".toList (by decide)

/-! ## `seqstrings` (C21) -/

theorem skipString_entry (s rest : List Char) (hs : NUL ∉ s) :
    skipString (s ++ NUL :: rest) = some rest := by
  induction s with
  | nil => simp [skipString]
  | cons c t ih =>
    have hc : c ≠ NUL := fun e => hs (by simp [e])
    have ht : NUL ∉ t := fun e => hs (by simp [e])
    simp [skipString, hc, ih ht]

theorem cstr_entry (s rest : List Char) (hs : NUL ∉ s) : cstr (s ++ NUL :: rest) = s := by
  induction s with
  | nil => simp [cstr]
  | cons c t ih =>
    have hc : c ≠ NUL := fun e => hs (by simp [e])
    have ht : NUL ∉ t := fun e => hs (by simp [e])
    have := ih ht
    simp only [cstr] at this
    simp [cstr, hc, this]

theorem cur_eq_NUL_iff (t : List Char) (ht : NUL ∉ t) : cur t = NUL ↔ t = [] := by
  cases t with
  | nil => simp
  | cons c r =>
    have hc : c ≠ NUL := fun e => ht (by simp [e])
    simp [hc]

theorem StrEqWeird_entry (rest : List Char) : ∀ (s toFind : List Char), NUL ∉ s →
    NUL ∉ toFind →
    seqstrings.StrEqWeird (s ++ NUL :: rest) toFind =
      if s = toFind then Weird.same else Weird.next rest := by
  intro s
  induction s with
  | nil =>
    intro toFind _ hf
    have := cur_eq_NUL_iff toFind hf
    by_cases h : toFind = []
    · simp [seqstrings.StrEqWeird, h]
    · have h1 : ¬ cur toFind = NUL := fun e => h (this.1 e)
      have h2 : ¬ ([] = toFind) := fun e => h e.symm
      simp [seqstrings.StrEqWeird, h1, h2]
  | cons c t ih =>
    intro toFind hs hf
    have hc : c ≠ NUL := fun e => hs (by simp [e])
    have ht : NUL ∉ t := fun e => hs (by simp [e])
    cases toFind with
    | nil => simp [seqstrings.StrEqWeird, hc, skipString_entry t rest ht]
    | cons d u =>
      have hu : NUL ∉ u := fun e => hf (by simp [e])
      by_cases hcd : c = d
      · subst hcd
        simp [seqstrings.StrEqWeird, hc, ih u ht hu]
      · simp [seqstrings.StrEqWeird, hc, hcd, skipString_entry t rest ht]

theorem GetByIdxLoop_layout : ∀ (tbl : List (List Char)) (i : Nat),
    (∀ s ∈ tbl, NUL ∉ s) → i ≤ tbl.length →
    seqstrings.GetByIdxLoop i (seqstrings.layout tbl) = some (seqstrings.layout (tbl.drop i)) := by
  intro tbl
  induction tbl with
  | nil =>
    intro i _ hi
    have : i = 0 := by simpa using hi
    subst this
    rfl
  | cons s t ih =>
    intro i hs hi
    cases i with
    | zero => rfl
    | succ i =>
      have h1 : NUL ∉ s := hs s (by simp)
      have h2 : ∀ x ∈ t, NUL ∉ x := fun x hx => hs x (by simp [hx])
      simp only [seqstrings.GetByIdxLoop, seqstrings.layout, skipString_entry s _ h1,
        List.drop_succ_cons]
      exact ih i h2 (by simpa using hi)

theorem GetByIdx_entry (tbl : List (List Char)) (i : Nat) (hs : ∀ s ∈ tbl, NUL ∉ s)
    (hi : i < tbl.length) :
    (seqstrings.GetByIdx (seqstrings.layout tbl) i).map cstr = tbl[i]? := by
  unfold seqstrings.GetByIdx
  rw [Int.toNat_ofNat, GetByIdxLoop_layout tbl i hs (by omega)]
  have hd : tbl.drop i = tbl[i] :: tbl.drop (i + 1) := by
    simp
  rw [hd]
  simp only [seqstrings.layout, Option.map_some']
  rw [cstr_entry _ _ (hs _ (List.getElem_mem _))]
  simp [hi]

theorem GetStrIdxLoop_layout (toFind : List Char) (hf : NUL ∉ toFind) :
    ∀ (tbl : List (List Char)) (n : Nat) (idx : Int), (∀ s ∈ tbl, NUL ∉ s) → n ≤ tbl.length →
    (∃ k : Nat, k < n ∧ tbl[k]? = some toFind ∧ (∀ j : Nat, j < k → tbl[j]? ≠ some toFind) ∧
        seqstrings.GetStrIdxLoop toFind n idx (seqstrings.layout tbl) = some (idx + k)) ∨
      ((∀ j : Nat, j < n → tbl[j]? ≠ some toFind) ∧
        seqstrings.GetStrIdxLoop toFind n idx (seqstrings.layout tbl) = some (-1)) := by
  intro tbl
  induction tbl with
  | nil =>
    intro n idx _ hn
    have : n = 0 := by simpa using hn
    subst this
    right
    exact ⟨fun j hj => absurd hj (by omega), rfl⟩
  | cons s t ih =>
    intro n idx hs hn
    cases n with
    | zero =>
      right
      exact ⟨fun j hj => absurd hj (by omega), rfl⟩
    | succ n =>
      have h1 : NUL ∉ s := hs s (by simp)
      have h2 : ∀ x ∈ t, NUL ∉ x := fun x hx => hs x (by simp [hx])
      simp only [seqstrings.GetStrIdxLoop, seqstrings.layout, StrEqWeird_entry _ s toFind h1 hf]
      by_cases hst : s = toFind
      · left
        refine ⟨0, by omega, by simp [hst], fun j hj => absurd hj (by omega), ?_⟩
        simp [hst]
      · rw [if_neg hst]
        rcases ih n (idx + 1) h2 (by simpa using hn) with ⟨k, hk, hk1, hk2, hk3⟩ | ⟨hk1, hk2⟩
        · left
          refine ⟨k + 1, by omega, by simpa using hk1, ?_, ?_⟩
          · intro j hj
            cases j with
            | zero => simpa using hst
            | succ j => simpa using hk2 j (by omega)
          · simp only [hk3]
            congr 1
            push_cast
            omega
        · right
          refine ⟨?_, by simp only [hk2]⟩
          intro j hj
          cases j with
          | zero => simpa using hst
          | succ j => simpa using hk1 j (by omega)

/-- Claim C21: for a table of strings laid out sequentially (each NUL-free string
followed by its terminator) and a search among its first `max` strings,
`GetByIdx(strings, i)` points at the `i`-th string, and `GetStrIdx(strings, toFind, max)`
returns the smallest index `i < max` whose string `GetByIdx(strings, i)` equals
`toFind`, or -1 when there is no such index below `max`. -/
theorem GetStrIdx_smallest_index (tbl : List (List Char)) (toFind : List Char) (max : Nat)
    (htbl : ∀ s ∈ tbl, NUL ∉ s) (hf : NUL ∉ toFind) (hmax : max ≤ tbl.length) :
    (∀ i : Nat, i < max →
        (seqstrings.GetByIdx (seqstrings.layout tbl) i).map cstr = tbl[i]?) ∧
      ((∃ i : Nat, i < max ∧
          seqstrings.GetStrIdx (seqstrings.layout tbl) toFind max = some (i : Int) ∧
          (seqstrings.GetByIdx (seqstrings.layout tbl) i).map cstr = some toFind ∧
          ∀ j : Nat, j < i →
            (seqstrings.GetByIdx (seqstrings.layout tbl) j).map cstr ≠ some toFind) ∨
        (seqstrings.GetStrIdx (seqstrings.layout tbl) toFind max = some (-1) ∧
          ∀ j : Nat, j < max →
            (seqstrings.GetByIdx (seqstrings.layout tbl) j).map cstr ≠ some toFind)) := by
  have hget : ∀ i : Nat, i < max →
      (seqstrings.GetByIdx (seqstrings.layout tbl) i).map cstr = tbl[i]? :=
    fun i hi => GetByIdx_entry tbl i htbl (by omega)
  refine ⟨hget, ?_⟩
  unfold seqstrings.GetStrIdx
  rw [Int.toNat_ofNat]
  rcases GetStrIdxLoop_layout toFind hf tbl max 0 htbl hmax with ⟨k, hk, hk1, hk2, hk3⟩ | ⟨hk1, hk2⟩
  · left
    refine ⟨k, hk, by simpa using hk3, by rw [hget k hk]; exact hk1, ?_⟩
    intro j hj
    rw [hget j (by omega)]
    exact hk2 j hj
  · right
    refine ⟨hk2, ?_⟩
    intro j hj
    rw [hget j hj]
    exact hk1 j hj

/-- Witness for `GetStrIdx_smallest_index`: the table "ab", "c", "ab", "" searched
for "c" among all four strings. -/
theorem GetStrIdx_smallest_index_witness :
    (∀ i : Nat, i < 4 →
        (seqstrings.GetByIdx (seqstrings.layout ["ab".toList, "c".toList, "ab".toList, []]) i).map
          cstr = ["ab".toList, "c".toList, "ab".toList, []][i]?) ∧
      ((∃ i : Nat, i < 4 ∧
          seqstrings.GetStrIdx (seqstrings.layout ["ab".toList, "c".toList, "ab".toList, []])
            "c".toList (4 : Nat) = some (i : Int) ∧
          (seqstrings.GetByIdx (seqstrings.layout ["ab".toList, "c".toList, "ab".toList, []])
            i).map cstr = some "c".toList ∧
          ∀ j : Nat, j < i →
            (seqstrings.GetByIdx (seqstrings.layout ["ab".toList, "c".toList, "ab".toList, []])
              j).map cstr ≠ some "c".toList) ∨
        (seqstrings.GetStrIdx (seqstrings.layout ["ab".toList, "c".toList, "ab".toList, []])
            "c".toList (4 : Nat) = some (-1) ∧
          ∀ j : Nat, j < 4 →
            (seqstrings.GetByIdx (seqstrings.layout ["ab".toList, "c".toList, "ab".toList, []])
              j).map cstr ≠ some "c".toList)) :=
  GetStrIdx_smallest_index ["ab".toList, "c".toList, "ab".toList, []] "c".toList 4
    (by decide) (by decide) (by decide)

/-- Evaluation for `GetStrIdx`: "c" is found at index 1, the first of two "ab" at
index 0, and "d" not at all. -/
theorem GetStrIdx_examples :
    seqstrings.GetStrIdx (seqstrings.layout ["ab".toList, "c".toList, "ab".toList])
        "c".toList 3 = some 1 ∧
      seqstrings.GetStrIdx (seqstrings.layout ["ab".toList, "c".toList, "ab".toList])
        "ab".toList 3 = some 0 ∧
      seqstrings.GetStrIdx (seqstrings.layout ["ab".toList, "c".toList, "ab".toList])
        "d".toList 3 = some (-1) := by
  decide

/-! ## `NormalizeWS` (C22) -/

theorem set_after {α : Type} (pre l : List α) (i : Nat) (v : α) :
    (pre ++ l).set (pre.length + i) v = pre ++ l.set i v := by
  induction pre with
  | nil => simp
  | cons x t ih =>
    rw [List.cons_append, List.length_cons, Nat.add_right_comm, List.set_cons_succ, ih]
    rfl

theorem getD_after (pre : List Char) (c : Char) (r : List Char) :
    (pre ++ c :: r).getD pre.length NUL = c := by
  induction pre with
  | nil => rfl
  | cons x t ih => simpa using ih

theorem getD_end (pre : List Char) : pre.getD pre.length NUL = NUL := by
  induction pre with
  | nil => rfl
  | cons x t ih => simp

theorem NormalizeWSLoop_spec : ∀ (rest : List Char), NUL ∉ rest →
    ∀ (n : Nat) (out junk : List Char) (added : Bool), rest.length + 1 ≤ n →
    ∃ buf : List Char,
      NormalizeWSLoop n (out ++ junk ++ rest) (out.length + junk.length) out.length added =
        some (buf, out.length + junk.length + rest.length,
          out.length + (wsCollapse added rest).length) ∧
      buf.take (out.length + (wsCollapse added rest).length) = out ++ wsCollapse added rest := by
  intro rest
  induction rest with
  | nil =>
    intro _ n out junk added hn
    obtain ⟨m, rfl⟩ : ∃ m, n = m + 1 := ⟨n - 1, by omega⟩
    refine ⟨out ++ junk, ?_, by simp [wsCollapse]⟩
    have := getD_end (out ++ junk)
    simp only [List.length_append] at this
    unfold NormalizeWSLoop
    rw [List.append_nil, this, if_pos rfl]
    simp [wsCollapse]
  | cons c r ih =>
    intro h0 n out junk added hn
    obtain ⟨m, rfl⟩ : ∃ m, n = m + 1 := ⟨n - 1, by omega⟩
    have hc : c ≠ NUL := fun e => h0 (by simp [e])
    have hr : NUL ∉ r := fun e => h0 (by simp [e])
    have hm : r.length + 1 ≤ m := by simpa using hn
    have hget : (out ++ junk ++ c :: r).getD (out.length + junk.length) NUL = c := by
      have := getD_after (out ++ junk) c r
      simpa using this
    -- the buffer once `v` is stored at `dst`
    have hset : ∀ v : Char, ∃ junk1 : List Char, junk1.length = junk.length ∧
        (out ++ junk ++ c :: r).set out.length v = (out ++ [v]) ++ junk1 ++ r := by
      intro v
      cases junk with
      | nil =>
        refine ⟨[], rfl, ?_⟩
        simp
      | cons j js =>
        refine ⟨js ++ [c], by simp, ?_⟩
        simp
    unfold NormalizeWSLoop
    rw [hget, if_neg hc]
    by_cases hw : IsWs c = false
    · rw [if_pos hw]
      obtain ⟨junk1, hl, hs⟩ := hset c
      rw [hs]
      obtain ⟨buf, h1, h2⟩ := ih hr m (out ++ [c]) junk1 false hm
      refine ⟨buf, ?_, ?_⟩
      · have e1 : out.length + junk.length + 1 = (out ++ [c]).length + junk1.length := by
          simp; omega
        have e2 : out.length + 1 = (out ++ [c]).length := by simp
        rw [e1, e2, h1]
        simp [wsCollapse, hw]
        omega
      · have e : out.length + (wsCollapse added (c :: r)).length =
            (out ++ [c]).length + (wsCollapse false r).length := by
          simp [wsCollapse, hw]; omega
        rw [e, h2]
        simp [wsCollapse, hw]
    · rw [if_neg hw]
      have hw1 : IsWs c = true := by simpa using hw
      cases added with
      | false =>
        rw [if_pos rfl]
        obtain ⟨junk1, hl, hs⟩ := hset ' '
        rw [hs]
        obtain ⟨buf, h1, h2⟩ := ih hr m (out ++ [' ']) junk1 true hm
        refine ⟨buf, ?_, ?_⟩
        · have e1 : out.length + junk.length + 1 = (out ++ [' ']).length + junk1.length := by
            simp; omega
          have e2 : out.length + 1 = (out ++ [' ']).length := by simp
          rw [e1, e2, h1]
          simp [wsCollapse, hw1]
          omega
        · have e : out.length + (wsCollapse false (c :: r)).length =
              (out ++ [' ']).length + (wsCollapse true r).length := by
            simp [wsCollapse, hw1]; omega
          rw [e, h2]
          simp [wsCollapse, hw1]
      | true =>
        rw [if_neg (by simp)]
        obtain ⟨buf, h1, h2⟩ := ih hr m out (junk ++ [c]) true hm
        refine ⟨buf, ?_, ?_⟩
        · have e0 : out ++ junk ++ c :: r = out ++ (junk ++ [c]) ++ r := by simp
          have e1 : out.length + junk.length + 1 = out.length + (junk ++ [c]).length := by
            simp; omega
          rw [e0, e1, h1]
          simp [wsCollapse, hw1]
          omega
        · have e : wsCollapse true (c :: r) = wsCollapse true r := by
            simp [wsCollapse, hw1]
          rw [e, h2]

theorem stripLastWs_concat (init : List Char) (x : Char) :
    stripLastWs (init ++ [x]) = if IsWs x = true then init else init ++ [x] := by
  simp [stripLastWs]

theorem NormalizeWS_eq (s : List Char) (h0 : NUL ∉ s) :
    NormalizeWS s = some (stripLastWs (wsCollapse true s),
      s.length - (stripLastWs (wsCollapse true s)).length) := by
  obtain ⟨buf, h1, h2⟩ := NormalizeWSLoop_spec s h0 (s.length + 1) [] [] true (Nat.le_refl _)
  simp only [List.nil_append, List.length_nil, Nat.zero_add] at h1 h2
  unfold NormalizeWS
  rw [h1]
  simp only []
  rcases List.eq_nil_or_concat (wsCollapse true s) with hw | ⟨init, x, hw⟩
  · rw [hw] at h2 ⊢
    simp [stripLastWs]
  · rw [List.concat_eq_append] at hw
    rw [hw] at h2 ⊢
    have hb : buf = (init ++ x :: buf.drop (init ++ [x]).length) := by
      conv_lhs => rw [← List.take_append_drop (init ++ [x]).length buf, h2]
      simp
    have hx : buf.getD ((init ++ [x]).length - 1) NUL = x := by
      rw [hb]
      have := getD_after init x (buf.drop (init ++ [x]).length)
      simpa using this
    have ht : buf.take ((init ++ [x]).length - 1) = init := by
      rw [hb]
      simp
    rw [hx, stripLastWs_concat]
    by_cases hws : IsWs x = true
    · rw [if_pos ⟨by simp, hws⟩, if_pos hws, ht]
      simp
    · rw [if_neg (fun h => hws h.2), if_neg hws, h2]
theorem intercalate_two (sep w w2 : List Char) (W : List (List Char)) :
    sep.intercalate (w :: w2 :: W) = w ++ sep ++ sep.intercalate (w2 :: W) := by
  simp [List.intercalate, List.intersperse]

theorem intercalate_one (sep w : List Char) : sep.intercalate [w] = w := by
  simp [List.intercalate, List.intersperse]

theorem wsCollapse_word (rest : List Char) : ∀ (w : List Char) (b : Bool),
    (∀ c ∈ w, IsWs c = false) → w ≠ [] →
    wsCollapse b (w ++ rest) = w ++ wsCollapse false rest := by
  intro w
  induction w with
  | nil => intro b _ h; exact absurd rfl h
  | cons c t ih =>
    intro b hw _
    have hc : IsWs c = false := hw c (by simp)
    cases t with
    | nil => simp [wsCollapse, hc]
    | cons d u =>
      have := ih false (fun x hx => hw x (by simp [hx])) (by simp)
      simp only [List.cons_append] at this ⊢
      simp only [wsCollapse, hc, if_true]
      rw [← this]
      simp [wsCollapse]

theorem splitOnP_word (rest : List Char) : ∀ (w : List Char), (∀ c ∈ w, IsWs c = false) →
    (w ++ rest).splitOnP (fun c => IsWs c) =
      (rest.splitOnP (fun c => IsWs c)).modifyHead (fun h => w ++ h) := by
  intro w
  induction w with
  | nil =>
    intro _
    cases h : rest.splitOnP (fun c => IsWs c) <;> simp [List.modifyHead, h]
  | cons c t ih =>
    intro hw
    have hc : IsWs c = false := hw c (by simp)
    rw [List.cons_append, List.splitOnP_cons, ih (fun x hx => hw x (by simp [hx]))]
    simp only [hc]
    cases h : rest.splitOnP (fun c => IsWs c) <;> simp [List.modifyHead]

theorem wsWords_ws (d : Char) (r : List Char) (hd : IsWs d = true) :
    wsWords (d :: r) = wsWords r := by
  simp [wsWords, List.splitOnP_cons, hd]

theorem wsWords_word (w : List Char) (hw : ∀ c ∈ w, IsWs c = false) (hne : w ≠ []) :
    wsWords w = [w] := by
  have := splitOnP_word [] w hw
  simp only [List.append_nil, List.splitOnP_nil, List.modifyHead] at this
  cases w with
  | nil => exact absurd rfl hne
  | cons c t => simp [wsWords, this]

theorem wsWords_word_ws (w : List Char) (hw : ∀ c ∈ w, IsWs c = false) (hne : w ≠ [])
    (d : Char) (r : List Char) (hd : IsWs d = true) :
    wsWords (w ++ d :: r) = w :: wsWords r := by
  have := splitOnP_word (d :: r) w hw
  rw [List.splitOnP_cons] at this
  simp only [hd, if_true, List.modifyHead, List.append_nil] at this
  have hwe : (!w.isEmpty) = true := by
    cases w with
    | nil => exact absurd rfl hne
    | cons c t => rfl
  rw [wsWords, this, List.filter_cons, if_pos hwe]
  rfl

theorem IsWs_space : IsWs ' ' = true := by decide

/-- The words of a string are not empty and hold no whitespace, only characters of
the string; and what the loop of `NormalizeWS` writes is the normal form,
followed by one space at most. -/
theorem wsCollapse_normalForm : ∀ (n : Nat) (s : List Char), s.length ≤ n →
    (∀ w ∈ wsWords s, w ≠ [] ∧ ∀ c ∈ w, IsWs c = false ∧ c ∈ s) ∧
      ∃ T : List Char, (T = [] ∨ (T = [' '] ∧ wsWords s ≠ [])) ∧
        wsCollapse true s = normalForm s ++ T := by
  intro n
  induction n with
  | zero =>
    intro s hs
    have : s = [] := List.eq_nil_of_length_eq_zero (by omega)
    subst this
    refine ⟨by simp [wsWords], [], Or.inl rfl, ?_⟩
    simp [wsCollapse, normalForm, wsWords, List.intercalate]
  | succ n ih =>
    intro s hs
    cases s with
    | nil =>
      refine ⟨by simp [wsWords], [], Or.inl rfl, ?_⟩
      simp [wsCollapse, normalForm, wsWords, List.intercalate]
    | cons c r =>
      by_cases hc : IsWs c = true
      · obtain ⟨h1, T, hT, h2⟩ := ih r (by simpa using hs)
        rw [wsWords_ws c r hc]
        refine ⟨fun w hw => ⟨(h1 w hw).1, fun x hx => ⟨((h1 w hw).2 x hx).1, ?_⟩⟩, T, hT, ?_⟩
        · simp [((h1 w hw).2 x hx).2]
        · simp only [normalForm, wsWords_ws c r hc]
          simp only [wsCollapse, hc]
          simpa [normalForm] using h2
      · have hc' : IsWs c = false := by simpa using hc
        -- the first word and what follows it
        have hsplit := List.takeWhile_append_dropWhile (fun x => !IsWs x) (c :: r)
        have hw0 : ∀ x ∈ (c :: r).takeWhile (fun x => !IsWs x), IsWs x = false := by
          intro x hx
          have := List.mem_takeWhile_imp hx
          simpa using this
        have hwsub : ∀ x ∈ (c :: r).takeWhile (fun x => !IsWs x), x ∈ c :: r :=
          fun x hx => (List.takeWhile_sublist _).subset hx
        have hne : (c :: r).takeWhile (fun x => !IsWs x) ≠ [] := by
          simp [List.takeWhile_cons, hc']
        have hlen : 1 ≤ ((c :: r).takeWhile (fun x => !IsWs x)).length := by
          cases h : (c :: r).takeWhile (fun x => !IsWs x) with
          | nil => exact absurd h hne
          | cons _ _ => simp
        generalize (c :: r).takeWhile (fun x => !IsWs x) = w at hsplit hw0 hne hlen hwsub
        cases hrest : (c :: r).dropWhile (fun x => !IsWs x) with
        | nil =>
          rw [hrest, List.append_nil] at hsplit
          rw [← hsplit]
          rw [← hsplit] at hwsub
          refine ⟨?_, [], Or.inl rfl, ?_⟩
          · intro v hv
            rw [wsWords_word w hw0 hne] at hv
            have : v = w := by simpa using hv
            subst this
            exact ⟨hne, fun x hx => ⟨hw0 x hx, hx⟩⟩
          · have := wsCollapse_word [] w true hw0 hne
            simp only [List.append_nil, wsCollapse] at this
            rw [this, normalForm, wsWords_word w hw0 hne, intercalate_one]
            simp
        | cons d r1 =>
          have hd : IsWs d = true := by
            have := dropWhile_head_not (fun x => !IsWs x) d r1 (c :: r) hrest
            simpa using this
          rw [hrest] at hsplit
          have hr1 : r1.length ≤ n := by
            have := congrArg List.length hsplit
            simp at this hs
            omega
          obtain ⟨h1, T, hT, h2⟩ := ih r1 hr1
          have hsub : ∀ x ∈ r1, x ∈ c :: r := by
            intro x hx
            rw [← hsplit]
            simp [hx]
          have hwords := wsWords_word_ws w hw0 hne d r1 hd
          have hcol : wsCollapse true (w ++ d :: r1) = w ++ ' ' :: wsCollapse true r1 := by
            rw [wsCollapse_word (d :: r1) w true hw0 hne]
            simp [wsCollapse, hd]
          rw [← hsplit]
          rw [← hsplit] at hwsub hsub
          refine ⟨?_, ?_⟩
          · intro v hv
            rw [hwords] at hv
            rcases List.mem_cons.1 hv with rfl | hv
            · exact ⟨hne, fun x hx => ⟨hw0 x hx, hwsub x hx⟩⟩
            · exact ⟨(h1 v hv).1, fun x hx => ⟨((h1 v hv).2 x hx).1, hsub x ((h1 v hv).2 x hx).2⟩⟩
          · have hN : normalForm (w ++ d :: r1) = [' '].intercalate (w :: wsWords r1) := by
              rw [normalForm, hwords]
            have hN1 : normalForm r1 = [' '].intercalate (wsWords r1) := rfl
            rw [hcol, h2, hN, hN1, hwords]
            cases hW : wsWords r1 with
            | nil =>
              have hT0 : T = [] := by
                rcases hT with h | ⟨_, h⟩
                · exact h
                · exact absurd hW h
              refine ⟨[' '], Or.inr ⟨rfl, by simp⟩, ?_⟩
              rw [intercalate_one, hT0]
              simp [List.intercalate]
            | cons w2 W =>
              refine ⟨T, ?_, ?_⟩
              · rcases hT with h | ⟨h, _⟩
                · exact Or.inl h
                · exact Or.inr ⟨h, by simp⟩
              · rw [intercalate_two]
                simp

theorem intercalate_ends (W : List (List Char)) :
    (∀ w ∈ W, w ≠ [] ∧ ∀ c ∈ w, IsWs c = false) → W ≠ [] →
    (∃ (x : Char) (t : List Char), [' '].intercalate W = x :: t ∧ IsWs x = false) ∧
      ∃ (i : List Char) (y : Char), [' '].intercalate W = i ++ [y] ∧ IsWs y = false := by
  induction W with
  | nil => intro _ h; exact absurd rfl h
  | cons w W ih =>
    intro hW _
    have hw := hW w (by simp)
    cases W with
    | nil =>
      rw [intercalate_one]
      refine ⟨?_, ?_⟩
      · cases w with
        | nil => exact absurd rfl hw.1
        | cons x t => exact ⟨x, t, rfl, hw.2 x (by simp)⟩
      · rcases List.eq_nil_or_concat w with h | ⟨i, y, h⟩
        · exact absurd h hw.1
        · rw [List.concat_eq_append] at h
          exact ⟨i, y, h, hw.2 y (by simp [h])⟩
    | cons w2 W2 =>
      obtain ⟨_, i, y, hi, hy⟩ := ih (fun v hv => hW v (by simp [hv])) (by simp)
      rw [intercalate_two, hi]
      refine ⟨?_, ?_⟩
      · cases w with
        | nil => exact absurd rfl hw.1
        | cons x t => exact ⟨x, _, rfl, hw.2 x (by simp)⟩
      · exact ⟨w ++ [' '] ++ i, y, by simp, hy⟩

theorem wsCollapse_intercalate (W : List (List Char)) :
    (∀ w ∈ W, w ≠ [] ∧ ∀ c ∈ w, IsWs c = false) →
    wsCollapse true ([' '].intercalate W) = [' '].intercalate W := by
  induction W with
  | nil => intro _; simp [List.intercalate, wsCollapse]
  | cons w W ih =>
    intro hW
    have hw := hW w (by simp)
    cases W with
    | nil =>
      rw [intercalate_one]
      have := wsCollapse_word [] w true hw.2 hw.1
      simpa [wsCollapse] using this
    | cons w2 W2 =>
      have h2 := ih (fun v hv => hW v (by simp [hv]))
      rw [intercalate_two, List.append_assoc, wsCollapse_word _ w true hw.2 hw.1]
      simp only [List.singleton_append, wsCollapse, IsWs_space]
      simp [h2]

theorem wsCollapse_filter : ∀ (s : List Char) (b : Bool),
    (wsCollapse b s).filter (fun c => !IsWs c) = s.filter (fun c => !IsWs c) := by
  intro s
  induction s with
  | nil => intro b; rfl
  | cons c r ih =>
    intro b
    by_cases hc : IsWs c = true
    · cases b <;> simp [wsCollapse, hc, ih, IsWs_space]
    · have hc' : IsWs c = false := by simpa using hc
      simp [wsCollapse, hc', ih]

theorem wsCollapse_length : ∀ (s : List Char) (b : Bool),
    (wsCollapse b s).length ≤ s.length := by
  intro s
  induction s with
  | nil => intro b; simp [wsCollapse]
  | cons c r ih =>
    intro b
    have h1 := ih true
    have h2 := ih false
    simp only [wsCollapse]
    split
    · simp; omega
    · split
      · simp; omega
      · simp; omega

theorem stripLastWs_normalForm (s : List Char) :
    stripLastWs (wsCollapse true s) = normalForm s := by
  obtain ⟨h1, T, hT, h2⟩ := wsCollapse_normalForm s.length s (Nat.le_refl _)
  rw [h2]
  rcases hT with rfl | ⟨rfl, hne⟩
  · rw [List.append_nil]
    by_cases hW : wsWords s = []
    · simp [normalForm, hW, List.intercalate, stripLastWs]
    · obtain ⟨_, i, y, hi, hy⟩ := intercalate_ends (wsWords s)
        (fun w hw => ⟨(h1 w hw).1, fun c hc => ((h1 w hw).2 c hc).1⟩) hW
      rw [normalForm, hi, stripLastWs_concat, hy]
      simp
  · rw [stripLastWs_concat, if_pos IsWs_space]

theorem stripLastWs_facts (w : List Char) :
    (stripLastWs w).length ≤ w.length ∧
      (stripLastWs w).filter (fun c => !IsWs c) = w.filter (fun c => !IsWs c) := by
  rcases List.eq_nil_or_concat w with h | ⟨i, y, h⟩
  · subst h
    simp [stripLastWs]
  · rw [List.concat_eq_append] at h
    subst h
    rw [stripLastWs_concat]
    by_cases hy : IsWs y = true
    · simp [hy]
    · simp [hy]

theorem mem_intercalate (c : Char) (W : List (List Char)) :
    c ∈ [' '].intercalate W → c = ' ' ∨ ∃ w ∈ W, c ∈ w := by
  induction W with
  | nil => simp [List.intercalate]
  | cons w W ih =>
    cases W with
    | nil =>
      rw [intercalate_one]
      intro h
      exact Or.inr ⟨w, by simp, h⟩
    | cons w2 W2 =>
      rw [intercalate_two]
      intro h
      rcases List.mem_append.1 h with h | h
      · rcases List.mem_append.1 h with h | h
        · exact Or.inr ⟨w, by simp, h⟩
        · exact Or.inl (by simpa using h)
      · rcases ih h with h | ⟨v, hv, hc⟩
        · exact Or.inl h
        · exact Or.inr ⟨v, by simp [hv], hc⟩

/-- Claim C22: for every (NUL-free) string, `NormalizeWS` leaves its whitespace-normal
form in the buffer, that is its words (the maximal runs of non-whitespace
characters) in order with a single space between two of them and nothing before
the first or after the last, and returns the original length minus the length
of the result, which is not longer; applied to its own result it leaves it as
it is and returns 0.  The result keeps the non-whitespace characters in order
and neither starts nor ends with whitespace. -/
theorem NormalizeWS_normal_form (s : List Char) (h0 : NUL ∉ s) :
    NormalizeWS s = some (normalForm s, s.length - (normalForm s).length) ∧
      (normalForm s).length ≤ s.length ∧
      NormalizeWS (normalForm s) = some (normalForm s, 0) ∧
      (normalForm s).filter (fun c => !IsWs c) = s.filter (fun c => !IsWs c) ∧
      (∀ c ∈ (normalForm s).head?, IsWs c = false) ∧
      (∀ c ∈ (normalForm s).getLast?, IsWs c = false) := by
  have hN := stripLastWs_normalForm s
  obtain ⟨h1, _⟩ := wsCollapse_normalForm s.length s (Nat.le_refl _)
  have hgood : ∀ w ∈ wsWords s, w ≠ [] ∧ ∀ c ∈ w, IsWs c = false :=
    fun w hw => ⟨(h1 w hw).1, fun c hc => ((h1 w hw).2 c hc).1⟩
  have hnul : NUL ∉ normalForm s := by
    intro h
    rcases mem_intercalate NUL (wsWords s) h with h | ⟨w, hw, hc⟩
    · exact absurd h (by decide)
    · exact h0 ((h1 w hw).2 NUL hc).2
  have hends : normalForm s = [] ∨
      ((∃ (x : Char) (t : List Char), normalForm s = x :: t ∧ IsWs x = false) ∧
        ∃ (i : List Char) (y : Char), normalForm s = i ++ [y] ∧ IsWs y = false) := by
    by_cases hW : wsWords s = []
    · left
      simp [normalForm, hW, List.intercalate]
    · right
      exact intercalate_ends (wsWords s) hgood hW
  have hstrip : stripLastWs (normalForm s) = normalForm s := by
    rcases hends with h | ⟨_, i, y, hi, hy⟩
    · rw [h]
      rfl
    · rw [hi, stripLastWs_concat, hy]
      simp
  refine ⟨?_, ?_, ?_, ?_, ?_, ?_⟩
  · rw [NormalizeWS_eq s h0, hN]
  · rw [← hN]
    exact Nat.le_trans (stripLastWs_facts _).1 (wsCollapse_length s true)
  · rw [NormalizeWS_eq _ hnul]
    have : wsCollapse true (normalForm s) = normalForm s := wsCollapse_intercalate _ hgood
    rw [this, hstrip]
    simp
  · rw [← hN, (stripLastWs_facts _).2, wsCollapse_filter]
  · rcases hends with h | ⟨⟨x, t, hx, hxw⟩, _⟩
    · simp [h]
    · rw [hx]
      intro c hc
      have : x = c := by simpa using hc
      rw [← this]
      exact hxw
  · rcases hends with h | ⟨_, i, y, hi, hy⟩
    · simp [h]
    · rw [hi]
      intro c hc
      have : y = c := by simpa using hc
      rw [← this]
      exact hy

/-- Witness for `NormalizeWS_normal_form`: the string "  a \t b  ", whose normal
form is "a b". -/
theorem NormalizeWS_normal_form_witness :
    NormalizeWS "  a \t b  ".toList =
        some (normalForm "  a \t b  ".toList,
          "  a \t b  ".toList.length - (normalForm "  a \t b  ".toList).length) ∧
      (normalForm "  a \t b  ".toList).length ≤ "  a \t b  ".toList.length ∧
      NormalizeWS (normalForm "  a \t b  ".toList) = some (normalForm "  a \t b  ".toList, 0) ∧
      (normalForm "  a \t b  ".toList).filter (fun c => !IsWs c) =
        "  a \t b  ".toList.filter (fun c => !IsWs c) ∧
      (∀ c ∈ (normalForm "  a \t b  ".toList).head?, IsWs c = false) ∧
      (∀ c ∈ (normalForm "  a \t b  ".toList).getLast?, IsWs c = false) :=
  NormalizeWS_normal_form "  a \t b  ".toList (by decide)

/-- Evaluation of `NormalizeWS`: "  a \t b  " becomes "a b", six characters
shorter, a string of whitespace becomes the empty string, and `normalForm` gives
the same strings. -/
theorem NormalizeWS_examples :
    NormalizeWS "  a \t b  ".toList = some ("a b".toList, 6) ∧
      normalForm "  a \t b  ".toList = "a b".toList ∧
      NormalizeWS " \n ".toList = some ([], 3) ∧
      NormalizeWS "x".toList = some ("x".toList, 0) := by
  decide

/-! ## `Utf8Encode` (C23) -/

theorem split_four (buf : List Nat) (dst : Nat) (hbuf : dst + 4 ≤ buf.length) :
    ∃ (pre post : List Nat) (x0 x1 x2 x3 : Nat),
      buf = pre ++ x0 :: x1 :: x2 :: x3 :: post ∧ pre.length = dst := by
  refine ⟨buf.take dst, buf.drop (dst + 4), buf[dst], buf[dst + 1], buf[dst + 2], buf[dst + 3],
    ?_, by simp; omega⟩
  have h1 : buf.drop dst = buf[dst] :: buf.drop (dst + 1) := by simp
  have h2 : buf.drop (dst + 1) = buf[dst + 1] :: buf.drop (dst + 1 + 1) := by simp
  have h3 : buf.drop (dst + 2) = buf[dst + 2] :: buf.drop (dst + 2 + 1) := by simp
  have h4 : buf.drop (dst + 3) = buf[dst + 3] :: buf.drop (dst + 3 + 1) := by simp
  conv_lhs => rw [← List.take_append_drop dst buf, h1, h2, h3, h4]

theorem Utf8Encode_bytes (pre post : List Nat) (x0 x1 x2 x3 : Nat) (c : Int) :
    Utf8Encode (pre ++ x0 :: x1 :: x2 :: x3 :: post) pre.length c =
      if c < 0x80 then
        (pre ++ (c % 256 % 256).toNat :: x1 :: x2 :: x3 :: post, pre.length + 1)
      else if c < 0x800 then
        (pre ++ ((0xC0 + (c / 2 ^ 6 % 32) % 256) % 256).toNat ::
          ((0x80 + (c % 64) % 256) % 256).toNat :: x2 :: x3 :: post, pre.length + 1 + 1)
      else if c < 0x10000 then
        (pre ++ ((0xE0 + (c / 2 ^ 12 % 16) % 256) % 256).toNat ::
          ((0x80 + (c / 2 ^ 6 % 64) % 256) % 256).toNat ::
          ((0x80 + (c % 64) % 256) % 256).toNat :: x3 :: post, pre.length + 1 + 1 + 1)
      else
        (pre ++ ((0xF0 + (c / 2 ^ 18 % 8) % 256) % 256).toNat ::
          ((0x80 + (c / 2 ^ 12 % 64) % 256) % 256).toNat ::
          ((0x80 + (c / 2 ^ 6 % 64) % 256) % 256).toNat ::
          ((0x80 + (c % 64) % 256) % 256).toNat :: post, pre.length + 1 + 1 + 1 + 1) := by
  have s0 := fun l v => set_after pre l 0 v
  have s1 := fun l v => set_after pre l 1 v
  have s2 := fun l v => set_after pre l 2 v
  have s3 := fun l v => set_after pre l 3 v
  simp only [Nat.add_zero] at s0
  unfold Utf8Encode
  split
  · simp only [putByte, s0, List.set_cons_zero]
  · split
    · simp only [putByte, s0, s1, List.set_cons_zero, List.set_cons_succ]
    · split
      · simp only [putByte, s0, s1, s2, Nat.add_assoc, Nat.reduceAdd, List.set_cons_zero,
          List.set_cons_succ]
      · simp only [putByte, s0, s1, s2, s3, Nat.add_assoc, Nat.reduceAdd, List.set_cons_zero,
          List.set_cons_succ]

/-- Claim C23, the failing input: for the surrogate code point 0xD800 (inside
0..0x10FFFF) `Utf8Encode` writes the three bytes ED A0 80, which standard UTF-8
decoding rejects. -/
theorem Utf8Encode_surrogate :
    Utf8Encode [0, 0, 0, 0] 0 0xD800 = ([0xED, 0xA0, 0x80, 0], 3) ∧
      utf8Decode [0xED, 0xA0, 0x80] = none := by
  decide

/-- Claim C23, amended: with four free bytes at `dst`, `Utf8Encode` advances `dst`
by the number of bytes it writes, which is between 1 and 4 for every `int c`,
and changes nothing outside these bytes; for every Unicode scalar value `c`
(0 to 0x10FFFF without the surrogates 0xD800 to 0xDFFF) it writes 1 byte for
`c < 0x80`, 2 for `c < 0x800`, 3 for `c < 0x10000` and 4 otherwise, and standard
UTF-8 decoding of the bytes written gives back `c`. -/
theorem Utf8Encode_scalar_value (buf : List Nat) (dst : Nat) (hbuf : dst + 4 ≤ buf.length) :
    (∀ c : Int, dst < (Utf8Encode buf dst c).2 ∧ (Utf8Encode buf dst c).2 ≤ dst + 4 ∧
        (Utf8Encode buf dst c).1.length = buf.length ∧
        (Utf8Encode buf dst c).1.take dst = buf.take dst ∧
        (Utf8Encode buf dst c).1.drop (Utf8Encode buf dst c).2 =
          buf.drop (Utf8Encode buf dst c).2) ∧
      (∀ c : Int, 0 ≤ c → c ≤ 0x10FFFF → (c < 0xD800 ∨ 0xDFFF < c) →
        (Utf8Encode buf dst c).2 = dst + utf8Len c ∧
        utf8Decode (((Utf8Encode buf dst c).1.drop dst).take (utf8Len c)) = some c.toNat) := by
  obtain ⟨pre, post, x0, x1, x2, x3, rfl, rfl⟩ := split_four buf dst hbuf
  refine ⟨fun c => ?_, fun c h0 h1 hs => ?_⟩
  · rw [Utf8Encode_bytes]
    split
    · refine ⟨by simp, by simp, by simp, by simp, ?_⟩
      simp only [List.drop_append]
      rfl
    · split
      · refine ⟨by simp only []; omega, by simp, by simp, by simp, ?_⟩
        simp only [Nat.add_assoc, Nat.reduceAdd, List.drop_append]
        rfl
      · split
        · refine ⟨by simp only []; omega, by simp, by simp, by simp, ?_⟩
          simp only [Nat.add_assoc, Nat.reduceAdd, List.drop_append]
          rfl
        · refine ⟨by simp only []; omega, by simp, by simp, by simp, ?_⟩
          simp only [Nat.add_assoc, Nat.reduceAdd, List.drop_append]
          rfl
  · rw [Utf8Encode_bytes]
    obtain ⟨n, rfl⟩ : ∃ n : Nat, c = n := ⟨c.toNat, by omega⟩
    unfold utf8Len
    by_cases c1 : (n : Int) < 0x80
    · rw [if_pos c1, if_pos c1]
      refine ⟨rfl, ?_⟩
      simp only [List.drop_left, List.take_succ_cons, List.take_zero, utf8Decode]
      have e : ((n : Int) % 256 % 256).toNat = n := by omega
      rw [e, if_pos (by omega)]
      simp
    · rw [if_neg c1, if_neg c1]
      by_cases c2 : (n : Int) < 0x800
      · rw [if_pos c2, if_pos c2]
        refine ⟨rfl, ?_⟩
        simp only [List.drop_left, List.take_succ_cons, List.take_zero, utf8Decode]
        have e0 : ((0xC0 + ((n : Int) / 2 ^ 6 % 32) % 256) % 256).toNat = 0xC0 + n / 64 := by
          omega
        have e1 : ((0x80 + ((n : Int) % 64) % 256) % 256).toNat = 0x80 + n % 64 := by omega
        rw [e0, e1, if_pos ⟨by omega, by omega, by simp [isCont]; omega⟩]
        simp only [Int.toNat_ofNat, Option.some.injEq]
        omega
      · rw [if_neg c2, if_neg c2]
        by_cases c3 : (n : Int) < 0x10000
        · rw [if_pos c3, if_pos c3]
          refine ⟨rfl, ?_⟩
          simp only [List.drop_left, List.take_succ_cons, List.take_zero, utf8Decode]
          have e0 : ((0xE0 + ((n : Int) / 2 ^ 12 % 16) % 256) % 256).toNat =
              0xE0 + n / 4096 := by omega
          have e1 : ((0x80 + ((n : Int) / 2 ^ 6 % 64) % 256) % 256).toNat =
              0x80 + n / 64 % 64 := by omega
          have e2 : ((0x80 + ((n : Int) % 64) % 256) % 256).toNat = 0x80 + n % 64 := by omega
          rw [e0, e1, e2, if_pos]
          · simp only [Int.toNat_ofNat, Option.some.injEq]
            omega
          · refine ⟨?_, by simp [isCont]; omega⟩
            simp only [isCont, Bool.and_eq_true, decide_eq_true_eq]
            omega
        · rw [if_neg c3, if_neg c3]
          refine ⟨rfl, ?_⟩
          simp only [List.drop_left, List.take_succ_cons, List.take_zero, utf8Decode]
          have e0 : ((0xF0 + ((n : Int) / 2 ^ 18 % 8) % 256) % 256).toNat =
              0xF0 + n / 262144 := by omega
          have e1 : ((0x80 + ((n : Int) / 2 ^ 12 % 64) % 256) % 256).toNat =
              0x80 + n / 4096 % 64 := by omega
          have e2 : ((0x80 + ((n : Int) / 2 ^ 6 % 64) % 256) % 256).toNat =
              0x80 + n / 64 % 64 := by omega
          have e3 : ((0x80 + ((n : Int) % 64) % 256) % 256).toNat = 0x80 + n % 64 := by omega
          rw [e0, e1, e2, e3, if_pos]
          · simp only [Int.toNat_ofNat, Option.some.injEq]
            omega
          · refine ⟨?_, by simp [isCont]; omega, by simp [isCont]; omega⟩
            simp only [isCont, Bool.and_eq_true, decide_eq_true_eq]
            omega

/-- Witness for `Utf8Encode_scalar_value`: a buffer of six bytes written at index 1. -/
theorem Utf8Encode_scalar_value_witness :
    (∀ c : Int, 1 < (Utf8Encode [1, 2, 3, 4, 5, 6] 1 c).2 ∧
        (Utf8Encode [1, 2, 3, 4, 5, 6] 1 c).2 ≤ 1 + 4 ∧
        (Utf8Encode [1, 2, 3, 4, 5, 6] 1 c).1.length = [1, 2, 3, 4, 5, 6].length ∧
        (Utf8Encode [1, 2, 3, 4, 5, 6] 1 c).1.take 1 = [1, 2, 3, 4, 5, 6].take 1 ∧
        (Utf8Encode [1, 2, 3, 4, 5, 6] 1 c).1.drop (Utf8Encode [1, 2, 3, 4, 5, 6] 1 c).2 =
          [1, 2, 3, 4, 5, 6].drop (Utf8Encode [1, 2, 3, 4, 5, 6] 1 c).2) ∧
      (∀ c : Int, 0 ≤ c → c ≤ 0x10FFFF → (c < 0xD800 ∨ 0xDFFF < c) →
        (Utf8Encode [1, 2, 3, 4, 5, 6] 1 c).2 = 1 + utf8Len c ∧
        utf8Decode (((Utf8Encode [1, 2, 3, 4, 5, 6] 1 c).1.drop 1).take (utf8Len c)) =
          some c.toNat) :=
  Utf8Encode_scalar_value [1, 2, 3, 4, 5, 6] 1 (by decide)

/-- Evaluation of `Utf8Encode`: the euro sign U+20AC becomes E2 82 AC and U+1F600
becomes F0 9F 98 80, and both decode back. -/
theorem Utf8Encode_examples :
    Utf8Encode [0, 0, 0, 0, 9] 0 0x20AC = ([0xE2, 0x82, 0xAC, 0, 9], 3) ∧
      utf8Decode [0xE2, 0x82, 0xAC] = some 0x20AC ∧
      Utf8Encode [0, 0, 0, 0, 9] 0 0x1F600 = ([0xF0, 0x9F, 0x98, 0x80, 9], 4) ∧
      utf8Decode [0xF0, 0x9F, 0x98, 0x80] = some 0x1F600 := by
  decide

/-! ## The cursor stays inside the subject (C24) -/

theorem limited_endOut_le (P : List Char → List Char → PResult × List Slot)
    (s format : List Char) (k : Nat)
    (h : (ParseLimitedNumber P (some s) format).endOut = some k) : k ≤ s.length := by
  revert h
  simp only [ParseLimitedNumber]
  split
  · split
    · split
      · rename_i hw
        split
        · simp
        · split
          · split
            · simp
            · split
              · intro h
                simp at h
                have := Len_le_length s
                omega
              · simp
          all_goals simp
      · simp
    · simp
  · simp

theorem Len_of_no_NUL (s : List Char) (h : NUL ∉ s) : Len s = s.length := by
  induction s with
  | nil => rfl
  | cons c t ih =>
    have hc : c ≠ NUL := fun e => h (by simp [e])
    have ht : NUL ∉ t := fun e => h (by simp [e])
    have := ih ht
    simp only [Len] at this ⊢
    simp [hc, this]

theorem IsWs_NUL : IsWs NUL = false := by decide

/-- Every directive other than `%c` that goes on leaves `end` inside the subject. -/
theorem directive_bound (P : List Char → List Char → PResult × List Slot) (s : List Char)
    (f : List Char) (args : List Slot) (hc : cur f ≠ 'c') :
    ∀ f1 k a, directive P (some s) f args = .go f1 (some k) a → k ≤ s.length := by
  have hne : ∀ x : Char, x ≠ NUL → cur s = x → 1 ≤ s.length := by
    intro x hx h
    cases s with
    | nil => exact absurd h.symm hx
    | cons _ _ => simp
  by_cases hd : IsDigit (cur f) = true
  · rw [directive_digit P (some s) f args hd]
    intro f1 k a h
    split at h
    · simp at h
      exact limited_endOut_le P s f k h.2.1
    all_goals simp at h
  by_cases h1 : cur f = 'u'
  · simp only [directive, h1]
    intro f1 k a h
    simp at h
    rw [← h.2.1]
    exact scanInt_len_le 10 s
  by_cases h2 : cur f = 'd'
  · simp only [directive, h2]
    intro f1 k a h
    simp at h
    rw [← h.2.1]
    exact scanInt_len_le 10 s
  by_cases h3 : cur f = 'x'
  · simp only [directive, h3]
    intro f1 k a h
    simp at h
    rw [← h.2.1]
    exact scanInt_len_le 16 s
  by_cases h4 : cur f = 'f'
  · simp only [directive, h4]
    intro f1 k a h
    simp at h
    rw [← h.2.1]
    exact strtodLen_le s
  by_cases h6 : cur f = 's'
  · simp only [directive, h6]
    intro f1 k a h
    simp at h
    have h' := h.2.1
    unfold ExtractUntil at h'
    split at h'
    · simp at h'
    · rename_i j hj
      simp at h'
      rw [← h']
      exact FindChar_le_length _ s j hj
  by_cases h7 : cur f = 'S'
  · simp only [directive, h7]
    intro f1 k a h
    simp at h
    have h' := h.2.1
    unfold ExtractUntil at h'
    split at h'
    · simp at h'
    · rename_i j hj
      simp at h'
      rw [← h']
      exact FindChar_le_length _ s j hj
  by_cases h8 : cur f = '$'
  · have : IsDigit '$' = false := by decide
    simp only [directive, h8, this]
    intro f1 k a h
    simp at h
    split at h <;> simp at h
  by_cases h9 : cur f = '%'
  · have : IsDigit '%' = false := by decide
    simp only [directive, h9, this]
    intro f1 k a h
    simp at h
    split at h
    · rename_i hs
      simp at h
      rw [← h.2.1]
      exact hne '%' (by decide) hs.symm
    · simp at h
  by_cases h10 : cur f = ' '
  · have : IsDigit ' ' = false := by decide
    simp only [directive, h10, this]
    intro f1 k a h
    simp at h
    split at h
    · rename_i hs
      simp at h
      rw [← h.2.1]
      cases s with
      | nil => simp [IsWs_NUL] at hs
      | cons _ _ => simp
    · simp at h
  by_cases h11 : cur f = '_'
  · simp only [directive, h11]
    intro f1 k a h
    simp at h
    split at h
    · simp at h
    · rename_i hs
      simp at h
      rw [← h.2.1]
      cases s with
      | nil => simp [IsWs_NUL] at hs
      | cons x t =>
        have := length_takeWhile_le_length IsWs t
        simp
        omega
  by_cases h12 : cur f = '?'
  · have : IsDigit '?' = false := by decide
    simp only [directive, h12, this]
    intro f1 k a h
    simp at h
    split at h
    · simp at h
    · rename_i hq
      split at h
      · rename_i hs
        simp at h
        rw [← h.2.1]
        exact hne _ hq hs
      · simp at h
  intro f1 k a h
  simp [directive, h1, h2, h3, h4, hc, h6, h7, h8, h9, h10, h11, h12, hd] at h

theorem scanFmt_pct_c (f : List Char) (h : cur f = 'c') (h0 : NUL ∉ f) :
    Kind.chr ∈ scanFmt .pct f := by
  cases f with
  | nil => exact absurd h (by decide)
  | cons c r =>
    simp only [cur_cons] at h
    subst h
    simp [scanFmt]

theorem ParseV_bound : ∀ (L : Nat) (f : List Char) (n : Nat) (s : List Char) (pos : Nat)
    (args : List Slot) (off : Nat) (out : List Slot), f.length ≤ L → L + 3 ≤ n → NUL ∉ f →
    Kind.chr ∉ scanFmt .lit f →
    ParseV n (some s) pos f args = (.ptr off, out) → pos ≤ off ∧ off ≤ pos + s.length := by
  intro L
  induction L with
  | zero =>
    intro f n s pos args off out hf hn _ _ h
    obtain ⟨m, rfl⟩ : ∃ m, n = m + 1 := ⟨n - 1, by omega⟩
    have : f = [] := List.eq_nil_of_length_eq_zero (by omega)
    subst this
    rw [ParseV_nil] at h
    simp at h
    omega
  | succ L ih =>
    intro f n s pos args off out hf hn h0 hchr h
    obtain ⟨m, rfl⟩ : ∃ m, n = m + 1 := ⟨n - 1, by omega⟩
    cases f with
    | nil =>
      rw [ParseV_nil] at h
      simp at h
      omega
    | cons c f1 =>
      have hf1 : f1.length ≤ L := by simpa using hf
      have hm : L + 3 ≤ m := by omega
      have hc0 : c ≠ NUL := fun e => h0 (by simp [e])
      have h01 : NUL ∉ f1 := fun e => h0 (by simp [e])
      by_cases hp : c = '%'
      · subst hp
        rw [ParseV_percent] at h
        obtain ⟨j, rfl⟩ : ∃ j, m = j + 3 := ⟨m - 3, by omega⟩
        have hk := directive_kinds j (some s) f1 args h01
        have hsh := directive_shape (fun s fmt => ParseV (j + 3) (some s) 0 fmt []) (some s) f1 args
        have hlit : scanFmt .lit ('%' :: f1) = scanFmt .pct f1 := by simp [scanFmt]
        rw [hlit] at hchr
        have hnc : cur f1 ≠ 'c' := fun e => hchr (scanFmt_pct_c f1 e h01)
        have hb := directive_bound (fun s fmt => ParseV (j + 3) (some s) 0 fmt []) s f1 args hnc
        cases hdir : directive (fun s fmt => ParseV (j + 3) (some s) 0 fmt []) (some s) f1
            args with
        | fault a => rw [hdir] at h; simp at h
        | timeout a => rw [hdir] at h; simp at h
        | cont f2 a =>
          rw [hdir] at h
          obtain ⟨_, hs⟩ := hk.1 f2 a hdir
          have h2 := hsh.2.1 f2 a hdir
          have h02 : NUL ∉ f2.drop 1 := fun e =>
            h01 ((directive_subset _ (some s) f1 args).1 f2 a hdir (List.drop_subset 1 f2 e))
          exact ih (f2.drop 1) (j + 3) s pos a off out (by simp; omega) hm h02
            (by rw [← hs]; exact hchr) h
        | go f2 e a =>
          rw [hdir] at h
          have h2 := hsh.2.2 f2 e a hdir
          cases e with
          | none => simp at h
          | some i =>
            simp only [] at h
            split at h
            · simp at h
            · obtain ⟨K, _, hK2⟩ := hk.2 f2 i a hdir
              have h02 : NUL ∉ f2.drop 1 := fun e =>
                h01 ((directive_subset _ (some s) f1 args).2 f2 (some i) a hdir
                  (List.drop_subset 1 f2 e))
              have hi : i ≤ s.length := hb f2 i a hdir
              have hadd : Ptr.add (some s) i = some (s.drop i) := by simp [Ptr.add, hi]
              rw [hadd] at h
              have := ih (f2.drop 1) (j + 3) (s.drop i) (pos + i) a off out (by simp; omega) hm
                h02 (fun e => hchr (by rw [hK2]; exact List.mem_append_right _ e)) h
              simp only [List.length_drop] at this
              omega
      · rw [ParseV_lit m s pos c f1 args hc0 hp] at h
        split at h
        · simp at h
        · rename_i hcs
          have hcs' : c = cur s := by simpa using hcs
          have hlen : 1 ≤ s.length := by
            cases s with
            | nil => exact absurd hcs' hc0
            | cons _ _ => simp
          have := ih f1 m (s.drop 1) (pos + 1) args off out hf1 hm h01
            (by simpa [scanFmt, hp] using hchr) h
          simp only [List.length_drop] at this
          omega

/-- Claim C24: for a subject and a format (NUL-terminated strings) whose directives
do not include `%c`, a successful `Parse` returns a cursor whose offset from the
start of the subject is at most the length of the subject; and from every
state of the loop of `ParseV` (cursor at offset `pos`, `s` left of the subject,
the rest of the format `fmt` to go) a successful parse ends at an offset that
is not before `pos` and not after the terminator. -/
theorem cursor_stays_in_subject (fmt : List Char) (hf : NUL ∉ fmt)
    (hc : Kind.chr ∉ slotKinds fmt) :
    (∀ (str : List Char) (off : Nat) (slots : List Slot), NUL ∉ str →
        Parse str fmt = (.ptr off, slots) → off ≤ Len str) ∧
      (∀ (n : Nat) (s : List Char) (pos : Nat) (args : List Slot) (off : Nat)
        (out : List Slot), fmt.length + 3 ≤ n →
        ParseV n (some s) pos fmt args = (.ptr off, out) → pos ≤ off ∧ off ≤ pos + s.length) := by
  refine ⟨?_, ?_⟩
  · intro str off slots hs h
    have := ParseV_bound fmt.length fmt (fmt.length + 3) str 0 [] off slots (Nat.le_refl _)
      (Nat.le_refl _) hf hc h
    rw [Len_of_no_NUL str hs]
    omega
  · intro n s pos args off out hn h
    exact ParseV_bound fmt.length fmt n s pos args off out (Nat.le_refl _) hn hf hc h

/-- Witness for `cursor_stays_in_subject`: the format "%d %s:%_ab%$". -/
theorem cursor_stays_in_subject_witness :
    (∀ (str : List Char) (off : Nat) (slots : List Slot), NUL ∉ str →
        Parse str "%d %s:%_ab%$".toList = (.ptr off, slots) → off ≤ Len str) ∧
      (∀ (n : Nat) (s : List Char) (pos : Nat) (args : List Slot) (off : Nat)
        (out : List Slot), "%d %s:%_ab%$".toList.length + 3 ≤ n →
        ParseV n (some s) pos "%d %s:%_ab%$".toList args = (.ptr off, out) →
        pos ≤ off ∧ off ≤ pos + s.length) :=
  cursor_stays_in_subject "%d %s:%_ab%$".toList (by decide) (by decide)

/-- Evaluation for `cursor_stays_in_subject`: "12 ab: ab" against "%d %s:%_ab%$" ends
on the terminator, at offset 9 of 9; with `%c` in the format the cursor of
`Parse("", "%c")` ends at offset 1 of 0. -/
theorem cursor_examples :
    (Parse "12 ab: ab".toList "%d %s:%_ab%$".toList).1 = .ptr 9 ∧
      Len "12 ab: ab".toList = 9 ∧
      (Parse [] "%c".toList).1 = .ptr 1 := by
  decide

end str
